import Mathlib

/-!
# RouteFlow: link-state routing graph and its shortest-path engine

A shallow embedding of `src/src.cpp` (class `RouteFlow`): the topology
(`addRouter`, `addLink`, `linkDown`, `linkUp`), the shortest-path computation
(`dijkstra`) and the path reconstruction (`getPath`). The console output and the
display methods are left out.

Conventions of the embedding:

* `std::string` is `String`; `int` is `Int`. The one arithmetic operation of the
  program, `dist[curr.id] + edge.cost`, is reduced to the 32-bit two's-complement
  range by `wrapInt`: signed overflow is undefined behaviour in C++, and the model
  takes the wrapped value that the usual compilers compute. Under the cost bound
  of the correctness theorems the sum is proved to stay in range, so that they
  do not depend on this choice.
* `std::unordered_map<string, T>` is an association list `SMap T` read by
  `SMap.find` (first binding of a key) and written by `SMap.set`; `operator[]`
  on a missing key inserts a value-initialised binding, which is `SMap.touch`.
  The order of the bindings is an artefact of the model; the theorems speak of
  the maps through `SMap.find`.
* `std::unordered_set<string>` is a duplicate-free `List String`.
* `std::priority_queue<Node, vector<Node>, greater<Node>>` is not part of the
  repository: it is a parameter `PQueue`, and the theorems hold for every
  implementation that satisfies `PQueue.Lawful`, whatever entry it pops among
  several of least distance. `listPQ` is one such implementation.
* The two `while` loops take a fuel argument and return `none` when it runs out;
  `dijkstra_total` shows that the loop of `dijkstra` always ends.
* `dijkstra` is not `const`: `graph[curr.id]` inserts an empty adjacency list for
  a key that is missing, so the model returns the graph member with the maps.
* Two ghost devices serve the statements only: `dijkstraLoopLog` is the loop of
  `dijkstra` with a log of the exact sums it computes (`dijkstraLoopLog_fst`
  shows that it is the same loop), and `tieFree` checks that a run with the list
  queue never has two different entries of least distance, in which case every
  lawful queue gives the same run (`dijkstra_sameRun`).
-/

namespace RouteFlow

/-! ## Association lists standing for `std::unordered_map<string, T>` -/

/-- An association list with `String` keys. -/
abbrev SMap (α : Type) := List (String × α)

/-- The value bound to `x` (`m.find(x)`), if any. -/
def SMap.find {α : Type} : SMap α → String → Option α
  | [], _ => none
  | (k, v) :: m, x => if k = x then some v else SMap.find m x

/-- The assignment `m[x] = a`: overwrite the binding of `x`, or insert one. -/
def SMap.set {α : Type} : SMap α → String → α → SMap α
  | [], x, a => [(x, a)]
  | (k, v) :: m, x, a => if k = x then (x, a) :: m else (k, v) :: SMap.set m x a

/-- The value read by `m[x]`, with `d` the value-initialised default. -/
def SMap.getD {α : Type} (m : SMap α) (x : String) (d : α) : α :=
  (m.find x).getD d

/-- The effect of evaluating `m[x]` on the map: a missing key is inserted with
the value-initialised default `d`. -/
def SMap.touch {α : Type} (m : SMap α) (x : String) (d : α) : SMap α :=
  match m.find x with
  | some _ => m
  | none => m.set x d

/-! ## Data model -/

/-- The constant `numeric_limits<int>::max()`. -/
def INT_MAX : Int := 2147483647

/-- The result of an `int` addition whose exact value is `x`, in 32-bit
two's complement. -/
def wrapInt (x : Int) : Int := (x + 2147483648) % 4294967296 - 2147483648

/-- The struct `Edge`: one half-edge stored in the adjacency of its origin. -/
structure Edge where
  dest : String
  cost : Int
  isUp : Bool
deriving DecidableEq

/-- The constructor `Edge(d, c)`: a new half-edge is up. -/
def Edge.new (d : String) (c : Int) : Edge := ⟨d, c, true⟩

/-- The struct `Node`: an entry of the priority queue. -/
structure Node where
  id : String
  dist : Int
deriving DecidableEq

/-- The private members of class `RouteFlow`. -/
structure Network where
  graph : SMap (List Edge)
  nodes : List String
deriving DecidableEq

/-- The freshly constructed `RouteFlow network;`. -/
def Network.empty : Network := ⟨[], []⟩

/-- The adjacency list of `u` as read by `graph[u]`. -/
def Network.adj (s : Network) (u : String) : List Edge := s.graph.getD u []

/-! ## Topology mutation -/

/-- The method `addRouter`. -/
def addRouter (s : Network) (router : String) : Network :=
  { nodes := if router ∈ s.nodes then s.nodes else s.nodes ++ [router]
    graph := match s.graph.find router with
      | none => s.graph.set router []
      | some _ => s.graph }

/-- The statement `graph[k].push_back(e)`. -/
def pushBack (g : SMap (List Edge)) (k : String) (e : Edge) : SMap (List Edge) :=
  g.set k (g.getD k [] ++ [e])

/-- The method `addLink` (the console output is not modelled). -/
def addLink (s : Network) (src dest : String) (cost : Int) : Network :=
  let s2 := addRouter (addRouter s src) dest
  let g3 := pushBack s2.graph src (Edge.new dest cost)
  let g4 := pushBack g3 dest (Edge.new src cost)
  { s2 with graph := g4 }

/-- The loop `for (auto& edge : es) if (edge.dest == target) { edge.isUp = up; break; }`. -/
def markFirst (target : String) (up : Bool) : List Edge → List Edge
  | [] => []
  | e :: es =>
    if e.dest = target then { e with isUp := up } :: es
    else e :: markFirst target up es

/-- The two loops shared by `linkDown` and `linkUp`, on `graph[src]` and then on
`graph[dest]`. -/
def setLinkState (s : Network) (src dest : String) (up : Bool) : Network :=
  let g1 := s.graph.set src (markFirst dest up (s.graph.getD src []))
  let g2 := g1.set dest (markFirst src up (g1.getD dest []))
  { s with graph := g2 }

/-- The method `linkDown` (the console output is not modelled). -/
def linkDown (s : Network) (src dest : String) : Network := setLinkState s src dest false

/-- The method `linkUp` (the console output is not modelled). -/
def linkUp (s : Network) (src dest : String) : Network := setLinkState s src dest true

/-- A call of one of the four public mutators. -/
inductive Op where
  | addRouter (router : String)
  | addLink (src dest : String) (cost : Int)
  | linkDown (src dest : String)
  | linkUp (src dest : String)
deriving DecidableEq

/-- The effect of one call. -/
def Op.apply (s : Network) : Op → Network
  | Op.addRouter r => RouteFlow.addRouter s r
  | Op.addLink a b c => RouteFlow.addLink s a b c
  | Op.linkDown a b => RouteFlow.linkDown s a b
  | Op.linkUp a b => RouteFlow.linkUp s a b

/-- The network built from the empty one by a sequence of calls, first call first. -/
def build (ops : List Op) : Network := ops.foldl Op.apply Network.empty

/-! ## The priority queue -/

/-- An implementation of `std::priority_queue<Node, vector<Node>, greater<Node>>`:
`pop` is `top()` followed by `pop()`, and is `none` on an empty queue;
`contents` lists the entries held. -/
structure PQueue where
  Q : Type
  empty : Q
  push : Node → Q → Q
  pop : Q → Option (Node × Q)
  contents : Q → List Node

/-- What the C++ standard promises of the queue: `push` adds one entry, `pop`
removes an entry whose `dist` is least (`Node::operator>` compares `dist` only),
and which of several least entries comes out is left open. -/
structure PQueue.Lawful (P : PQueue) : Prop where
  contents_empty : P.contents P.empty = []
  contents_push : ∀ n q, List.Perm (P.contents (P.push n q)) (n :: P.contents q)
  pop_none : ∀ q, P.pop q = none → P.contents q = []
  pop_some : ∀ q n q1, P.pop q = some (n, q1) →
    List.Perm (P.contents q) (n :: P.contents q1) ∧ ∀ m ∈ P.contents q, n.dist ≤ m.dist

/-- Removes the first entry of least `dist` from a list. -/
def popMin : List Node → Option (Node × List Node)
  | [] => none
  | n :: q =>
    match popMin q with
    | none => some (n, [])
    | some (m, q1) => if n.dist ≤ m.dist then some (n, q) else some (m, n :: q1)

/-- A concrete queue: an unsorted list, searched for its first least entry. -/
def listPQ : PQueue where
  Q := List Node
  empty := []
  push := fun n q => q ++ [n]
  pop := popMin
  contents := fun q => q

/-! ## Shortest paths -/

/-- The local state of `dijkstra`, together with the member `graph`, which
`graph[curr.id]` may extend. -/
structure DState (P : PQueue) where
  dist : SMap Int
  prev : SMap String
  pq : P.Q
  graph : SMap (List Edge)

/-- The distance and predecessor maps returned by `dijkstra`, and the member
`graph` as the call leaves it. -/
structure DResult where
  dist : SMap Int
  prev : SMap String
  graph : SMap (List Edge)
deriving DecidableEq

/-- The body of `for (const auto& edge : graph[curr.id])`. -/
def relaxEdge (P : PQueue) (currId : String) (st : DState P) (edge : Edge) : DState P :=
  if edge.isUp = false then st
  else
    let dist1 := st.dist.touch currId 0
    let newDist := wrapInt (dist1.getD currId 0 + edge.cost)
    let dist2 := dist1.touch edge.dest 0
    if newDist < dist2.getD edge.dest 0 then
      { st with
        dist := dist2.set edge.dest newDist
        prev := st.prev.set edge.dest currId
        pq := P.push ⟨edge.dest, newDist⟩ st.pq }
    else { st with dist := dist2 }

/-- The body of `while (!pq.empty())`, for the popped entry `curr` and the rest
`q1` of the queue. -/
def dijkstraStep (P : PQueue) (st : DState P) (curr : Node) (q1 : P.Q) : DState P :=
  let dist1 := st.dist.touch curr.id 0
  if curr.dist > dist1.getD curr.id 0 then { st with dist := dist1, pq := q1 }
  else
    let graph1 := st.graph.touch curr.id []
    (graph1.getD curr.id []).foldl (relaxEdge P curr.id)
      { dist := dist1, prev := st.prev, pq := q1, graph := graph1 }

/-- The loop `while (!pq.empty())`, run for at most `fuel` iterations. -/
def dijkstraLoop (P : PQueue) : Nat → DState P → Option (DState P)
  | 0, _ => none
  | fuel + 1, st =>
    match P.pop st.pq with
    | none => some st
    | some (curr, q1) => dijkstraLoop P fuel (dijkstraStep P st curr q1)

/-- The loop `for (const auto& node : nodes) dist[node] = INT_MAX;`. -/
def initDist (nodes : List String) : SMap Int :=
  nodes.foldl (fun (d : SMap Int) node => SMap.set d node INT_MAX) []

/-- The state of `dijkstra` when the loop is entered. -/
def dijkstraInit (P : PQueue) (s : Network) (source : String) : DState P :=
  { dist := SMap.set (initDist s.nodes) source 0
    prev := []
    pq := P.push ⟨source, 0⟩ P.empty
    graph := s.graph }

/-- The method `dijkstra`. -/
def dijkstra (P : PQueue) (fuel : Nat) (s : Network) (source : String) : Option DResult :=
  (dijkstraLoop P fuel (dijkstraInit P s source)).map
    fun st => { dist := st.dist, prev := st.prev, graph := st.graph }

/-- The loop `while (curr != src)` of `getPath`, run for at most `fuel` iterations;
the result is `path` at the loop exit. -/
def getPathLoop (src : String) (prev : SMap String) : Nat → String → List String →
    Option (List String)
  | fuel, curr, path =>
    if curr = src then some path
    else
      match fuel with
      | 0 => none
      | fuel + 1 =>
        match prev.find curr with
        | none => some (path ++ [curr])
        | some p => getPathLoop src prev fuel p (path ++ [curr])

/-- The method `getPath`. -/
def getPath (fuel : Nat) (src dest : String) (prev : SMap String) : Option (List String) :=
  if prev.find dest = none ∧ dest ≠ src then some []
  else (getPathLoop src prev fuel dest []).map fun path => (path ++ [src]).reverse

/-! ## Specification vocabulary and loop invariants -/

/-- The destinations of all half-edges stored in a graph. -/
def allDests : SMap (List Edge) → List String
  | [] => []
  | (_, es) :: m => es.map Edge.dest ++ allDests m

/-- Every stored distance is an `int`. -/
def InRange (d : SMap Int) : Prop :=
  ∀ x v, SMap.find d x = some v → -2147483648 ≤ v ∧ v < 2147483648

/-- The sum over the keys `K` of the distance read at the key, shifted to be non-negative. -/
def phi (K : List String) (d : SMap Int) : Int :=
  (K.map fun k => SMap.getD d k 0 + 2147483648).sum

/-- The termination measure of the loop of `dijkstra`. -/
def mu (P : PQueue) (K : List String) (st : DState P) : Int :=
  2 * phi K st.dist + (P.contents st.pq).length

/-- The sum of the costs of a list of half-edges. -/
def outCost (es : List Edge) : Int := (es.map Edge.cost).sum

/-- The sum of the costs of all half-edges of the network (each link counts in
both directions). -/
def totalCost (s : Network) : Int := (s.graph.map fun kv => outCost kv.2).sum

/-- Every half-edge has a non-negative cost. -/
def NonNegCosts (s : Network) : Prop := ∀ kv ∈ s.graph, ∀ e ∈ kv.2, 0 ≤ e.cost

/-- Every half-edge leads to a router of the router set. -/
def DestsKnown (s : Network) : Prop := ∀ kv ∈ s.graph, ∀ e ∈ kv.2, e.dest ∈ s.nodes

/-- A walk from `source` over up half-edges: `UpWalk s source v k` says that some
walk from `source` to `v` uses only half-edges whose `isUp` flag is true and has
total cost `k`. -/
inductive UpWalk (s : Network) (source : String) : String → Int → Prop
  | start : UpWalk s source source 0
  | step {u : String} {k : Int} (e : Edge) :
      UpWalk s source u k → e ∈ s.adj u → e.isUp = true → UpWalk s source e.dest (k + e.cost)

/-- The sum of the costs of the half-edges leaving the routers of `T`. -/
def settledCost (s : Network) (T : List String) : Int :=
  (T.map fun u => outCost (s.adj u)).sum

/-- In the list `T`, every router other than `source` has its predecessor further
down the list. -/
def TreeOrd (prev : SMap String) (source : String) : List String → Prop
  | [] => True
  | v :: rest => (v = source ∨ ∃ p, SMap.find prev v = some p ∧ p ∈ rest) ∧
      TreeOrd prev source rest

/-- The half-edges `es` leaving `w` have been relaxed: none of them that is up
offers its destination a smaller distance. -/
def Closed (dist : SMap Int) (w : String) (es : List Edge) : Prop :=
  ∀ e ∈ es, e.isUp = true → ∃ dw dv, SMap.find dist w = some dw ∧
    SMap.find dist e.dest = some dv ∧ dv ≤ dw + e.cost

/-- The invariant of the loop of `dijkstra`, for the list `T` of the routers
whose half-edges have been relaxed (latest first). -/
structure DInv (P : PQueue) (s : Network) (source : String) (T : List String)
    (st : DState P) : Prop where
  graph_eq : ∀ u, SMap.getD st.graph u [] = s.adj u
  keys : ∀ v ∈ s.nodes, ∃ dv, SMap.find st.dist v = some dv
  src0 : SMap.find st.dist source = some 0
  nodupT : T.Nodup
  bound : ∀ v dv, SMap.find st.dist v = some dv → dv ≠ INT_MAX →
    0 ≤ dv ∧ dv ≤ settledCost s T
  sbound : ∀ w ∈ T, ∃ dw, SMap.find st.dist w = some dw ∧ dw ≠ INT_MAX ∧
    dw + outCost (s.adj w) ≤ settledCost s T
  settled_le : ∀ w ∈ T, ∀ dw, SMap.find st.dist w = some dw → ∀ n ∈ P.contents st.pq,
    dw ≤ n.dist ∧ (n.id = w → dw < n.dist)
  queue : ∀ n ∈ P.contents st.pq, ∃ dv, SMap.find st.dist n.id = some dv ∧
    dv ≤ n.dist ∧ dv ≠ INT_MAX
  nodupQ : (P.contents st.pq).Nodup
  frontier : ∀ v dv, SMap.find st.dist v = some dv → dv ≠ INT_MAX →
    v ∈ T ∨ (⟨v, dv⟩ : Node) ∈ P.contents st.pq
  prev_dom : ∀ v p, SMap.find st.prev v = some p →
    v ≠ source ∧ ∃ dv, SMap.find st.dist v = some dv ∧ dv ≠ INT_MAX
  tree : ∀ v dv, SMap.find st.dist v = some dv → dv ≠ INT_MAX → v ≠ source →
    ∃ p e dp, SMap.find st.prev v = some p ∧ p ∈ T ∧ e ∈ s.adj p ∧ e.isUp = true ∧
      e.dest = v ∧ SMap.find st.dist p = some dp ∧ dv = dp + e.cost
  order : TreeOrd st.prev source T
  walk : ∀ v dv, SMap.find st.dist v = some dv → dv ≠ INT_MAX → UpWalk s source v dv

/-- The invariant of the loop over the half-edges of `u`, of which `done` have
been relaxed. -/
structure Inner (P : PQueue) (s : Network) (source u : String) (T : List String)
    (done : List Edge) (st : DState P) : Prop where
  inv : DInv P s source (u :: T) st
  closedT : ∀ w ∈ T, Closed st.dist w (s.adj w)
  closedU : Closed st.dist u done
  top : ∃ du, SMap.find st.dist u = some du ∧
    ∀ w ∈ u :: T, ∀ dw, SMap.find st.dist w = some dw → dw ≤ du

/-- The invariant of the loop of `dijkstra`. -/
def Outer (P : PQueue) (s : Network) (source : String) (st : DState P) : Prop :=
  ∃ T, DInv P s source T st ∧ ∀ w ∈ T, Closed st.dist w (s.adj w)

/-- The list `path` leads from `source` to its last element `d` over up
half-edges, each of which accounts exactly for the difference of the distances
of its two ends, and the costs of these half-edges sum to `k`. -/
inductive PathVia (s : Network) (dist : SMap Int) (source : String) :
    List String → String → Int → Prop
  | single : PathVia s dist source [source] source 0
  | snoc {l : List String} {u : String} {k : Int} (e : Edge) (du : Int) :
      PathVia s dist source l u k → e ∈ s.adj u → e.isUp = true →
      SMap.find dist u = some du → SMap.find dist e.dest = some (du + e.cost) →
      PathVia s dist source (l ++ [e.dest]) e.dest (k + e.cost)

/-- The routers `u` and `v` are joined by an up half-edge `u -> v` of some cost
`c` with `dist[v] = dist[u] + c`. -/
def Hop (s : Network) (dist : SMap Int) (u v : String) : Prop :=
  ∃ e ∈ s.adj u, e.isUp = true ∧ e.dest = v ∧
    ∃ du, SMap.find dist u = some du ∧ SMap.find dist v = some (du + e.cost)

/-- Following `prev` from `v` reaches `source` after finitely many steps, every
router met before `source` having a `prev` entry. -/
inductive ChainTo (prev : SMap String) (source : String) : String → Prop
  | here : ChainTo prev source source
  | step {v p : String} : v ≠ source → SMap.find prev v = some p →
      ChainTo prev source p → ChainTo prev source v

instance (s : Network) : Decidable (NonNegCosts s) := by
  unfold NonNegCosts
  infer_instance

instance (s : Network) : Decidable (DestsKnown s) := by
  unfold DestsKnown
  infer_instance

/-- A line of three routers whose costs exceed what an `int` sum can hold:
`A - B` of cost `INT_MAX - 1` and `B - C` of cost `2`. -/
def overflowLine : Network :=
  build [Op.addLink "A" "B" 2147483646, Op.addLink "B" "C" 2]

/-- The triangle `A - B` (4), `A - C` (2), `B - C` (1). -/
def triangle : List Op :=
  [Op.addLink "A" "B" 4, Op.addLink "A" "C" 2, Op.addLink "B" "C" 1]

/-- The invariant of the loop of `dijkstra` that needs no assumption on the costs:
only routers that a walk over up half-edges reaches from `source` are in the
queue, and the entries of every other router are as in the initial distance map
`d0` and the empty predecessor map. -/
def ReachInv (P : PQueue) (s : Network) (source : String) (d0 : SMap Int)
    (st : DState P) : Prop :=
  (∀ u, SMap.getD st.graph u [] = s.adj u) ∧
  (∀ n ∈ P.contents st.pq, ∃ k, UpWalk s source n.id k) ∧
  (∀ x, (¬ ∃ k, UpWalk s source x k) →
    SMap.find st.prev x = none ∧ SMap.find st.dist x = SMap.find d0 x)

/-- The triangle network with a fourth router `D` that has no link. -/
def triangleAndD : Network := build (triangle ++ [Op.addRouter "D"])

/-- The network obtained by deleting every half-edge whose `isUp` flag is false
from every adjacency list. -/
def removeDown (s : Network) : Network :=
  { s with graph := s.graph.map fun kv => (kv.1, kv.2.filter fun e => e.isUp) }

/-- The first half-edge of an adjacency list that leads to `target`. -/
def firstTo (target : String) : List Edge → Option Edge
  | [] => none
  | e :: es => if e.dest = target then some e else firstTo target es

/-- The number of half-edges of an adjacency list that lead to `target`. -/
def countTo (target : String) (es : List Edge) : Nat :=
  (es.filter fun e => e.dest = target).length

/-- The network with the one self-link `A - A` of cost 1. -/
def selfLink : Network := build [Op.addLink "A" "A" 1]

/-- The triangle network after `linkDown("A", "C")`. -/
def triangleDown : List Op := triangle ++ [Op.linkDown "A" "C"]

/-- The graph member with every down half-edge deleted. -/
def stripGraph (g : SMap (List Edge)) : SMap (List Edge) :=
  g.map fun kv => (kv.1, kv.2.filter fun e => e.isUp)

/-- A state of `dijkstra` with every down half-edge deleted from the graph member. -/
def DState.strip {P : PQueue} (st : DState P) : DState P :=
  { st with graph := stripGraph st.graph }

/-- For any two distinct routers, as many half-edges lead from the first to the
second as from the second to the first. -/
def Paired (s : Network) : Prop :=
  ∀ a b, a ≠ b → countTo b (s.adj a) = countTo a (s.adj b)

/-- The costs and states of the half-edges of an adjacency list that lead to
`target`, in the order of the list. -/
def linkView (target : String) (es : List Edge) : List (Int × Bool) :=
  (es.filter fun e => e.dest = target).map fun e => (e.cost, e.isUp)

/-- The state of the first entry of a `linkView` set to `up`. -/
def setHead (up : Bool) : List (Int × Bool) → List (Int × Bool)
  | [] => []
  | (c, _) :: l => (c, up) :: l

/-- For any two distinct routers `a` and `b`, the half-edges `a -> b` stored with
`a` and the half-edges `b -> a` stored with `b` agree one by one, in the order of
their insertion, in cost and in state. -/
def Mirrored (s : Network) : Prop :=
  ∀ a b, a ≠ b → linkView b (s.adj a) = linkView a (s.adj b)

/-- The calls are calls of `addRouter` and `addLink` only. -/
def AddOnly (ops : List Op) : Prop :=
  ∀ op ∈ ops, (∃ r, op = Op.addRouter r) ∨ (∃ a b c, op = Op.addLink a b c)

/-- Only routers have half-edges: a name outside the router set has an empty
adjacency list. -/
def OnlyRouters (s : Network) : Prop := ∀ x, x ∉ s.nodes → s.adj x = []

/-- No two different entries of a queue are both of least distance, so that
every lawful queue pops the same entry. -/
def UniqueMin (q : List Node) : Prop :=
  ∀ m ∈ q, ∀ n ∈ q, (∀ x ∈ q, m.dist ≤ x.dist) → (∀ x ∈ q, n.dist ≤ x.dist) → m = n

instance (q : List Node) : Decidable (UniqueMin q) := by
  unfold UniqueMin
  infer_instance

/-- The run of the loop of `dijkstra` with the list queue never meets two
different entries of least distance, for `fuel` iterations. -/
def tieFree : Nat → DState listPQ → Bool
  | 0, _ => true
  | fuel + 1, st =>
    decide (UniqueMin (listPQ.contents st.pq)) &&
      match listPQ.pop st.pq with
      | none => true
      | some (curr, q1) => tieFree fuel (dijkstraStep listPQ st curr q1)

/-- A state of `dijkstra` over the queue `P` and one over the list queue hold the
same maps, the same graph and the same queue entries. -/
def SameRun (P : PQueue) (st : DState P) (st2 : DState listPQ) : Prop :=
  st.dist = st2.dist ∧ st.prev = st2.prev ∧ st.graph = st2.graph ∧
    List.Perm (P.contents st.pq) (listPQ.contents st2.pq)

/-- Every router has an entry in the adjacency map. -/
def NodesKeyed (s : Network) : Prop := ∀ v ∈ s.nodes, SMap.find s.graph v ≠ none

/-- The network with the one link `A - B` of cost 1. -/
def oneLink : Network := build [Op.addLink "A" "B" 1]

/-- The position of the first half-edge of an adjacency list that leads to
`target`. -/
def firstIdx (target : String) : List Edge → Option Nat
  | [] => none
  | e :: es => if e.dest = target then some 0 else (firstIdx target es).map fun i => i + 1

/-- The network `s2` is `s` with the flag `up` written to the first half-edge to
`b` in the list of `a` and to the first half-edge to `a` in the list of `b`, and
nothing else changed: same router set, and in every adjacency list the same
length, the same half-edges at the same positions, and the same flags at all
other positions. -/
def FirstMatchFrame (s : Network) (a b : String) (up : Bool) (s2 : Network) : Prop :=
  s2.nodes = s.nodes ∧
  ∀ x, (s2.adj x).length = (s.adj x).length ∧
    ∀ i, (s2.adj x)[i]? = ((s.adj x)[i]?).map fun e =>
      if (a = x ∧ firstIdx b (s.adj x) = some i) ∨ (b = x ∧ firstIdx a (s.adj x) = some i)
      then { e with isUp := up } else e

/-- The backward walk of `getPath` over a broken predecessor chain:
`BrokenWalk prev src v l x` says that following `prev` from `v` never meets `src`,
collects the routers `l` (`v` first) and stops at `x`, which has no entry. -/
inductive BrokenWalk (prev : SMap String) (src : String) :
    String → List String → String → Prop
  | stop {x : String} : x ≠ src → SMap.find prev x = none → BrokenWalk prev src x [x] x
  | step {v p x : String} {l : List String} : v ≠ src → SMap.find prev v = some p →
      BrokenWalk prev src p l x → BrokenWalk prev src v (v :: l) x

/-! ## The sums computed by `dijkstra` -/

/-- The exact value of the sum `dist[curr.id] + edge.cost` that the body of the
inner loop computes for the half-edge `edge` in the state `st`. -/
def relaxSum {P : PQueue} (currId : String) (st : DState P) (edge : Edge) : Int :=
  (st.dist.touch currId 0).getD currId 0 + edge.cost

/-- The body of the inner loop, `relaxEdge`, with a log to which the exact value
of the sum is appended whenever the sum is computed, that is for every
half-edge that is up. -/
def relaxEdgeLog (P : PQueue) (currId : String) (p : DState P × List Int) (edge : Edge) :
    DState P × List Int :=
  (relaxEdge P currId p.1 edge,
    if edge.isUp = false then p.2 else p.2 ++ [relaxSum currId p.1 edge])

/-- The body of the outer loop, `dijkstraStep`, with the log. -/
def dijkstraStepLog (P : PQueue) (p : DState P × List Int) (curr : Node) (q1 : P.Q) :
    DState P × List Int :=
  let dist1 := p.1.dist.touch curr.id 0
  if curr.dist > dist1.getD curr.id 0 then ({ p.1 with dist := dist1, pq := q1 }, p.2)
  else
    let graph1 := p.1.graph.touch curr.id []
    (graph1.getD curr.id []).foldl (relaxEdgeLog P curr.id)
      ({ dist := dist1, prev := p.1.prev, pq := q1, graph := graph1 }, p.2)

/-- The outer loop, `dijkstraLoop`, with the log. -/
def dijkstraLoopLog (P : PQueue) : Nat → DState P × List Int → Option (DState P × List Int)
  | 0, _ => none
  | fuel + 1, p =>
    match P.pop p.1.pq with
    | none => some p
    | some (curr, q1) => dijkstraLoopLog P fuel (dijkstraStepLog P p curr q1)

/-- The exact values of all sums `dist[curr.id] + edge.cost` that a call of
`dijkstra` computes, in the order of their computation. -/
def dijkstraSums (P : PQueue) (fuel : Nat) (s : Network) (source : String) :
    Option (List Int) :=
  (dijkstraLoopLog P fuel (dijkstraInit P s source, [])).map Prod.snd

/-! # Theorems -/

/-! ## Association lists -/

theorem SMap.find_set {α : Type} (m : SMap α) (k x : String) (a : α) :
    SMap.find (SMap.set m k a) x = if k = x then some a else SMap.find m x := by
  induction m with
  | nil => simp [SMap.set, SMap.find]
  | cons kv m ih =>
    obtain ⟨k1, v1⟩ := kv
    by_cases h1 : k1 = k
    · subst h1
      by_cases h2 : k1 = x <;> simp [SMap.set, SMap.find, h2]
    · by_cases h2 : k1 = x
      · subst h2
        have h3 : ¬ k = k1 := fun h => h1 h.symm
        simp [SMap.set, SMap.find, h1, h3]
      · simp [SMap.set, SMap.find, h1, h2, ih]

theorem SMap.find_set_self {α : Type} (m : SMap α) (k : String) (a : α) :
    SMap.find (SMap.set m k a) k = some a := by
  simp [SMap.find_set]

theorem SMap.find_set_ne {α : Type} (m : SMap α) (k x : String) (a : α) (h : k ≠ x) :
    SMap.find (SMap.set m k a) x = SMap.find m x := by
  simp [SMap.find_set, h]

theorem SMap.touch_of_find {α : Type} (m : SMap α) (k : String) (d v : α)
    (h : SMap.find m k = some v) : SMap.touch m k d = m := by
  simp [SMap.touch, h]

theorem SMap.find_touch {α : Type} (m : SMap α) (k x : String) (d : α) :
    SMap.find (SMap.touch m k d) x =
      if k = x then some (SMap.getD m k d) else SMap.find m x := by
  unfold SMap.touch SMap.getD
  cases h : SMap.find m k with
  | none =>
    simp only [SMap.find_set, Option.getD_none]
  | some v =>
    by_cases hx : k = x
    · subst hx
      simp [h]
    · simp [hx]

theorem SMap.getD_touch {α : Type} (m : SMap α) (k x : String) (d : α) :
    SMap.getD (SMap.touch m k d) x d = SMap.getD m x d := by
  unfold SMap.getD
  rw [SMap.find_touch]
  by_cases hx : k = x
  · subst hx
    simp [SMap.getD]
  · simp [hx]

theorem SMap.getD_set {α : Type} (m : SMap α) (k x : String) (a d : α) :
    SMap.getD (SMap.set m k a) x d = if k = x then a else SMap.getD m x d := by
  unfold SMap.getD
  rw [SMap.find_set]
  by_cases hx : k = x <;> simp [hx]

theorem SMap.mem_of_find {α : Type} (m : SMap α) (k : String) (v : α)
    (h : SMap.find m k = some v) : (k, v) ∈ m := by
  induction m with
  | nil => simp [SMap.find] at h
  | cons kv m ih =>
    obtain ⟨k1, v1⟩ := kv
    by_cases h1 : k1 = k
    · subst h1
      simp [SMap.find] at h
      simp [h]
    · simp [SMap.find, h1] at h
      exact List.mem_cons_of_mem _ (ih h)

theorem SMap.mem_set {α : Type} (m : SMap α) (k : String) (a : α) (kv : String × α)
    (h : kv ∈ SMap.set m k a) : kv ∈ m ∨ kv = (k, a) := by
  induction m with
  | nil =>
    simp [SMap.set] at h
    exact Or.inr h
  | cons kv1 m ih =>
    obtain ⟨k1, v1⟩ := kv1
    by_cases h1 : k1 = k
    · subst h1
      simp [SMap.set] at h
      rcases h with h | h
      · exact Or.inr h
      · exact Or.inl (List.mem_cons_of_mem _ h)
    · simp [SMap.set, h1] at h
      rcases h with h | h
      · exact Or.inl (by simp [h])
      · rcases ih h with h2 | h2
        · exact Or.inl (List.mem_cons_of_mem _ h2)
        · exact Or.inr h2

/-! ## Fuel -/

theorem wrapInt_range (x : Int) : -2147483648 ≤ wrapInt x ∧ wrapInt x < 2147483648 := by
  unfold wrapInt
  omega

theorem wrapInt_exact (x : Int) (h1 : -2147483648 ≤ x) (h2 : x < 2147483648) :
    wrapInt x = x := by
  unfold wrapInt
  omega

theorem dijkstraLoop_mono (P : PQueue) (fuel : Nat) :
    ∀ (st r : DState P), dijkstraLoop P fuel st = some r →
      ∀ fuel2, fuel ≤ fuel2 → dijkstraLoop P fuel2 st = some r := by
  induction fuel with
  | zero => intro st r h; simp [dijkstraLoop] at h
  | succ n ih =>
    intro st r h fuel2 hle
    obtain ⟨m, rfl⟩ : ∃ m, fuel2 = m + 1 := ⟨fuel2 - 1, by omega⟩
    unfold dijkstraLoop at h ⊢
    cases hp : P.pop st.pq with
    | none => simpa [hp] using h
    | some cq =>
      obtain ⟨curr, q1⟩ := cq
      simp only [hp] at h ⊢
      exact ih _ _ h m (by omega)

/-- A property kept by every iteration of the loop holds when the loop ends, and
the queue is then empty. -/
theorem dijkstraLoop_inv (P : PQueue) (I : DState P → Prop)
    (hstep : ∀ st curr q1, I st → P.pop st.pq = some (curr, q1) →
      I (dijkstraStep P st curr q1)) (fuel : Nat) :
    ∀ (st r : DState P), I st → dijkstraLoop P fuel st = some r →
      I r ∧ P.pop r.pq = none := by
  induction fuel with
  | zero => intro st r _ h; simp [dijkstraLoop] at h
  | succ n ih =>
    intro st r hI h
    unfold dijkstraLoop at h
    cases hp : P.pop st.pq with
    | none =>
      simp only [hp, Option.some.injEq] at h
      subst h
      exact ⟨hI, hp⟩
    | some cq =>
      obtain ⟨curr, q1⟩ := cq
      simp only [hp] at h
      exact ih _ _ (hstep st curr q1 hI hp) h

/-! ## Termination of `dijkstra` -/

theorem mem_allDests (g : SMap (List Edge)) (u : String) (e : Edge)
    (h : e ∈ SMap.getD g u []) : e.dest ∈ allDests g := by
  unfold SMap.getD at h
  cases hf : SMap.find g u with
  | none => simp [hf] at h
  | some es =>
    simp [hf] at h
    have hm := SMap.mem_of_find g u es hf
    clear hf
    induction g with
    | nil => simp at hm
    | cons kv m ih =>
      obtain ⟨k1, es1⟩ := kv
      simp only [allDests, List.mem_append, List.mem_map]
      rcases List.mem_cons.mp hm with h1 | h1
      · injection h1 with h2 h3
        subst h3
        exact Or.inl ⟨e, h, rfl⟩
      · exact Or.inr (ih h1)

theorem InRange.getD {d : SMap Int} (h : InRange d) (x : String) :
    -2147483648 ≤ SMap.getD d x 0 ∧ SMap.getD d x 0 < 2147483648 := by
  unfold SMap.getD
  cases hf : SMap.find d x with
  | none => simp
  | some v => simpa using h x v hf

theorem InRange.touch {d : SMap Int} (h : InRange d) (k : String) :
    InRange (SMap.touch d k 0) := by
  intro x v hx
  rw [SMap.find_touch] at hx
  by_cases hk : k = x
  · simp only [hk, if_true, Option.some.injEq] at hx
    subst hx
    exact h.getD _
  · simp only [hk, if_false] at hx
    exact h x v hx

theorem InRange.set {d : SMap Int} (h : InRange d) (k : String) (a : Int)
    (ha : -2147483648 ≤ a ∧ a < 2147483648) : InRange (SMap.set d k a) := by
  intro x v hx
  rw [SMap.find_set] at hx
  by_cases hk : k = x
  · simp only [hk, if_true, Option.some.injEq] at hx
    subst hx
    exact ha
  · simp only [hk, if_false] at hx
    exact h x v hx

theorem phi_nonneg (K : List String) (d : SMap Int) (h : InRange d) : 0 ≤ phi K d := by
  unfold phi
  apply List.sum_nonneg
  intro x hx
  obtain ⟨k, _, rfl⟩ := List.mem_map.mp hx
  have := h.getD k
  omega

theorem phi_touch (K : List String) (d : SMap Int) (k : String) :
    phi K (SMap.touch d k 0) = phi K d := by
  unfold phi
  simp only [SMap.getD_touch]

theorem phi_set_lt (K : List String) (d : SMap Int) (k : String) (a : Int)
    (hk : k ∈ K) (ha : a < SMap.getD d k 0) : phi K (SMap.set d k a) + 1 ≤ phi K d := by
  unfold phi
  have : (K.map fun x => SMap.getD (SMap.set d k a) x 0 + 2147483648).sum
      < (K.map fun x => SMap.getD d x 0 + 2147483648).sum := by
    apply List.sum_lt_sum
    · intro x _
      rw [SMap.getD_set]
      by_cases hx : k = x
      · subst hx
        simp only [if_true]
        omega
      · simp [hx]
    · refine ⟨k, hk, ?_⟩
      rw [SMap.getD_set]
      simp only [if_true]
      omega
  omega

/-- One relaxation keeps the distances in range and the graph as it is, and does
not increase the measure. -/
theorem relaxEdge_measure (P : PQueue) (hP : P.Lawful) (K : List String) (u : String)
    (st : DState P) (e : Edge) (hr : InRange st.dist) (he : e.dest ∈ K) :
    InRange (relaxEdge P u st e).dist ∧ (relaxEdge P u st e).graph = st.graph ∧
      mu P K (relaxEdge P u st e) ≤ mu P K st := by
  unfold relaxEdge
  by_cases hup : e.isUp = false
  · simp [hup, hr]
  · rw [if_neg hup]
    simp only
    split
    · rename_i hlt
      refine ⟨?_, rfl, ?_⟩
      · exact ((hr.touch u).touch e.dest).set _ _ (wrapInt_range _)
      · unfold mu
        simp only
        have h1 := phi_set_lt K ((st.dist.touch u 0).touch e.dest 0) e.dest _ he hlt
        rw [phi_touch, phi_touch] at h1
        have h2 := (hP.contents_push ⟨e.dest, wrapInt ((st.dist.touch u 0).getD u 0 + e.cost)⟩
          st.pq).length_eq
        simp only [List.length_cons] at h2
        rw [h2]
        push_cast
        omega
    · refine ⟨(hr.touch u).touch e.dest, rfl, ?_⟩
      unfold mu
      simp only [phi_touch]
      exact le_refl _

theorem foldl_relaxEdge_measure (P : PQueue) (hP : P.Lawful) (K : List String) (u : String)
    (es : List Edge) : ∀ (st : DState P), InRange st.dist → (∀ e ∈ es, e.dest ∈ K) →
      InRange (es.foldl (relaxEdge P u) st).dist ∧
      (es.foldl (relaxEdge P u) st).graph = st.graph ∧
      mu P K (es.foldl (relaxEdge P u) st) ≤ mu P K st := by
  induction es with
  | nil => intro st hr _; exact ⟨hr, rfl, le_refl _⟩
  | cons e es ih =>
    intro st hr hK
    obtain ⟨h1, h2, h3⟩ := relaxEdge_measure P hP K u st e hr (hK e (List.mem_cons_self _ _))
    obtain ⟨h4, h5, h6⟩ := ih (relaxEdge P u st e) h1
      (fun e1 he1 => hK e1 (List.mem_cons_of_mem _ he1))
    simp only [List.foldl_cons]
    exact ⟨h4, h5.trans h2, le_trans h6 h3⟩

/-- One iteration of the loop keeps the distances in range and every adjacency
list as it is, and decreases the measure. -/
theorem dijkstraStep_measure (P : PQueue) (hP : P.Lawful) (g : SMap (List Edge))
    (st : DState P) (curr : Node) (q1 : P.Q)
    (hr : InRange st.dist) (hg : ∀ u, SMap.getD st.graph u [] = SMap.getD g u [])
    (hpop : P.pop st.pq = some (curr, q1)) :
    InRange (dijkstraStep P st curr q1).dist ∧
      (∀ u, SMap.getD (dijkstraStep P st curr q1).graph u [] = SMap.getD g u []) ∧
      mu P (allDests g) (dijkstraStep P st curr q1) + 1 ≤ mu P (allDests g) st := by
  have hlen := (hP.pop_some _ _ _ hpop).1.length_eq
  simp only [List.length_cons] at hlen
  unfold dijkstraStep
  simp only
  split
  · refine ⟨hr.touch _, hg, ?_⟩
    unfold mu
    simp only [phi_touch]
    rw [hlen]
    push_cast
    omega
  · have hK : ∀ e ∈ SMap.getD (SMap.touch st.graph curr.id []) curr.id [],
        e.dest ∈ allDests g := by
      intro e he
      rw [SMap.getD_touch, hg] at he
      exact mem_allDests g _ e he
    obtain ⟨h1, h2, h3⟩ := foldl_relaxEdge_measure P hP (allDests g) curr.id _
      { dist := st.dist.touch curr.id 0, prev := st.prev, pq := q1,
        graph := st.graph.touch curr.id [] } (hr.touch _) hK
    refine ⟨h1, ?_, ?_⟩
    · intro u
      rw [h2]
      simp only [SMap.getD_touch]
      exact hg u
    · refine le_trans (add_le_add_right h3 1) ?_
      unfold mu
      simp only [phi_touch]
      rw [hlen]
      push_cast
      omega

/-- The loop of `dijkstra` ends: with enough fuel it returns a state. -/
theorem dijkstraLoop_terminates (P : PQueue) (hP : P.Lawful) (g : SMap (List Edge))
    (fuel : Nat) : ∀ (st : DState P), InRange st.dist →
      (∀ u, SMap.getD st.graph u [] = SMap.getD g u []) →
      mu P (allDests g) st < fuel → ∃ r, dijkstraLoop P fuel st = some r := by
  induction fuel with
  | zero =>
    intro st hr _ hlt
    have := phi_nonneg (allDests g) st.dist hr
    unfold mu at hlt
    simp at hlt
    omega
  | succ n ih =>
    intro st hr hg hlt
    unfold dijkstraLoop
    cases hp : P.pop st.pq with
    | none => exact ⟨st, rfl⟩
    | some cq =>
      obtain ⟨curr, q1⟩ := cq
      obtain ⟨h1, h2, h3⟩ := dijkstraStep_measure P hP g st curr q1 hr hg hp
      simp only
      apply ih _ h1 h2
      push_cast at hlt
      omega

theorem initDist_inRange (nodes : List String) : InRange (initDist nodes) := by
  unfold initDist
  have : ∀ (l : List String) (d : SMap Int), InRange d →
      InRange (l.foldl (fun (d : SMap Int) node => SMap.set d node INT_MAX) d) := by
    intro l
    induction l with
    | nil => intro d hd; exact hd
    | cons x l ih =>
      intro d hd
      simp only [List.foldl_cons]
      exact ih _ (hd.set x INT_MAX (by unfold INT_MAX; omega))
  apply this
  intro x v hx
  simp [SMap.find] at hx

/-- The loop of `dijkstra` ends from its initial state, on every network and for
every source, and more fuel does not change the state it ends in. -/
theorem dijkstraLoop_total (P : PQueue) (hP : P.Lawful) (s : Network) (source : String) :
    ∃ N st, ∀ fuel, N ≤ fuel → dijkstraLoop P fuel (dijkstraInit P s source) = some st := by
  have hr : InRange (dijkstraInit P s source).dist :=
    (initDist_inRange s.nodes).set source 0 (by omega)
  have hmu : 0 ≤ mu P (allDests s.graph) (dijkstraInit P s source) := by
    have := phi_nonneg (allDests s.graph) _ hr
    unfold mu
    omega
  obtain ⟨st, h⟩ := dijkstraLoop_terminates P hP s.graph
    ((mu P (allDests s.graph) (dijkstraInit P s source)).toNat + 1) _ hr (fun _ => rfl)
    (by push_cast; rw [Int.toNat_of_nonneg hmu]; omega)
  exact ⟨_, st, fun fuel hle => dijkstraLoop_mono P _ _ _ h fuel hle⟩

/-- The method `dijkstra` returns on every network and for every source, and more
fuel does not change what it returns. -/
theorem dijkstra_total (P : PQueue) (hP : P.Lawful) (s : Network) (source : String) :
    ∃ N r, ∀ fuel, N ≤ fuel → dijkstra P fuel s source = some r := by
  obtain ⟨N, st, h⟩ := dijkstraLoop_total P hP s source
  refine ⟨N, { dist := st.dist, prev := st.prev, graph := st.graph }, fun fuel hle => ?_⟩
  unfold dijkstra
  rw [h fuel hle]
  rfl

/-! ## Static facts about costs -/

theorem adj_mem (s : Network) (u : String) (e : Edge) (h : e ∈ s.adj u) :
    ∃ kv ∈ s.graph, e ∈ kv.2 := by
  unfold Network.adj SMap.getD at h
  cases hf : SMap.find s.graph u with
  | none => simp [hf] at h
  | some es =>
    simp [hf] at h
    exact ⟨(u, es), SMap.mem_of_find _ _ _ hf, h⟩

theorem adj_cost_nonneg (s : Network) (hnn : NonNegCosts s) (u : String) (e : Edge)
    (h : e ∈ s.adj u) : 0 ≤ e.cost := by
  obtain ⟨kv, hkv, he⟩ := adj_mem s u e h
  exact hnn kv hkv e he

theorem adj_dest_known (s : Network) (hdk : DestsKnown s) (u : String) (e : Edge)
    (h : e ∈ s.adj u) : e.dest ∈ s.nodes := by
  obtain ⟨kv, hkv, he⟩ := adj_mem s u e h
  exact hdk kv hkv e he

theorem outCost_nonneg (es : List Edge) (h : ∀ e ∈ es, 0 ≤ e.cost) : 0 ≤ outCost es := by
  unfold outCost
  apply List.sum_nonneg
  intro x hx
  obtain ⟨e, he, rfl⟩ := List.mem_map.mp hx
  exact h e he

theorem cost_le_outCost (es : List Edge) (h : ∀ e ∈ es, 0 ≤ e.cost) (e : Edge)
    (he : e ∈ es) : e.cost ≤ outCost es := by
  induction es with
  | nil => simp at he
  | cons a es ih =>
    have h1 : ∀ e ∈ es, 0 ≤ e.cost := fun e he => h e (List.mem_cons_of_mem _ he)
    have h2 := outCost_nonneg es h1
    have h3 := h a (List.mem_cons_self _ _)
    have h4 : outCost (a :: es) = a.cost + outCost es := by simp [outCost]
    rcases List.mem_cons.mp he with h5 | h5
    · subst h5
      omega
    · have := ih h1 h5
      omega

theorem adj_outCost_nonneg (s : Network) (hnn : NonNegCosts s) (u : String) :
    0 ≤ outCost (s.adj u) :=
  outCost_nonneg _ (fun e he => adj_cost_nonneg s hnn u e he)

/-- The half-edges leaving distinct routers cost together no more than all
half-edges of the graph. -/
theorem sum_getD_le (g : SMap (List Edge)) (hnn : ∀ kv ∈ g, ∀ e ∈ kv.2, 0 ≤ e.cost) :
    ∀ T : List String, T.Nodup →
      (T.map fun u => outCost (SMap.getD g u [])).sum ≤ (g.map fun kv => outCost kv.2).sum := by
  induction g with
  | nil =>
    intro T _
    have : ∀ T : List String, (T.map fun u => outCost (SMap.getD ([] : SMap (List Edge)) u [])).sum
        = 0 := by
      intro T
      induction T with
      | nil => rfl
      | cons a T ih => simp [SMap.getD, SMap.find, outCost]
    rw [this]
    simp
  | cons kv g ih =>
    obtain ⟨k, es⟩ := kv
    intro T hT
    have hnn1 : ∀ kv ∈ g, ∀ e ∈ kv.2, 0 ≤ e.cost :=
      fun kv hkv => hnn kv (List.mem_cons_of_mem _ hkv)
    have hes : 0 ≤ outCost es := outCost_nonneg es (hnn (k, es) (List.mem_cons_self _ _))
    have hstep : ∀ T1 : List String, k ∉ T1 →
        (T1.map fun u => outCost (SMap.getD ((k, es) :: g) u [])).sum
          = (T1.map fun u => outCost (SMap.getD g u [])).sum := by
      intro T1 hk
      congr 1
      apply List.map_congr_left
      intro u hu
      have : k ≠ u := fun h => hk (h ▸ hu)
      simp [SMap.getD, SMap.find, this]
    simp only [List.map_cons, List.sum_cons]
    by_cases hk : k ∈ T
    · have hperm := List.perm_cons_erase hk
      have h1 : (T.map fun u => outCost (SMap.getD ((k, es) :: g) u [])).sum
          = ((k :: T.erase k).map fun u => outCost (SMap.getD ((k, es) :: g) u [])).sum :=
        (hperm.map _).sum_eq
      have hnd : (T.erase k).Nodup := hT.erase k
      have hk2 : k ∉ T.erase k := by
        intro h
        exact (List.Nodup.mem_erase_iff hT).mp h |>.1 rfl
      rw [h1, List.map_cons, List.sum_cons, hstep _ hk2]
      have h2 := ih hnn1 (T.erase k) hnd
      have h3 : outCost (SMap.getD ((k, es) :: g) k []) = outCost es := by
        simp [SMap.getD, SMap.find]
      omega
    · rw [hstep _ hk]
      have h2 := ih hnn1 T hT
      omega

theorem settledCost_le_total (s : Network) (hnn : NonNegCosts s) (T : List String)
    (hT : T.Nodup) : settledCost s T ≤ totalCost s :=
  sum_getD_le s.graph hnn T hT

theorem settledCost_cons (s : Network) (u : String) (T : List String) :
    settledCost s (u :: T) = outCost (s.adj u) + settledCost s T := by
  simp [settledCost]

/-! ## The loop body when the keys it reads are present -/

theorem relaxEdge_eq (P : PQueue) (u : String) (st : DState P) (e : Edge) (du dv : Int)
    (hu : SMap.find st.dist u = some du) (hv : SMap.find st.dist e.dest = some dv) :
    relaxEdge P u st e =
      if e.isUp = true ∧ wrapInt (du + e.cost) < dv then
        { st with
          dist := SMap.set st.dist e.dest (wrapInt (du + e.cost))
          prev := SMap.set st.prev e.dest u
          pq := P.push ⟨e.dest, wrapInt (du + e.cost)⟩ st.pq }
      else st := by
  unfold relaxEdge
  simp only
  rw [SMap.touch_of_find _ _ _ _ hu, SMap.touch_of_find _ _ _ _ hv]
  have h1 : SMap.getD st.dist u 0 = du := by simp [SMap.getD, hu]
  have h2 : SMap.getD st.dist e.dest 0 = dv := by simp [SMap.getD, hv]
  rw [h1, h2]
  cases hup : e.isUp <;> simp

theorem dijkstraStep_eq (P : PQueue) (st : DState P) (curr : Node) (q1 : P.Q) (du : Int)
    (hu : SMap.find st.dist curr.id = some du) :
    dijkstraStep P st curr q1 =
      if curr.dist > du then { st with pq := q1 }
      else (SMap.getD st.graph curr.id []).foldl (relaxEdge P curr.id)
        { st with pq := q1, graph := SMap.touch st.graph curr.id [] } := by
  unfold dijkstraStep
  rw [SMap.touch_of_find _ _ _ _ hu]
  have h1 : SMap.getD st.dist curr.id 0 = du := by simp [SMap.getD, hu]
  simp only [h1, SMap.getD_touch]

theorem TreeOrd_congr (prev prev2 : SMap String) (source : String) (T : List String)
    (h : ∀ v ∈ T, SMap.find prev2 v = SMap.find prev v) (ht : TreeOrd prev source T) :
    TreeOrd prev2 source T := by
  induction T with
  | nil => trivial
  | cons v rest ih =>
    obtain ⟨h1, h2⟩ := ht
    refine ⟨?_, ih (fun w hw => h w (List.mem_cons_of_mem _ hw)) h2⟩
    rcases h1 with h1 | ⟨p, hp, hr⟩
    · exact Or.inl h1
    · exact Or.inr ⟨p, by rw [h v (List.mem_cons_self _ _)]; exact hp, hr⟩

theorem Closed_set (dist : SMap Int) (w v : String) (es : List Edge) (nd dv : Int)
    (hc : Closed dist w es) (hv : SMap.find dist v = some dv) (hlt : nd < dv) (hw : v ≠ w) :
    Closed (SMap.set dist v nd) w es := by
  intro e he hup
  obtain ⟨dw, dx, h1, h2, h3⟩ := hc e he hup
  by_cases hx : v = e.dest
  · refine ⟨dw, nd, ?_, ?_, ?_⟩
    · rw [SMap.find_set_ne _ _ _ _ hw]; exact h1
    · rw [hx]; exact SMap.find_set_self _ _ _
    · rw [hx] at hv
      rw [hv] at h2
      injection h2 with h2
      omega
  · refine ⟨dw, dx, ?_, ?_, h3⟩
    · rw [SMap.find_set_ne _ _ _ _ hw]; exact h1
    · rw [SMap.find_set_ne _ _ _ _ hx]; exact h2

/-! ## The loop invariant is kept -/

/-- Relaxing one half-edge of the router being processed keeps the invariant. -/
theorem relaxEdge_inner (P : PQueue) (hP : P.Lawful) (s : Network) (source : String)
    (hnn : NonNegCosts s) (hdk : DestsKnown s) (hsum : totalCost s < INT_MAX)
    (u : String) (T : List String) (done : List Edge) (st : DState P) (e : Edge)
    (hI : Inner P s source u T done st) (he : e ∈ s.adj u) :
    Inner P s source u T (done ++ [e]) (relaxEdge P u st e) := by
  obtain ⟨du, hdu, htop⟩ := hI.top
  obtain ⟨dv, hdv⟩ := hI.inv.keys e.dest (adj_dest_known s hdk u e he)
  rw [relaxEdge_eq P u st e du dv hdu hdv]
  have hc0 := adj_cost_nonneg s hnn u e he
  have hcle := cost_le_outCost (s.adj u) (fun e he => adj_cost_nonneg s hnn u e he) e he
  obtain ⟨du1, hdu1, hduINF, hsb⟩ := hI.inv.sbound u (List.mem_cons_self _ _)
  rw [hdu] at hdu1
  injection hdu1 with hdu1
  subst hdu1
  have hb := hI.inv.bound u du hdu hduINF
  have hSC := settledCost_le_total s hnn (u :: T) hI.inv.nodupT
  have hnd : wrapInt (du + e.cost) = du + e.cost :=
    wrapInt_exact _ (by omega) (by unfold INT_MAX at hsum; omega)
  rw [hnd]
  by_cases hcond : e.isUp = true ∧ du + e.cost < dv
  · rw [if_pos hcond]
    have hvT : e.dest ∉ u :: T := fun hm => by
      have := htop e.dest hm dv hdv
      omega
    have hvs : e.dest ≠ source := by
      intro h
      rw [h, hI.inv.src0] at hdv
      injection hdv with hdv
      omega
    have hvu : e.dest ≠ u := fun h => hvT (h ▸ List.mem_cons_self _ _)
    have hvw : ∀ w ∈ u :: T, e.dest ≠ w := fun w hw h => hvT (h ▸ hw)
    have hndINF : du + e.cost ≠ INT_MAX := by unfold INT_MAX at hsum ⊢; omega
    have hpush := hP.contents_push ⟨e.dest, du + e.cost⟩ st.pq
    refine { inv := { graph_eq := hI.inv.graph_eq, keys := ?_, src0 := ?_,
                      nodupT := hI.inv.nodupT, bound := ?_, sbound := ?_, settled_le := ?_,
                      queue := ?_, nodupQ := ?_, frontier := ?_, prev_dom := ?_, tree := ?_,
                      order := ?_, walk := ?_ },
             closedT := ?_, closedU := ?_, top := ?_ }
    · -- keys
      intro x hx
      obtain ⟨dx, hdx⟩ := hI.inv.keys x hx
      by_cases h : e.dest = x
      · exact ⟨du + e.cost, by dsimp only; rw [SMap.find_set, if_pos h]⟩
      · exact ⟨dx, by dsimp only; rw [SMap.find_set, if_neg h]; exact hdx⟩
    · -- src0
      dsimp only
      rw [SMap.find_set_ne _ _ _ _ hvs]
      exact hI.inv.src0
    · -- bound
      intro x dx hx hne
      dsimp only at hx
      rw [SMap.find_set] at hx
      by_cases h : e.dest = x
      · rw [if_pos h] at hx
        injection hx with hx
        omega
      · rw [if_neg h] at hx
        exact hI.inv.bound x dx hx hne
    · -- sbound
      intro w hw
      obtain ⟨dw, h1, h2, h3⟩ := hI.inv.sbound w hw
      exact ⟨dw, by dsimp only; rw [SMap.find_set_ne _ _ _ _ (hvw w hw)]; exact h1, h2, h3⟩
    · -- settled_le
      intro w hw dw hdw n hn
      dsimp only at hdw hn
      rw [SMap.find_set_ne _ _ _ _ (hvw w hw)] at hdw
      rcases List.mem_cons.mp (hpush.mem_iff.mp hn) with h | h
      · subst h
        have := htop w hw dw hdw
        exact ⟨by dsimp only; omega, fun h => absurd h (hvw w hw)⟩
      · exact hI.inv.settled_le w hw dw hdw n h
    · -- queue
      intro n hn
      dsimp only at hn ⊢
      rcases List.mem_cons.mp (hpush.mem_iff.mp hn) with h | h
      · subst h
        exact ⟨du + e.cost, SMap.find_set_self _ _ _, le_refl _, hndINF⟩
      · obtain ⟨dx, h1, h2, h3⟩ := hI.inv.queue n h
        by_cases hx : e.dest = n.id
        · refine ⟨du + e.cost, by rw [SMap.find_set, if_pos hx], ?_, hndINF⟩
          rw [← hx, hdv] at h1
          injection h1 with h1
          omega
        · exact ⟨dx, by rw [SMap.find_set_ne _ _ _ _ hx]; exact h1, h2, h3⟩
    · -- nodupQ
      dsimp only
      rw [hpush.nodup_iff]
      refine List.nodup_cons.mpr ⟨?_, hI.inv.nodupQ⟩
      intro hm
      obtain ⟨dx, h1, h2, _⟩ := hI.inv.queue _ hm
      dsimp only at h1 h2
      rw [hdv] at h1
      injection h1 with h1
      omega
    · -- frontier
      intro x dx hx hne
      dsimp only at hx ⊢
      rw [SMap.find_set] at hx
      by_cases h : e.dest = x
      · rw [if_pos h] at hx
        injection hx with hx
        subst hx
        subst h
        exact Or.inr (hpush.mem_iff.mpr (List.mem_cons_self _ _))
      · rw [if_neg h] at hx
        rcases hI.inv.frontier x dx hx hne with h1 | h1
        · exact Or.inl h1
        · exact Or.inr (hpush.mem_iff.mpr (List.mem_cons_of_mem _ h1))
    · -- prev_dom
      intro x p hx
      dsimp only at hx ⊢
      rw [SMap.find_set] at hx
      by_cases h : e.dest = x
      · subst h
        exact ⟨hvs, du + e.cost, SMap.find_set_self _ _ _, hndINF⟩
      · rw [if_neg h] at hx
        obtain ⟨h1, dx, h2, h3⟩ := hI.inv.prev_dom x p hx
        exact ⟨h1, dx, by rw [SMap.find_set_ne _ _ _ _ h]; exact h2, h3⟩
    · -- tree
      intro x dx hx hne hxs
      dsimp only at hx ⊢
      rw [SMap.find_set] at hx
      by_cases h : e.dest = x
      · rw [if_pos h] at hx
        injection hx with hx
        exact ⟨u, e, du, by rw [SMap.find_set, if_pos h], List.mem_cons_self _ _, he, hcond.1, h,
          by rw [SMap.find_set_ne _ _ _ _ hvu]; exact hdu, hx.symm⟩
      · rw [if_neg h] at hx
        obtain ⟨p, e1, dp, h1, h2, h3, h4, h5, h6, h7⟩ := hI.inv.tree x dx hx hne hxs
        exact ⟨p, e1, dp, by rw [SMap.find_set_ne _ _ _ _ h]; exact h1, h2, h3, h4, h5,
          by rw [SMap.find_set_ne _ _ _ _ (hvw p h2)]; exact h6, h7⟩
    · -- order
      exact TreeOrd_congr st.prev _ source (u :: T)
        (fun w hw => SMap.find_set_ne _ _ _ _ (hvw w hw)) hI.inv.order
    · -- walk
      intro x dx hx hne
      dsimp only at hx
      rw [SMap.find_set] at hx
      by_cases h : e.dest = x
      · rw [if_pos h] at hx
        injection hx with hx
        subst hx
        subst h
        exact UpWalk.step e (hI.inv.walk u du hdu hduINF) he hcond.1
      · rw [if_neg h] at hx
        exact hI.inv.walk x dx hx hne
    · -- closedT
      intro w hw
      exact Closed_set st.dist w e.dest (s.adj w) _ dv (hI.closedT w hw) hdv hcond.2
        (hvw w (List.mem_cons_of_mem _ hw))
    · -- closedU
      intro e1 he1 hup1
      dsimp only
      rcases List.mem_append.mp he1 with h | h
      · exact Closed_set st.dist u e.dest done _ dv hI.closedU hdv hcond.2 hvu e1 h hup1
      · rw [List.mem_singleton] at h
        subst h
        exact ⟨du, du + e1.cost, by rw [SMap.find_set_ne _ _ _ _ hvu]; exact hdu,
          SMap.find_set_self _ _ _, le_refl _⟩
    · -- top
      refine ⟨du, by dsimp only; rw [SMap.find_set_ne _ _ _ _ hvu]; exact hdu, ?_⟩
      intro w hw dw hdw
      dsimp only at hdw
      rw [SMap.find_set_ne _ _ _ _ (hvw w hw)] at hdw
      exact htop w hw dw hdw
  · rw [if_neg hcond]
    refine { inv := hI.inv, closedT := hI.closedT, closedU := ?_, top := hI.top }
    intro e1 he1 hup1
    rcases List.mem_append.mp he1 with h | h
    · exact hI.closedU e1 h hup1
    · rw [List.mem_singleton] at h
      subst h
      refine ⟨du, dv, hdu, hdv, ?_⟩
      have : ¬ du + e1.cost < dv := fun h => hcond ⟨hup1, h⟩
      omega

theorem foldl_relaxEdge_inner (P : PQueue) (hP : P.Lawful) (s : Network) (source : String)
    (hnn : NonNegCosts s) (hdk : DestsKnown s) (hsum : totalCost s < INT_MAX)
    (u : String) (T : List String) (es : List Edge) :
    ∀ (done : List Edge) (st : DState P), (∀ e ∈ es, e ∈ s.adj u) →
      Inner P s source u T done st →
      Inner P s source u T (done ++ es) (es.foldl (relaxEdge P u) st) := by
  induction es with
  | nil => intro done st _ h; simpa using h
  | cons e es ih =>
    intro done st hes h
    have h1 := relaxEdge_inner P hP s source hnn hdk hsum u T done st e h
      (hes e (List.mem_cons_self _ _))
    have h2 := ih (done ++ [e]) _ (fun e1 he1 => hes e1 (List.mem_cons_of_mem _ he1)) h1
    simpa using h2

/-- When an entry that is not stale is popped, the invariant of the loop over
the half-edges of its router holds before the first of them is relaxed. -/
theorem pop_inner (P : PQueue) (hP : P.Lawful) (s : Network) (source : String)
    (hnn : NonNegCosts s) (st : DState P) (curr : Node) (q1 : P.Q) (T : List String)
    (hD : DInv P s source T st) (hC : ∀ w ∈ T, Closed st.dist w (s.adj w))
    (hpop : P.pop st.pq = some (curr, q1)) (du : Int)
    (hdu : SMap.find st.dist curr.id = some du) (hst : ¬ curr.dist > du) :
    curr.id ∉ T ∧ Inner P s source curr.id T []
      { st with pq := q1, graph := SMap.touch st.graph curr.id [] } := by
  obtain ⟨hperm, hmin⟩ := hP.pop_some _ _ _ hpop
  have hcm : curr ∈ P.contents st.pq := hperm.mem_iff.mpr (List.mem_cons_self _ _)
  obtain ⟨du1, hdu1, hle, hINF⟩ := hD.queue curr hcm
  rw [hdu] at hdu1
  injection hdu1 with hdu1
  subst hdu1
  have hsub : ∀ n ∈ P.contents q1, n ∈ P.contents st.pq :=
    fun n hn => hperm.mem_iff.mpr (List.mem_cons_of_mem _ hn)
  have hnd : (curr :: P.contents q1).Nodup := hperm.nodup_iff.mp hD.nodupQ
  have hcd : curr.dist = du := by omega
  have huT : curr.id ∉ T := fun hm => by
    have := (hD.settled_le curr.id hm du hdu curr hcm).2 rfl
    omega
  have hoc := adj_outCost_nonneg s hnn curr.id
  refine ⟨huT, ?_⟩
  refine { inv := { graph_eq := ?_, keys := hD.keys, src0 := hD.src0,
                    nodupT := List.nodup_cons.mpr ⟨huT, hD.nodupT⟩, bound := ?_,
                    sbound := ?_, settled_le := ?_, queue := ?_, nodupQ := ?_,
                    frontier := ?_, prev_dom := hD.prev_dom, tree := ?_, order := ?_,
                    walk := hD.walk },
           closedT := hC, closedU := ?_, top := ?_ }
  · intro x
    dsimp only
    rw [SMap.getD_touch]
    exact hD.graph_eq x
  · intro v dv hv hne
    obtain ⟨h1, h2⟩ := hD.bound v dv hv hne
    rw [settledCost_cons]
    exact ⟨h1, by omega⟩
  · intro w hw
    rw [settledCost_cons]
    rcases List.mem_cons.mp hw with h | h
    · subst h
      have := (hD.bound curr.id du hdu hINF).2
      exact ⟨du, hdu, hINF, by omega⟩
    · obtain ⟨dw, h1, h2, h3⟩ := hD.sbound w h
      exact ⟨dw, h1, h2, by omega⟩
  · intro w hw dw hdw n hn
    dsimp only at hdw hn
    rcases List.mem_cons.mp hw with h | h
    · subst h
      rw [hdu] at hdw
      injection hdw with hdw
      subst hdw
      have h1 := hmin n (hsub n hn)
      refine ⟨by omega, fun hid => ?_⟩
      by_contra hlt
      have h2 : n = curr := by
        cases n
        cases curr
        simp only [Node.mk.injEq]
        dsimp only at hid h1 hlt hcd
        exact ⟨hid, by omega⟩
      rw [h2] at hn
      exact (List.nodup_cons.mp hnd).1 hn
    · exact hD.settled_le w h dw hdw n (hsub n hn)
  · intro n hn
    exact hD.queue n (hsub n hn)
  · exact (List.nodup_cons.mp hnd).2
  · intro v dv hv hne
    rcases hD.frontier v dv hv hne with h | h
    · exact Or.inl (List.mem_cons_of_mem _ h)
    · rcases List.mem_cons.mp (hperm.mem_iff.mp h) with h1 | h1
      · left
        rw [← h1]
        exact List.mem_cons_self _ _
      · exact Or.inr h1
  · intro v dv hv hne hvs
    obtain ⟨p, e, dp, h1, h2, h3⟩ := hD.tree v dv hv hne hvs
    exact ⟨p, e, dp, h1, List.mem_cons_of_mem _ h2, h3⟩
  · refine ⟨?_, hD.order⟩
    by_cases hs : curr.id = source
    · exact Or.inl hs
    · obtain ⟨p, e, dp, h1, h2, _⟩ := hD.tree curr.id du hdu hINF hs
      exact Or.inr ⟨p, h1, h2⟩
  · intro e he
    simp at he
  · refine ⟨du, hdu, ?_⟩
    intro w hw dw hdw
    dsimp only at hdw
    rcases List.mem_cons.mp hw with h | h
    · subst h
      rw [hdu] at hdw
      injection hdw with hdw
      omega
    · have := (hD.settled_le w h dw hdw curr hcm).1
      omega

/-- One iteration of the loop of `dijkstra` keeps the invariant. -/
theorem dijkstraStep_outer (P : PQueue) (hP : P.Lawful) (s : Network) (source : String)
    (hnn : NonNegCosts s) (hdk : DestsKnown s) (hsum : totalCost s < INT_MAX)
    (st : DState P) (curr : Node) (q1 : P.Q)
    (hO : Outer P s source st) (hpop : P.pop st.pq = some (curr, q1)) :
    Outer P s source (dijkstraStep P st curr q1) := by
  obtain ⟨T, hD, hC⟩ := hO
  obtain ⟨hperm, hmin⟩ := hP.pop_some _ _ _ hpop
  have hcm : curr ∈ P.contents st.pq := hperm.mem_iff.mpr (List.mem_cons_self _ _)
  obtain ⟨du, hdu, hle, hINF⟩ := hD.queue curr hcm
  rw [dijkstraStep_eq P st curr q1 du hdu]
  have hsub : ∀ n ∈ P.contents q1, n ∈ P.contents st.pq :=
    fun n hn => hperm.mem_iff.mpr (List.mem_cons_of_mem _ hn)
  have hnd : (curr :: P.contents q1).Nodup := hperm.nodup_iff.mp hD.nodupQ
  by_cases hst : curr.dist > du
  · rw [if_pos hst]
    refine ⟨T, { graph_eq := hD.graph_eq, keys := hD.keys, src0 := hD.src0,
                 nodupT := hD.nodupT, bound := hD.bound, sbound := hD.sbound,
                 settled_le := ?_, queue := ?_, nodupQ := ?_, frontier := ?_,
                 prev_dom := hD.prev_dom, tree := hD.tree, order := hD.order,
                 walk := hD.walk }, hC⟩
    · intro w hw dw hdw n hn
      exact hD.settled_le w hw dw hdw n (hsub n hn)
    · intro n hn
      exact hD.queue n (hsub n hn)
    · exact (List.nodup_cons.mp hnd).2
    · intro v dv hv hne
      rcases hD.frontier v dv hv hne with h | h
      · exact Or.inl h
      · rcases List.mem_cons.mp (hperm.mem_iff.mp h) with h1 | h1
        · exfalso
          rw [← h1] at hdu hst
          dsimp only at hdu hst
          rw [hv] at hdu
          injection hdu with hdu
          omega
        · exact Or.inr h1
  · rw [if_neg hst]
    have hcd : curr.dist = du := by omega
    have huT : curr.id ∉ T := fun hm => by
      have := (hD.settled_le curr.id hm du hdu curr hcm).2 rfl
      omega
    have hoc := adj_outCost_nonneg s hnn curr.id
    have hI0 := (pop_inner P hP s source hnn st curr q1 T hD hC hpop du hdu hst).2
    have hfold := foldl_relaxEdge_inner P hP s source hnn hdk hsum curr.id T (s.adj curr.id) []
      _ (fun e he => he) hI0
    rw [List.nil_append] at hfold
    rw [hD.graph_eq curr.id]
    refine ⟨curr.id :: T, hfold.inv, ?_⟩
    intro w hw
    rcases List.mem_cons.mp hw with h | h
    · subst h
      exact hfold.closedU
    · exact hfold.closedT w h

theorem initDist_find (nodes : List String) (x : String) :
    SMap.find (initDist nodes) x = if x ∈ nodes then some INT_MAX else none := by
  unfold initDist
  have : ∀ (l : List String) (d : SMap Int),
      SMap.find (l.foldl (fun (d : SMap Int) node => SMap.set d node INT_MAX) d) x =
        if x ∈ l then some INT_MAX else SMap.find d x := by
    intro l
    induction l with
    | nil => intro d; simp
    | cons a l ih =>
      intro d
      simp only [List.foldl_cons, ih, SMap.find_set, List.mem_cons]
      by_cases h1 : x ∈ l
      · simp [h1]
      · by_cases h2 : a = x
        · simp [h1, h2]
        · have h3 : ¬ x = a := fun h => h2 h.symm
          simp [h1, h2, h3]
  rw [this]
  simp [SMap.find]

/-- The invariant holds when the loop of `dijkstra` is entered. -/
theorem dijkstraInit_outer (P : PQueue) (hP : P.Lawful) (s : Network) (source : String) :
    Outer P s source (dijkstraInit P s source) := by
  have hq : ∀ n ∈ P.contents (P.push ⟨source, 0⟩ P.empty), n = ⟨source, 0⟩ := by
    intro n hn
    have := (hP.contents_push ⟨source, 0⟩ P.empty).mem_iff.mp hn
    rw [hP.contents_empty] at this
    simpa using this
  have hfin : ∀ x dx, SMap.find (SMap.set (initDist s.nodes) source 0) x = some dx →
      dx ≠ INT_MAX → x = source ∧ dx = 0 := by
    intro x dx hx hne
    rw [SMap.find_set] at hx
    by_cases h : source = x
    · rw [if_pos h] at hx
      injection hx with hx
      exact ⟨h.symm, hx.symm⟩
    · rw [if_neg h, initDist_find] at hx
      by_cases hm : x ∈ s.nodes
      · rw [if_pos hm] at hx
        injection hx with hx
        exact absurd hx.symm hne
      · rw [if_neg hm] at hx
        exact absurd hx (by simp)
  refine ⟨[], { graph_eq := fun _ => rfl, keys := ?_, src0 := SMap.find_set_self _ _ _,
                nodupT := List.nodup_nil, bound := ?_, sbound := ?_, settled_le := ?_,
                queue := ?_, nodupQ := ?_, frontier := ?_, prev_dom := ?_, tree := ?_,
                order := trivial, walk := ?_ }, ?_⟩
  · intro v hv
    unfold dijkstraInit
    dsimp only
    rw [SMap.find_set, initDist_find, if_pos hv]
    by_cases h : source = v
    · exact ⟨0, by rw [if_pos h]⟩
    · exact ⟨INT_MAX, by rw [if_neg h]⟩
  · intro v dv hv hne
    obtain ⟨_, h2⟩ := hfin v dv hv hne
    subst h2
    exact ⟨le_refl _, by simp [settledCost]⟩
  · intro w hw
    simp at hw
  · intro w hw
    simp at hw
  · intro n hn
    rw [hq n hn]
    exact ⟨0, SMap.find_set_self _ _ _, le_refl _, by unfold INT_MAX; omega⟩
  · unfold dijkstraInit
    dsimp only
    rw [(hP.contents_push ⟨source, 0⟩ P.empty).nodup_iff, hP.contents_empty]
    simp
  · intro v dv hv hne
    obtain ⟨h1, h2⟩ := hfin v dv hv hne
    subst h1 h2
    right
    exact (hP.contents_push ⟨v, 0⟩ P.empty).mem_iff.mpr (List.mem_cons_self _ _)
  · intro v p hv
    simp [dijkstraInit, SMap.find] at hv
  · intro v dv hv hne hvs
    exact absurd (hfin v dv hv hne).1 hvs
  · intro v dv hv hne
    obtain ⟨h1, h2⟩ := hfin v dv hv hne
    subst h1 h2
    exact UpWalk.start
  · intro w hw
    simp at hw

/-- With non-negative costs whose sum stays below `INT_MAX`, the loop of `dijkstra`
ends in a state that satisfies the invariant and has an empty queue. -/
theorem dijkstraLoop_final (P : PQueue) (hP : P.Lawful) (s : Network) (source : String)
    (hnn : NonNegCosts s) (hdk : DestsKnown s) (hsum : totalCost s < INT_MAX) :
    ∃ N st, (∀ fuel, N ≤ fuel → dijkstraLoop P fuel (dijkstraInit P s source) = some st) ∧
      Outer P s source st ∧ P.contents st.pq = [] := by
  obtain ⟨N, st, h⟩ := dijkstraLoop_total P hP s source
  obtain ⟨h1, h2⟩ := dijkstraLoop_inv P (Outer P s source)
    (fun st curr q1 hO hpop => dijkstraStep_outer P hP s source hnn hdk hsum st curr q1 hO hpop)
    N _ st (dijkstraInit_outer P hP s source) (h N (le_refl _))
  exact ⟨N, st, h, h1, hP.pop_none _ h2⟩

/-! ## What the invariant gives when the queue is empty -/

/-- No distance recorded at the end exceeds the cost of a walk over up half-edges. -/
theorem outer_le_walk (P : PQueue) (s : Network) (source : String) (st : DState P)
    (hnn : NonNegCosts s) (hsum : totalCost s < INT_MAX)
    (hO : Outer P s source st) (hq : P.contents st.pq = []) (v : String) (k : Int)
    (hw : UpWalk s source v k) :
    ∃ dv, SMap.find st.dist v = some dv ∧ dv ≠ INT_MAX ∧ dv ≤ k := by
  obtain ⟨T, hD, hC⟩ := hO
  induction hw with
  | start => exact ⟨0, hD.src0, by unfold INT_MAX; omega, le_refl _⟩
  | @step u k e _ he hup ih =>
    obtain ⟨du, hdu, hne, hle⟩ := ih
    have huT : u ∈ T := by
      rcases hD.frontier u du hdu hne with h | h
      · exact h
      · rw [hq] at h
        simp at h
    obtain ⟨dw, dv, h1, h2, h3⟩ := hC u huT e he hup
    rw [hdu] at h1
    injection h1 with h1
    subst h1
    obtain ⟨dw, h4, _, h5⟩ := hD.sbound u huT
    rw [hdu] at h4
    injection h4 with h4
    subst h4
    have h6 := cost_le_outCost (s.adj u) (fun e he => adj_cost_nonneg s hnn u e he) e he
    have h7 := settledCost_le_total s hnn T hD.nodupT
    exact ⟨dv, h2, by unfold INT_MAX at hsum ⊢; omega, by omega⟩

/-- Along a list ordered as `TreeOrd` asks, the loop of `getPath` started at a
member `v` collects the routers from `v` back to the successor of `source`, and the
reversed result is a path of up half-edges whose costs add up to `dist[v]`. -/
theorem getPathLoop_tree (s : Network) (dist : SMap Int) (prev : SMap String)
    (source : String) (hs0 : SMap.find dist source = some 0) (T : List String) :
    TreeOrd prev source T →
    (∀ v ∈ T, v ≠ source → ∃ p e dp, SMap.find prev v = some p ∧ e ∈ s.adj p ∧
      e.isUp = true ∧ e.dest = v ∧ SMap.find dist p = some dp ∧
      SMap.find dist v = some (dp + e.cost)) →
    ∀ v ∈ T, ∃ l dv, SMap.find dist v = some dv ∧
      PathVia s dist source ((l ++ [source]).reverse) v dv ∧
      ∀ acc fuel, T.length ≤ fuel → getPathLoop source prev fuel v acc = some (acc ++ l) := by
  induction T with
  | nil => intro _ _ v hv; simp at hv
  | cons t rest ih =>
    intro hord htree v hv
    obtain ⟨h1, h2⟩ := hord
    have ih2 := ih h2 (fun w hw => htree w (List.mem_cons_of_mem _ hw))
    by_cases hvs : v = source
    · subst hvs
      refine ⟨[], 0, hs0, PathVia.single, ?_⟩
      intro acc fuel _
      unfold getPathLoop
      simp
    · have key : ∀ p ∈ rest, SMap.find prev v = some p →
          ∃ l dv, SMap.find dist v = some dv ∧
            PathVia s dist source ((l ++ [source]).reverse) v dv ∧
            ∀ acc fuel, rest.length + 1 ≤ fuel →
              getPathLoop source prev fuel v acc = some (acc ++ l) := by
        intro p hp hpv
        obtain ⟨p1, e, dp, h3, h4, h5, h6, h7, h8⟩ := htree v hv hvs
        rw [hpv] at h3
        injection h3 with h3
        subst h3
        obtain ⟨l, dp1, h9, h10, h11⟩ := ih2 p hp
        rw [h7] at h9
        injection h9 with h9
        subst h9
        refine ⟨v :: l, dp + e.cost, h8, ?_, ?_⟩
        · have := PathVia.snoc e dp h10 h4 h5 h7 (by rw [h6]; exact h8)
          rw [h6] at this
          simpa using this
        · intro acc fuel hle
          obtain ⟨f, rfl⟩ : ∃ f, fuel = f + 1 := ⟨fuel - 1, by omega⟩
          unfold getPathLoop
          rw [if_neg hvs]
          simp only [hpv]
          rw [h11 (acc ++ [v]) f (by omega)]
          simp
      rcases List.mem_cons.mp hv with h | h
      · subst h
        rcases h1 with h1 | ⟨p, hp, hr⟩
        · exact absurd h1 hvs
        · obtain ⟨l, dv, h3, h4, h5⟩ := key p hr hp
          exact ⟨l, dv, h3, h4, fun acc fuel hle => h5 acc fuel (by simpa using hle)⟩
      · obtain ⟨l, dv, h3, h4, h5⟩ := ih2 v h
        exact ⟨l, dv, h3, h4, fun acc fuel hle =>
          h5 acc fuel (by simp only [List.length_cons] at hle; omega)⟩

theorem PathVia.ne_nil {s : Network} {dist : SMap Int} {source : String} {l : List String}
    {d : String} {k : Int} (h : PathVia s dist source l d k) :
    l.head? = some source ∧ l.getLast? = some d ∧ List.Chain' (Hop s dist) l := by
  induction h with
  | single => simp
  | @snoc l u k e du hp he hup hdu hdv ih =>
    obtain ⟨h1, h2, h3⟩ := ih
    refine ⟨?_, by simp, ?_⟩
    · cases l with
      | nil => simp at h1
      | cons a l => simpa using h1
    · apply List.Chain'.append h3 (List.chain'_singleton _)
      intro x hx y hy
      rw [h2] at hx
      simp at hx hy
      subst hx hy
      exact ⟨e, he, hup, rfl, du, hdu, hdv⟩

/-- Members of a list ordered as `TreeOrd` asks have a predecessor chain to `source`. -/
theorem chainTo_of_treeOrd (prev : SMap String) (source : String) (T : List String) :
    TreeOrd prev source T → ∀ v ∈ T, ChainTo prev source v := by
  induction T with
  | nil => intro _ v hv; simp at hv
  | cons t rest ih =>
    intro hord v hv
    obtain ⟨h1, h2⟩ := hord
    rcases List.mem_cons.mp hv with h | h
    · subst h
      by_cases hvs : v = source
      · subst hvs
        exact ChainTo.here
      · rcases h1 with h1 | ⟨p, hp, hr⟩
        · exact absurd h1 hvs
        · exact ChainTo.step hvs hp (ih h2 p hr)
    · exact ih h2 v h

/-- At the end every router with a finite distance is in the list `T` of the
invariant. -/
theorem outer_finite_mem (P : PQueue) (s : Network) (source : String) (st : DState P)
    (T : List String) (hD : DInv P s source T st) (hq : P.contents st.pq = [])
    (v : String) (dv : Int) (hv : SMap.find st.dist v = some dv) (hne : dv ≠ INT_MAX) :
    v ∈ T := by
  rcases hD.frontier v dv hv hne with h | h
  · exact h
  · rw [hq] at h
    simp at h

/-! ## Networks built by the public operations -/

theorem SMap.getD_mem {α : Type} (g : SMap (List α)) (u : String) (e : α)
    (h : e ∈ SMap.getD g u []) : ∃ kv ∈ g, e ∈ kv.2 := by
  unfold SMap.getD at h
  cases hf : SMap.find g u with
  | none => simp [hf] at h
  | some es =>
    simp [hf] at h
    exact ⟨(u, es), SMap.mem_of_find _ _ _ hf, h⟩

theorem markFirst_mem (target : String) (up : Bool) (es : List Edge) (e : Edge)
    (h : e ∈ markFirst target up es) :
    ∃ e0 ∈ es, e.dest = e0.dest ∧ e.cost = e0.cost := by
  induction es with
  | nil => simp [markFirst] at h
  | cons a es ih =>
    unfold markFirst at h
    by_cases ha : a.dest = target
    · rw [if_pos ha] at h
      rcases List.mem_cons.mp h with h1 | h1
      · exact ⟨a, List.mem_cons_self _ _, by rw [h1], by rw [h1]⟩
      · exact ⟨e, List.mem_cons_of_mem _ h1, rfl, rfl⟩
    · rw [if_neg ha] at h
      rcases List.mem_cons.mp h with h1 | h1
      · exact ⟨a, List.mem_cons_self _ _, by rw [h1], by rw [h1]⟩
      · obtain ⟨e0, h2, h3⟩ := ih h1
        exact ⟨e0, List.mem_cons_of_mem _ h2, h3⟩

theorem addRouter_nodes_mem (s : Network) (r x : String) (h : x ∈ s.nodes) :
    x ∈ (addRouter s r).nodes := by
  unfold addRouter
  dsimp only
  split
  · exact h
  · exact List.mem_append_left _ h

theorem addRouter_self_mem (s : Network) (r : String) : r ∈ (addRouter s r).nodes := by
  unfold addRouter
  dsimp only
  split
  · assumption
  · simp

theorem addRouter_destsKnown (s : Network) (r : String) (h : DestsKnown s) :
    DestsKnown (addRouter s r) := by
  intro kv hkv e he
  apply addRouter_nodes_mem
  have hg : kv ∈ s.graph ∨ kv = (r, []) := by
    unfold addRouter at hkv
    dsimp only at hkv
    split at hkv
    · exact SMap.mem_set _ _ _ _ hkv
    · exact Or.inl hkv
  rcases hg with h1 | h1
  · exact h kv h1 e he
  · subst h1
    simp at he

/-- Changing one adjacency list to half-edges with known destinations keeps all
destinations known. -/
theorem destsKnown_set (s : Network) (k : String) (es : List Edge) (h : DestsKnown s)
    (hes : ∀ e ∈ es, e.dest ∈ s.nodes) :
    DestsKnown { s with graph := SMap.set s.graph k es } := by
  intro kv hkv e he
  rcases SMap.mem_set _ _ _ _ hkv with h1 | h1
  · exact h kv h1 e he
  · subst h1
    exact hes e he

theorem getD_destsKnown (s : Network) (h : DestsKnown s) (u : String) (e : Edge)
    (he : e ∈ SMap.getD s.graph u []) : e.dest ∈ s.nodes := by
  obtain ⟨kv, hkv, h1⟩ := SMap.getD_mem s.graph u e he
  exact h kv hkv e h1

theorem addLink_destsKnown (s : Network) (a b : String) (c : Int) (h : DestsKnown s) :
    DestsKnown (addLink s a b c) := by
  have h2 : DestsKnown (addRouter (addRouter s a) b) :=
    addRouter_destsKnown _ _ (addRouter_destsKnown _ _ h)
  have ha : a ∈ (addRouter (addRouter s a) b).nodes :=
    addRouter_nodes_mem _ _ _ (addRouter_self_mem s a)
  have hb : b ∈ (addRouter (addRouter s a) b).nodes := addRouter_self_mem _ b
  have h3 := destsKnown_set (addRouter (addRouter s a) b) a
    (SMap.getD (addRouter (addRouter s a) b).graph a [] ++ [Edge.new b c]) h2 (by
      intro e he
      rcases List.mem_append.mp he with h4 | h4
      · exact getD_destsKnown _ h2 a e h4
      · rw [List.mem_singleton] at h4
        subst h4
        exact hb)
  exact destsKnown_set _ b _ h3 (by
    intro e he
    rcases List.mem_append.mp he with h4 | h4
    · exact getD_destsKnown _ h3 b e h4
    · rw [List.mem_singleton] at h4
      subst h4
      exact ha)

theorem setLinkState_destsKnown (s : Network) (a b : String) (up : Bool) (h : DestsKnown s) :
    DestsKnown (setLinkState s a b up) := by
  have h3 := destsKnown_set s a (markFirst b up (SMap.getD s.graph a [])) h (by
    intro e he
    obtain ⟨e0, h1, h2, _⟩ := markFirst_mem _ _ _ _ he
    rw [h2]
    exact getD_destsKnown s h a e0 h1)
  exact destsKnown_set _ b _ h3 (by
    intro e he
    obtain ⟨e0, h1, h2, _⟩ := markFirst_mem _ _ _ _ he
    rw [h2]
    exact getD_destsKnown _ h3 b e0 h1)

theorem Op.apply_destsKnown (s : Network) (op : Op) (h : DestsKnown s) :
    DestsKnown (Op.apply s op) := by
  cases op with
  | addRouter r => exact addRouter_destsKnown s r h
  | addLink a b c => exact addLink_destsKnown s a b c h
  | linkDown a b => exact setLinkState_destsKnown s a b false h
  | linkUp a b => exact setLinkState_destsKnown s a b true h

/-- A property of the empty network that every public operation keeps holds of
every network built by them. -/
theorem build_induction (I : Network → Prop) (h0 : I Network.empty)
    (hstep : ∀ s op, I s → I (Op.apply s op)) (ops : List Op) : I (build ops) := by
  unfold build
  have : ∀ (ops : List Op) (s : Network), I s → I (ops.foldl Op.apply s) := by
    intro ops
    induction ops with
    | nil => intro s hs; exact hs
    | cons op ops ih => intro s hs; exact ih _ (hstep s op hs)
  exact this ops _ h0

/-- In a network built by the public operations every half-edge leads to a router. -/
theorem build_destsKnown (ops : List Op) : DestsKnown (build ops) :=
  build_induction DestsKnown (by intro kv hkv; simp [Network.empty] at hkv)
    Op.apply_destsKnown ops

theorem dijkstra_of_loop (P : PQueue) (fuel : Nat) (s : Network) (source : String)
    (st : DState P) (h : dijkstraLoop P fuel (dijkstraInit P s source) = some st) :
    dijkstra P fuel s source = some { dist := st.dist, prev := st.prev, graph := st.graph } := by
  unfold dijkstra
  rw [h]
  rfl

/-! ## Adjacency lists after each operation -/

theorem SMap.set_set {α : Type} (m : SMap α) (k : String) (a b : α) :
    SMap.set (SMap.set m k a) k b = SMap.set m k b := by
  induction m with
  | nil => simp [SMap.set]
  | cons kv m ih =>
    obtain ⟨k1, v1⟩ := kv
    by_cases h : k1 = k
    · simp [SMap.set, h]
    · simp [SMap.set, h, ih]

theorem SMap.set_eq_self {α : Type} (m : SMap α) (k : String) (a : α)
    (h : SMap.find m k = some a) : SMap.set m k a = m := by
  induction m with
  | nil => simp [SMap.find] at h
  | cons kv m ih =>
    obtain ⟨k1, v1⟩ := kv
    by_cases h1 : k1 = k
    · subst h1
      simp [SMap.find] at h
      simp [SMap.set, h]
    · simp [SMap.find, h1] at h
      simp [SMap.set, h1, ih h]

theorem SMap.set_comm {α : Type} (m : SMap α) (k1 k2 : String) (a b : α) (hne : k1 ≠ k2)
    (hex : SMap.find m k1 ≠ none ∨ SMap.find m k2 ≠ none) :
    SMap.set (SMap.set m k1 a) k2 b = SMap.set (SMap.set m k2 b) k1 a := by
  induction m with
  | nil => simp [SMap.find] at hex
  | cons kv m ih =>
    obtain ⟨k, v⟩ := kv
    by_cases h1 : k = k1
    · subst h1
      simp [SMap.set, hne]
    · by_cases h2 : k = k2
      · subst h2
        have : ¬ k1 = k := fun h => h1 h.symm
        simp [SMap.set, h1, this]
      · simp only [SMap.find, h1, h2, if_false] at hex
        simp [SMap.set, h1, h2, ih hex]

theorem find_of_adj_ne_nil (s : Network) (a : String) (h : s.adj a ≠ []) :
    SMap.find s.graph a = some (s.adj a) := by
  unfold Network.adj SMap.getD at h ⊢
  cases hf : SMap.find s.graph a with
  | none => simp [hf] at h
  | some es => simp

theorem addRouter_adj (s : Network) (r x : String) : (addRouter s r).adj x = s.adj x := by
  unfold addRouter Network.adj
  dsimp only
  cases hf : SMap.find s.graph r with
  | none =>
    dsimp only
    rw [SMap.getD_set]
    by_cases h : r = x
    · subst h
      simp [SMap.getD, hf]
    · rw [if_neg h]
  | some es => rfl

theorem pushBack_getD (g : SMap (List Edge)) (k x : String) (e : Edge) :
    SMap.getD (pushBack g k e) x [] =
      if k = x then SMap.getD g x [] ++ [e] else SMap.getD g x [] := by
  unfold pushBack
  rw [SMap.getD_set]
  by_cases h : k = x
  · subst h
    simp
  · simp [h]

/-- The adjacency lists after `addLink`: the half-edge to `b` is appended to the
list of `a`, and then the half-edge to `a` to the list of `b`. -/
theorem addLink_adj (s : Network) (a b : String) (c : Int) (x : String) :
    (addLink s a b c).adj x =
      s.adj x ++ (if a = x then [Edge.new b c] else []) ++
        (if b = x then [Edge.new a c] else []) := by
  have h0 : ∀ y, SMap.getD (addRouter (addRouter s a) b).graph y [] = s.adj y := by
    intro y
    exact (addRouter_adj (addRouter s a) b y).trans (addRouter_adj s a y)
  show SMap.getD (pushBack (pushBack (addRouter (addRouter s a) b).graph a (Edge.new b c)) b
    (Edge.new a c)) x [] = _
  rw [pushBack_getD, pushBack_getD, h0]
  by_cases h1 : b = x
  · by_cases h2 : a = x
    · simp [h1, h2]
    · simp [h1, h2]
  · by_cases h2 : a = x
    · simp [h1, h2]
    · simp [h1, h2]

/-- The adjacency lists after `linkDown` (`up = false`) or `linkUp` (`up = true`). -/
theorem setLinkState_adj (s : Network) (a b : String) (up : Bool) (x : String) :
    (setLinkState s a b up).adj x =
      if b = x then markFirst a up (if a = x then markFirst b up (s.adj x) else s.adj x)
      else if a = x then markFirst b up (s.adj x) else s.adj x := by
  unfold setLinkState Network.adj
  dsimp only
  rw [SMap.getD_set, SMap.getD_set, SMap.getD_set]
  by_cases h1 : b = x
  · subst h1
    by_cases h2 : a = b
    · subst h2
      simp
    · simp [h2]
  · by_cases h2 : a = x
    · subst h2
      simp [h1]
    · simp [h1, h2]

theorem markFirst_markFirst (t : String) (up1 up2 : Bool) (es : List Edge) :
    markFirst t up2 (markFirst t up1 es) = markFirst t up2 es := by
  induction es with
  | nil => rfl
  | cons e es ih =>
    by_cases h : e.dest = t
    · simp [markFirst, h]
    · simp [markFirst, h, ih]

theorem markFirst_eq_self (t : String) (up : Bool) (es : List Edge) (e : Edge)
    (h : firstTo t es = some e) (hup : e.isUp = up) : markFirst t up es = es := by
  induction es with
  | nil => rfl
  | cons a es ih =>
    by_cases ha : a.dest = t
    · simp only [firstTo, ha, if_true, Option.some.injEq] at h
      subst h
      subst hup
      subst ha
      simp [markFirst]
    · simp only [firstTo, ha, if_false] at h
      simp [markFirst, ha, ih h]

theorem adj_ne_nil_of_firstTo (t : String) (es : List Edge) (e : Edge)
    (h : firstTo t es = some e) : es ≠ [] := by
  intro hnil
  subst hnil
  simp [firstTo] at h

/-! ## The list queue is lawful -/

theorem popMin_none (q : List Node) (h : popMin q = none) : q = [] := by
  cases q with
  | nil => rfl
  | cons n q =>
    unfold popMin at h
    cases hq : popMin q with
    | none => simp [hq] at h
    | some mq =>
      obtain ⟨m, q1⟩ := mq
      simp only [hq] at h
      split at h <;> simp at h

theorem popMin_some (q : List Node) : ∀ (n : Node) (q1 : List Node),
    popMin q = some (n, q1) → List.Perm q (n :: q1) ∧ ∀ m ∈ q, n.dist ≤ m.dist := by
  induction q with
  | nil => intro n q1 h; simp [popMin] at h
  | cons a q ih =>
    intro n q1 h
    unfold popMin at h
    cases hq : popMin q with
    | none =>
      simp only [hq, Option.some.injEq, Prod.mk.injEq] at h
      obtain ⟨h1, h2⟩ := h
      subst h1 h2
      have := popMin_none q hq
      subst this
      exact ⟨List.Perm.refl _, by simp⟩
    | some mq =>
      obtain ⟨m, q2⟩ := mq
      obtain ⟨hp, hm⟩ := ih m q2 hq
      simp only [hq] at h
      by_cases hle : a.dist ≤ m.dist
      · rw [if_pos hle] at h
        simp only [Option.some.injEq, Prod.mk.injEq] at h
        obtain ⟨h1, h2⟩ := h
        subst h1 h2
        refine ⟨List.Perm.refl _, ?_⟩
        intro x hx
        rcases List.mem_cons.mp hx with h3 | h3
        · rw [h3]
        · exact le_trans hle (hm x h3)
      · rw [if_neg hle] at h
        simp only [Option.some.injEq, Prod.mk.injEq] at h
        obtain ⟨h1, h2⟩ := h
        subst h1 h2
        refine ⟨?_, ?_⟩
        · exact (List.Perm.cons a hp).trans (List.Perm.swap _ _ _)
        · intro x hx
          rcases List.mem_cons.mp hx with h3 | h3
          · rw [h3]; omega
          · exact hm x h3

theorem listPQ_lawful : listPQ.Lawful where
  contents_empty := rfl
  contents_push := fun n q => List.perm_append_singleton n (show List Node from q)
  pop_none := fun q h => popMin_none q h
  pop_some := fun q n q1 h => popMin_some q n q1 h

/-! ## Counting the half-edges between two routers -/

theorem countTo_append (t : String) (l1 l2 : List Edge) :
    countTo t (l1 ++ l2) = countTo t l1 + countTo t l2 := by
  simp [countTo]

theorem countTo_markFirst (t t2 : String) (up : Bool) (es : List Edge) :
    countTo t (markFirst t2 up es) = countTo t es := by
  induction es with
  | nil => rfl
  | cons e es ih =>
    unfold markFirst
    by_cases h : e.dest = t2
    · rw [if_pos h]
      simp only [countTo, List.filter_cons]
      split <;> simp
    · rw [if_neg h]
      simp only [countTo, List.filter_cons] at ih ⊢
      split <;> simp [ih]

theorem countTo_pos (t : String) (es : List Edge) :
    0 < countTo t es ↔ ∃ e ∈ es, e.dest = t := by
  unfold countTo
  rw [List.length_pos_iff_exists_mem]
  constructor
  · rintro ⟨e, he⟩
    rw [List.mem_filter] at he
    exact ⟨e, he.1, by simpa using he.2⟩
  · rintro ⟨e, he, ht⟩
    exact ⟨e, List.mem_filter.mpr ⟨he, by simpa using ht⟩⟩

theorem markFirst_no_match (t : String) (up : Bool) (es : List Edge)
    (h : ¬ ∃ e ∈ es, e.dest = t) : markFirst t up es = es := by
  induction es with
  | nil => rfl
  | cons e es ih =>
    have h1 : ¬ e.dest = t := fun hh => h ⟨e, List.mem_cons_self _ _, hh⟩
    have h2 : ¬ ∃ e ∈ es, e.dest = t :=
      fun ⟨e1, he1, hh⟩ => h ⟨e1, List.mem_cons_of_mem _ he1, hh⟩
    simp [markFirst, h1, ih h2]

theorem firstTo_markFirst (t : String) (up : Bool) (es : List Edge)
    (h : ∃ e ∈ es, e.dest = t) :
    ∃ e1, firstTo t (markFirst t up es) = some e1 ∧ e1.isUp = up := by
  induction es with
  | nil => simp at h
  | cons e es ih =>
    by_cases h1 : e.dest = t
    · exact ⟨{ e with isUp := up }, by simp [markFirst, firstTo, h1], rfl⟩
    · obtain ⟨e0, he0, ht⟩ := h
      have h2 : ∃ e ∈ es, e.dest = t := by
        rcases List.mem_cons.mp he0 with h3 | h3
        · subst h3
          exact absurd ht h1
        · exact ⟨e0, h3, ht⟩
      obtain ⟨e1, h4, h5⟩ := ih h2
      exact ⟨e1, by simp [markFirst, firstTo, h1, h4], h5⟩

theorem addRouter_paired (s : Network) (r : String) (h : Paired s) :
    Paired (addRouter s r) := by
  intro a b hab
  rw [addRouter_adj, addRouter_adj]
  exact h a b hab

theorem addLink_paired (s : Network) (x y : String) (c : Int) (h : Paired s) :
    Paired (addLink s x y c) := by
  intro a b hab
  rw [addLink_adj, addLink_adj, countTo_append, countTo_append, countTo_append,
    countTo_append, h a b hab]
  have hba : ¬ b = a := fun hh => hab hh.symm
  by_cases h1 : x = a <;> by_cases h2 : y = b <;> by_cases h3 : x = b <;> by_cases h4 : y = a <;>
    simp [countTo, Edge.new, h1, h2, h3, h4, hab, hba]

theorem setLinkState_paired (s : Network) (x y : String) (up : Bool) (h : Paired s) :
    Paired (setLinkState s x y up) := by
  intro a b hab
  have key : ∀ z t, countTo t ((setLinkState s x y up).adj z) = countTo t (s.adj z) := by
    intro z t
    rw [setLinkState_adj]
    split
    · split <;> simp [countTo_markFirst]
    · split <;> simp [countTo_markFirst]
  rw [key, key]
  exact h a b hab

/-- In a network built by the public operations, as many half-edges lead from a
router to another one as back. -/
theorem build_paired (ops : List Op) : Paired (build ops) := by
  apply build_induction Paired
  · intro a b _
    rfl
  · intro s op h
    cases op with
    | addRouter r => exact addRouter_paired s r h
    | addLink a b c => exact addLink_paired s a b c h
    | linkDown a b => exact setLinkState_paired s a b false h
    | linkUp a b => exact setLinkState_paired s a b true h

/-! ## The two directions of a link between distinct routers agree -/

theorem linkView_append (t : String) (l1 l2 : List Edge) :
    linkView t (l1 ++ l2) = linkView t l1 ++ linkView t l2 := by
  simp [linkView]

theorem linkView_markFirst_ne (t t2 : String) (up : Bool) (es : List Edge) (h : t2 ≠ t) :
    linkView t (markFirst t2 up es) = linkView t es := by
  induction es with
  | nil => rfl
  | cons e es ih =>
    unfold markFirst
    by_cases h1 : e.dest = t2
    · rw [if_pos h1]
      have h2 : ¬ e.dest = t := fun hh => h (h1.symm.trans hh)
      simp [linkView, List.filter_cons, h2]
    · rw [if_neg h1]
      simp only [linkView, List.filter_cons] at ih ⊢
      split <;> simp [ih]

theorem linkView_markFirst_self (t : String) (up : Bool) (es : List Edge) :
    linkView t (markFirst t up es) = setHead up (linkView t es) := by
  induction es with
  | nil => rfl
  | cons e es ih =>
    unfold markFirst
    by_cases h1 : e.dest = t
    · rw [if_pos h1]
      simp [linkView, List.filter_cons, h1, setHead]
    · rw [if_neg h1]
      simp only [linkView, List.filter_cons] at ih ⊢
      simp [h1, ih]

theorem setLinkState_linkView (s : Network) (x y : String) (up : Bool) (a b : String)
    (hab : a ≠ b) :
    linkView b ((setLinkState s x y up).adj a) =
      if (x = a ∧ y = b) ∨ (x = b ∧ y = a) then setHead up (linkView b (s.adj a))
      else linkView b (s.adj a) := by
  have hba : ¬ b = a := fun hh => hab hh.symm
  rw [setLinkState_adj]
  by_cases h1 : y = a
  · subst h1
    by_cases h2 : x = y
    · subst h2
      simp [hab, hba, linkView_markFirst_ne _ _ _ _ hab]
    · by_cases h3 : x = b
      · subst h3
        simp [h2, hab, hba, linkView_markFirst_self]
      · simp [h2, h3, hab, linkView_markFirst_ne _ _ _ _ h3]
  · by_cases h2 : x = a
    · subst h2
      by_cases h3 : y = b
      · subst h3
        simp [h1, hab, linkView_markFirst_self]
      · simp [h1, h3, hab, linkView_markFirst_ne _ _ _ _ h3]
    · simp [h1, h2]

theorem setLinkState_mirrored (s : Network) (x y : String) (up : Bool) (h : Mirrored s) :
    Mirrored (setLinkState s x y up) := by
  intro a b hab
  rw [setLinkState_linkView s x y up a b hab,
    setLinkState_linkView s x y up b a (fun hh => hab hh.symm), h a b hab]
  by_cases h1 : x = a <;> by_cases h2 : y = b <;> by_cases h3 : x = b <;> by_cases h4 : y = a <;>
    simp [h1, h2, h3, h4]

theorem addLink_mirrored (s : Network) (x y : String) (c : Int) (h : Mirrored s) :
    Mirrored (addLink s x y c) := by
  intro a b hab
  rw [addLink_adj, addLink_adj, linkView_append, linkView_append, linkView_append,
    linkView_append, h a b hab]
  have hba : ¬ b = a := fun hh => hab hh.symm
  by_cases h1 : x = a <;> by_cases h2 : y = b <;> by_cases h3 : x = b <;> by_cases h4 : y = a <;>
    simp [linkView, Edge.new, h1, h2, h3, h4, hab, hba]

/-- In every network built by the public operations, the half-edges between two
distinct routers agree in both directions, one by one, in cost and in state. -/
theorem build_mirrored (ops : List Op) : Mirrored (build ops) := by
  apply build_induction Mirrored
  · intro a b _
    rfl
  · intro s op h
    cases op with
    | addRouter r =>
      intro a b hab
      show linkView b ((addRouter s r).adj a) = linkView a ((addRouter s r).adj b)
      rw [addRouter_adj, addRouter_adj]
      exact h a b hab
    | addLink a b c => exact addLink_mirrored s a b c h
    | linkDown a b => exact setLinkState_mirrored s a b false h
    | linkUp a b => exact setLinkState_mirrored s a b true h

/-- In a network built by the public operations, a half-edge `a -> b` is stored
with `a` exactly when a half-edge `b -> a` is stored with `b`. -/
theorem build_hasTo_iff (ops : List Op) (a b : String) :
    (∃ e ∈ (build ops).adj a, e.dest = b) ↔ (∃ e ∈ (build ops).adj b, e.dest = a) := by
  by_cases hab : a = b
  · subst hab
    exact Iff.rfl
  · rw [← countTo_pos, ← countTo_pos, build_paired ops a b hab]

/-! ## Networks built by `addRouter` and `addLink` only -/

theorem foldl_apply_induction (I : Network → Prop) (Q : Op → Prop)
    (hstep : ∀ s op, Q op → I s → I (Op.apply s op)) (ops : List Op) :
    ∀ s, (∀ op ∈ ops, Q op) → I s → I (ops.foldl Op.apply s) := by
  induction ops with
  | nil => intro s _ hs; exact hs
  | cons op ops ih =>
    intro s hQ hs
    exact ih _ (fun o ho => hQ o (List.mem_cons_of_mem _ ho))
      (hstep s op (hQ op (List.mem_cons_self _ _)) hs)

/-- After calls of `addRouter` and `addLink` only, every half-edge is up. -/
theorem addOnly_all_up (ops : List Op) (h : AddOnly ops) :
    ∀ u, ∀ e ∈ (build ops).adj u, e.isUp = true := by
  unfold build
  refine foldl_apply_induction (fun s => ∀ u, ∀ e ∈ s.adj u, e.isUp = true)
    (fun op => (∃ r, op = Op.addRouter r) ∨ (∃ a b c, op = Op.addLink a b c))
    ?_ ops Network.empty h ?_
  · intro s op hop hs u e he
    rcases hop with ⟨r, rfl⟩ | ⟨a, b, c, rfl⟩
    · rw [show (Op.apply s (Op.addRouter r)).adj u = s.adj u from addRouter_adj s r u] at he
      exact hs u e he
    · rw [show (Op.apply s (Op.addLink a b c)).adj u = _ from addLink_adj s a b c u] at he
      rcases List.mem_append.mp he with h1 | h1
      · rcases List.mem_append.mp h1 with h2 | h2
        · exact hs u e h2
        · split at h2
          · rw [List.mem_singleton] at h2
            rw [h2]
            rfl
          · simp at h2
      · split at h1
        · rw [List.mem_singleton] at h1
          rw [h1]
          rfl
        · simp at h1
  · intro u e he
    simp [Network.empty, Network.adj, SMap.getD, SMap.find] at he

theorem firstTo_of_all_up (t : String) (es : List Edge) (hex : ∃ e ∈ es, e.dest = t)
    (hup : ∀ e ∈ es, e.isUp = true) : ∃ e, firstTo t es = some e ∧ e.isUp = true := by
  induction es with
  | nil => simp at hex
  | cons a es ih =>
    by_cases h : a.dest = t
    · exact ⟨a, by simp [firstTo, h], hup a (List.mem_cons_self _ _)⟩
    · obtain ⟨e0, he0, ht⟩ := hex
      have h2 : ∃ e ∈ es, e.dest = t := by
        rcases List.mem_cons.mp he0 with h3 | h3
        · subst h3
          exact absurd ht h
        · exact ⟨e0, h3, ht⟩
      obtain ⟨e, h4, h5⟩ := ih h2 (fun e he => hup e (List.mem_cons_of_mem _ he))
      exact ⟨e, by simp [firstTo, h, h4], h5⟩

/-- After calls of `addRouter` and `addLink` only, any two linked routers have
their first half-edges to each other up. -/
theorem addOnly_first_up (ops : List Op) (h : AddOnly ops) (a b : String)
    (hex : ∃ e ∈ (build ops).adj a, e.dest = b) :
    (∃ e, firstTo b ((build ops).adj a) = some e ∧ e.isUp = true) ∧
    (∃ e, firstTo a ((build ops).adj b) = some e ∧ e.isUp = true) :=
  ⟨firstTo_of_all_up b _ hex (addOnly_all_up ops h a),
   firstTo_of_all_up a _ ((build_hasTo_iff ops a b).mp hex) (addOnly_all_up ops h b)⟩

/-! ## Runs without ties do not depend on the queue -/

theorem relaxEdge_sameRun (P : PQueue) (hP : P.Lawful) (u : String) (st : DState P)
    (st2 : DState listPQ) (e : Edge) (h : SameRun P st st2) :
    SameRun P (relaxEdge P u st e) (relaxEdge listPQ u st2 e) := by
  obtain ⟨h1, h2, h3, h4⟩ := h
  unfold relaxEdge
  rw [h1, h2]
  by_cases hup : e.isUp = false
  · rw [if_pos hup, if_pos hup]
    exact ⟨h1, h2, h3, h4⟩
  · rw [if_neg hup, if_neg hup]
    dsimp only
    split
    · refine ⟨rfl, rfl, h3, ?_⟩
      dsimp only
      exact (hP.contents_push _ _).trans
        ((List.Perm.cons _ h4).trans (listPQ_lawful.contents_push _ _).symm)
    · exact ⟨rfl, rfl, h3, h4⟩

theorem foldl_relaxEdge_sameRun (P : PQueue) (hP : P.Lawful) (u : String) (es : List Edge) :
    ∀ (st : DState P) (st2 : DState listPQ), SameRun P st st2 →
      SameRun P (es.foldl (relaxEdge P u) st) (es.foldl (relaxEdge listPQ u) st2) := by
  induction es with
  | nil => intro st st2 h; exact h
  | cons e es ih =>
    intro st st2 h
    exact ih _ _ (relaxEdge_sameRun P hP u st st2 e h)

theorem dijkstraStep_sameRun (P : PQueue) (hP : P.Lawful) (st : DState P)
    (st2 : DState listPQ) (curr : Node) (q1 : P.Q) (q2 : listPQ.Q)
    (h : SameRun P st st2) (hq : List.Perm (P.contents q1) (listPQ.contents q2)) :
    SameRun P (dijkstraStep P st curr q1) (dijkstraStep listPQ st2 curr q2) := by
  obtain ⟨h1, h2, h3, _⟩ := h
  unfold dijkstraStep
  rw [h1, h2, h3]
  dsimp only
  split
  · exact ⟨rfl, rfl, rfl, hq⟩
  · exact foldl_relaxEdge_sameRun P hP curr.id _ _ _ ⟨rfl, rfl, rfl, hq⟩

/-- Without ties, a lawful queue pops what the list queue pops. -/
theorem pop_sameRun (P : PQueue) (hP : P.Lawful) (q : P.Q) (q2 : listPQ.Q)
    (hq : List.Perm (P.contents q) (listPQ.contents q2))
    (hu : UniqueMin (listPQ.contents q2)) :
    (P.pop q = none ∧ listPQ.pop q2 = none) ∨
    ∃ curr q1 q3, P.pop q = some (curr, q1) ∧ listPQ.pop q2 = some (curr, q3) ∧
      List.Perm (P.contents q1) (listPQ.contents q3) := by
  cases hp : P.pop q with
  | none =>
    left
    refine ⟨rfl, ?_⟩
    have h1 := hP.pop_none _ hp
    rw [h1] at hq
    have h2 : listPQ.contents q2 = [] := List.Perm.nil_eq hq ▸ rfl
    cases hp2 : listPQ.pop q2 with
    | none => rfl
    | some mq =>
      obtain ⟨m, q3⟩ := mq
      have h3 := (listPQ_lawful.pop_some _ _ _ hp2).1
      rw [h2] at h3
      simp at h3
  | some mq =>
    obtain ⟨m, q1⟩ := mq
    right
    obtain ⟨h1, h2⟩ := hP.pop_some _ _ _ hp
    cases hp2 : listPQ.pop q2 with
    | none =>
      have h3 := listPQ_lawful.pop_none _ hp2
      rw [h3] at hq
      have := (h1.symm.trans hq).length_eq
      simp at this
    | some mq2 =>
      obtain ⟨n, q3⟩ := mq2
      obtain ⟨h3, h4⟩ := listPQ_lawful.pop_some _ _ _ hp2
      have hm : m ∈ listPQ.contents q2 :=
        hq.mem_iff.mp (h1.mem_iff.mpr (List.mem_cons_self _ _))
      have hn : n ∈ listPQ.contents q2 := h3.mem_iff.mpr (List.mem_cons_self _ _)
      have hmn : m = n := hu m hm n hn
        (fun x hx => h2 x (hq.mem_iff.mpr hx)) (fun x hx => h4 x hx)
      subst hmn
      refine ⟨m, q1, q3, rfl, rfl, ?_⟩
      exact List.Perm.cons_inv ((h1.symm.trans hq).trans h3)

/-- If the run with the list queue meets no tie, the run with any lawful queue
ends after as many iterations with the same maps and graph. -/
theorem dijkstraLoop_sameRun (P : PQueue) (hP : P.Lawful) (fuel : Nat) :
    ∀ (st : DState P) (st2 r2 : DState listPQ), SameRun P st st2 →
      tieFree fuel st2 = true → dijkstraLoop listPQ fuel st2 = some r2 →
      ∃ r, dijkstraLoop P fuel st = some r ∧ SameRun P r r2 := by
  induction fuel with
  | zero => intro st st2 r2 _ _ h; simp [dijkstraLoop] at h
  | succ n ih =>
    intro st st2 r2 hs ht h
    unfold tieFree at ht
    rw [Bool.and_eq_true, decide_eq_true_eq] at ht
    obtain ⟨hu, ht2⟩ := ht
    unfold dijkstraLoop at h ⊢
    rcases pop_sameRun P hP st.pq st2.pq hs.2.2.2 hu with ⟨h1, h2⟩ | ⟨curr, q1, q3, h1, h2, h3⟩
    · rw [h2] at h
      rw [h1]
      simp only [Option.some.injEq] at h
      subst h
      exact ⟨st, rfl, hs⟩
    · rw [h2] at h ht2
      rw [h1]
      dsimp only at h ht2 ⊢
      exact ih _ _ r2 (dijkstraStep_sameRun P hP st st2 curr q1 q3 hs h3) ht2 h

/-- If the run of `dijkstra` with the list queue meets no tie and returns `r`
within `fuel` iterations, `dijkstra` with any lawful queue returns `r` for that
fuel and any larger one. -/
theorem dijkstra_sameRun (P : PQueue) (hP : P.Lawful) (fuel : Nat) (s : Network)
    (source : String) (r : DResult)
    (ht : tieFree fuel (dijkstraInit listPQ s source) = true)
    (h : dijkstra listPQ fuel s source = some r) :
    ∀ fuel2, fuel ≤ fuel2 → dijkstra P fuel2 s source = some r := by
  unfold dijkstra at h
  cases hl : dijkstraLoop listPQ fuel (dijkstraInit listPQ s source) with
  | none => rw [hl] at h; simp at h
  | some r2 =>
    rw [hl] at h
    simp only [Option.map_some', Option.some.injEq] at h
    have hinit : SameRun P (dijkstraInit P s source) (dijkstraInit listPQ s source) :=
      ⟨rfl, rfl, rfl, (hP.contents_push _ _).trans (by
        rw [hP.contents_empty]
        exact List.Perm.refl _)⟩
    obtain ⟨r1, h1, h2, h3, h4, _⟩ := dijkstraLoop_sameRun P hP fuel _ _ r2 hinit ht hl
    intro fuel2 hle
    rw [dijkstra_of_loop P fuel2 s source r1 (dijkstraLoop_mono P fuel _ _ h1 fuel2 hle),
      ← h, h2, h3, h4]

theorem getPathLoop_mono (src : String) (prev : SMap String) (fuel : Nat) :
    ∀ (curr : String) (acc p : List String), getPathLoop src prev fuel curr acc = some p →
      ∀ fuel2, fuel ≤ fuel2 → getPathLoop src prev fuel2 curr acc = some p := by
  induction fuel with
  | zero =>
    intro curr acc p h fuel2 _
    unfold getPathLoop at h ⊢
    by_cases hc : curr = src
    · rw [if_pos hc] at h ⊢
      exact h
    · rw [if_neg hc] at h
      simp at h
  | succ n ih =>
    intro curr acc p h fuel2 hle
    obtain ⟨m, rfl⟩ : ∃ m, fuel2 = m + 1 := ⟨fuel2 - 1, by omega⟩
    unfold getPathLoop at h ⊢
    by_cases hc : curr = src
    · rw [if_pos hc] at h ⊢
      exact h
    · rw [if_neg hc] at h ⊢
      dsimp only at h ⊢
      cases hp : SMap.find prev curr with
      | none =>
        rw [hp] at h
        exact h
      | some q =>
        rw [hp] at h
        exact ih _ _ _ h m (by omega)

/-- More fuel does not change what `getPath` returns. -/
theorem getPath_mono (fuel : Nat) (src dest : String) (prev : SMap String) (p : List String)
    (h : getPath fuel src dest prev = some p) :
    ∀ fuel2, fuel ≤ fuel2 → getPath fuel2 src dest prev = some p := by
  intro fuel2 hle
  unfold getPath at h ⊢
  split
  · rename_i hc
    rw [if_pos hc] at h
    exact h
  · rename_i hc
    rw [if_neg hc] at h
    cases hl : getPathLoop src prev fuel dest [] with
    | none => rw [hl] at h; simp at h
    | some l =>
      rw [hl] at h
      rw [getPathLoop_mono src prev fuel dest [] l hl fuel2 hle]
      exact h

/-! ## Shortest distances (C1) -/

/-- C1. Shortest-distance correctness: on every network built from the empty one by
`addRouter`, `addLink`, `linkDown` and `linkUp` whose half-edge costs are
non-negative and sum to less than `INT_MAX`, and for every source, `dijkstra`
returns (with enough fuel, and then whatever the fuel) a distance map in which
every router `v` has an entry `dv` that is no larger than the cost of any walk
from the source to `v` over up half-edges, is the cost of such a walk as soon as
one exists, and is `INT_MAX` exactly when none exists. -/
theorem dijkstra_shortest_distance (P : PQueue) (hP : P.Lawful) (ops : List Op)
    (source : String) (hnn : NonNegCosts (build ops))
    (hsum : totalCost (build ops) < INT_MAX) :
    ∃ N r, (∀ fuel, N ≤ fuel → dijkstra P fuel (build ops) source = some r) ∧
      ∀ v ∈ (build ops).nodes, ∃ dv, SMap.find r.dist v = some dv ∧
        (∀ k, UpWalk (build ops) source v k → dv ≤ k) ∧
        ((∃ k, UpWalk (build ops) source v k) → UpWalk (build ops) source v dv) ∧
        (dv = INT_MAX ↔ ¬ ∃ k, UpWalk (build ops) source v k) := by
  obtain ⟨N, st, hrun, hO, hq⟩ :=
    dijkstraLoop_final P hP (build ops) source hnn (build_destsKnown ops) hsum
  refine ⟨N, { dist := st.dist, prev := st.prev, graph := st.graph },
    fun fuel hle => dijkstra_of_loop P fuel _ _ st (hrun fuel hle), ?_⟩
  intro v hv
  have hup := outer_le_walk P (build ops) source st hnn hsum hO hq v
  obtain ⟨T, hD, _⟩ := hO
  obtain ⟨dv, hdv⟩ := hD.keys v hv
  have hfin : (∃ k, UpWalk (build ops) source v k) → dv ≠ INT_MAX := by
    rintro ⟨k, hk⟩
    obtain ⟨d1, h1, h2, _⟩ := hup k hk
    rw [hdv] at h1
    injection h1 with h1
    subst h1
    exact h2
  refine ⟨dv, hdv, ?_, ?_, ?_⟩
  · intro k hk
    obtain ⟨d1, h1, _, h3⟩ := hup k hk
    rw [hdv] at h1
    injection h1 with h1
    subst h1
    exact h3
  · intro hex
    exact hD.walk v dv hdv (hfin hex)
  · constructor
    · intro heq hex
      exact hfin hex heq
    · intro hno
      by_contra hne
      exact hno ⟨dv, hD.walk v dv hdv hne⟩

/-- C1 applied to the triangle network and the source `A`. -/
theorem dijkstra_shortest_distance_witness :
    ∃ N r, (∀ fuel, N ≤ fuel → dijkstra listPQ fuel (build triangle) "A" = some r) ∧
      ∀ v ∈ (build triangle).nodes, ∃ dv, SMap.find r.dist v = some dv ∧
        (∀ k, UpWalk (build triangle) "A" v k → dv ≤ k) ∧
        ((∃ k, UpWalk (build triangle) "A" v k) → UpWalk (build triangle) "A" v dv) ∧
        (dv = INT_MAX ↔ ¬ ∃ k, UpWalk (build triangle) "A" v k) :=
  dijkstra_shortest_distance listPQ listPQ_lawful triangle "A" (by decide) (by decide)

/-! ## Path reconstruction (C2) -/

/-- C2. Path reconstruction: under the preconditions of C1, for the maps returned
by `dijkstra` and every `d` whose distance `dd` is not `INT_MAX`, `getPath` returns
(with enough fuel) a non-empty list that starts with the source and ends with `d`,
in which every two neighbours `u`, `v` are joined by an up half-edge `u -> v` of
some cost `c` with `dist[v] = dist[u] + c`, and whose costs add up to `dd`. -/
theorem getPath_reconstructs (P : PQueue) (hP : P.Lawful) (ops : List Op)
    (source : String) (hnn : NonNegCosts (build ops))
    (hsum : totalCost (build ops) < INT_MAX) :
    ∃ N r, (∀ fuel, N ≤ fuel → dijkstra P fuel (build ops) source = some r) ∧
      ∀ d dd, SMap.find r.dist d = some dd → dd ≠ INT_MAX →
        ∃ M path, (∀ fuel, M ≤ fuel → getPath fuel source d r.prev = some path) ∧
          path ≠ [] ∧ path.head? = some source ∧ path.getLast? = some d ∧
          List.Chain' (Hop (build ops) r.dist) path ∧
          PathVia (build ops) r.dist source path d dd := by
  obtain ⟨N, st, hrun, hO, hq⟩ :=
    dijkstraLoop_final P hP (build ops) source hnn (build_destsKnown ops) hsum
  refine ⟨N, { dist := st.dist, prev := st.prev, graph := st.graph },
    fun fuel hle => dijkstra_of_loop P fuel _ _ st (hrun fuel hle), ?_⟩
  obtain ⟨T, hD, _⟩ := hO
  intro d dd hd hne
  dsimp only at hd ⊢
  have hdT := outer_finite_mem P (build ops) source st T hD hq d dd hd hne
  have htree : ∀ v ∈ T, v ≠ source → ∃ p e dp, SMap.find st.prev v = some p ∧
      e ∈ (build ops).adj p ∧ e.isUp = true ∧ e.dest = v ∧ SMap.find st.dist p = some dp ∧
      SMap.find st.dist v = some (dp + e.cost) := by
    intro v hv hvs
    obtain ⟨dv, h1, h2, _⟩ := hD.sbound v hv
    obtain ⟨p, e, dp, h3, _, h5, h6, h7, h8, h9⟩ := hD.tree v dv h1 h2 hvs
    exact ⟨p, e, dp, h3, h5, h6, h7, h8, by rw [h1, h9]⟩
  obtain ⟨l, dv, h1, h2, h3⟩ :=
    getPathLoop_tree (build ops) st.dist st.prev source hD.src0 T hD.order htree d hdT
  rw [hd] at h1
  injection h1 with h1
  subst h1
  obtain ⟨h4, h5, h6⟩ := h2.ne_nil
  refine ⟨T.length, (l ++ [source]).reverse, ?_, by simp, h4, h5, h6, h2⟩
  intro fuel hle
  unfold getPath
  have hc : ¬ (SMap.find st.prev d = none ∧ d ≠ source) := by
    rintro ⟨h7, h8⟩
    obtain ⟨p, _, _, h9, _⟩ := htree d hdT h8
    rw [h7] at h9
    exact absurd h9 (by simp)
  rw [if_neg hc, h3 [] fuel hle]
  rfl

/-- C2 applied to the triangle network and the source `A`. -/
theorem getPath_reconstructs_witness :
    ∃ N r, (∀ fuel, N ≤ fuel → dijkstra listPQ fuel (build triangle) "A" = some r) ∧
      ∀ d dd, SMap.find r.dist d = some dd → dd ≠ INT_MAX →
        ∃ M path, (∀ fuel, M ≤ fuel → getPath fuel "A" d r.prev = some path) ∧
          path ≠ [] ∧ path.head? = some "A" ∧ path.getLast? = some d ∧
          List.Chain' (Hop (build triangle) r.dist) path ∧
          PathVia (build triangle) r.dist "A" path d dd :=
  getPath_reconstructs listPQ listPQ_lawful triangle "A" (by decide) (by decide)

/-! ## The postcondition of `dijkstra` (C3) -/

/-- C3, as amended. On every network built by the public operations whose half-edge
costs are non-negative and sum to less than `INT_MAX`, and for every source, each
router `v` ends either with a distance other than `INT_MAX` and a predecessor chain
that reaches the source, or with the distance `INT_MAX` and no `prev` entry. -/
theorem dijkstra_postcondition (P : PQueue) (hP : P.Lawful) (ops : List Op)
    (source : String) (hnn : NonNegCosts (build ops))
    (hsum : totalCost (build ops) < INT_MAX) :
    ∃ N r, (∀ fuel, N ≤ fuel → dijkstra P fuel (build ops) source = some r) ∧
      ∀ v ∈ (build ops).nodes, ∃ dv, SMap.find r.dist v = some dv ∧
        ((dv ≠ INT_MAX ∧ ChainTo r.prev source v) ∨
         (dv = INT_MAX ∧ SMap.find r.prev v = none)) := by
  obtain ⟨N, st, hrun, hO, hq⟩ :=
    dijkstraLoop_final P hP (build ops) source hnn (build_destsKnown ops) hsum
  refine ⟨N, { dist := st.dist, prev := st.prev, graph := st.graph },
    fun fuel hle => dijkstra_of_loop P fuel _ _ st (hrun fuel hle), ?_⟩
  obtain ⟨T, hD, _⟩ := hO
  intro v hv
  obtain ⟨dv, hdv⟩ := hD.keys v hv
  refine ⟨dv, hdv, ?_⟩
  dsimp only
  by_cases hne : dv = INT_MAX
  · right
    refine ⟨hne, ?_⟩
    cases hp : SMap.find st.prev v with
    | none => rfl
    | some p =>
      obtain ⟨_, d1, h1, h2⟩ := hD.prev_dom v p hp
      rw [hdv] at h1
      injection h1 with h1
      subst h1
      exact absurd hne h2
  · left
    exact ⟨hne, chainTo_of_treeOrd st.prev source T hD.order v
      (outer_finite_mem P (build ops) source st T hD hq v dv hdv hne)⟩

/-- C3 as amended, applied to the triangle network and the source `A`. -/
theorem dijkstra_postcondition_witness :
    ∃ N r, (∀ fuel, N ≤ fuel → dijkstra listPQ fuel (build triangle) "A" = some r) ∧
      ∀ v ∈ (build triangle).nodes, ∃ dv, SMap.find r.dist v = some dv ∧
        ((dv ≠ INT_MAX ∧ ChainTo r.prev "A" v) ∨
         (dv = INT_MAX ∧ SMap.find r.prev v = none)) :=
  dijkstra_postcondition listPQ listPQ_lawful triangle "A" (by decide) (by decide)

theorem overflowLine_no_chain (v : String)
    (h : ChainTo [("B", "C"), ("A", "B"), ("C", "B")] "A" v) : v ≠ "B" ∧ v ≠ "C" := by
  induction h with
  | here => decide
  | @step v p hv hp _ ih =>
    constructor
    · intro hB
      subst hB
      simp [SMap.find] at hp
      exact ih.2 hp.symm
    · intro hC
      subst hC
      simp [SMap.find] at hp
      exact ih.1 hp.symm

/-- C3 as stated fails without the bound on the costs: on `overflowLine`, whose
costs are non-negative, `dijkstra("A")` leaves router `B` with a distance other than
`INT_MAX` and with `prev[B] = C`, `prev[C] = B`, a chain that never reaches `A`.
(No two queue entries tie in this run, so every lawful queue pops in this order.) -/
theorem dijkstra_postcondition_overflow :
    NonNegCosts overflowLine ∧
    ∃ r, dijkstra listPQ 6 overflowLine "A" = some r ∧
      ¬ ∀ v ∈ overflowLine.nodes, ∃ dv, SMap.find r.dist v = some dv ∧
        ((dv ≠ INT_MAX ∧ ChainTo r.prev "A" v) ∨
         (dv = INT_MAX ∧ SMap.find r.prev v = none)) := by
  refine ⟨by decide, ?_⟩
  refine ⟨{ dist := [("A", -4), ("B", -2147483646), ("C", -2147483648)],
            prev := [("B", "C"), ("A", "B"), ("C", "B")],
            graph := overflowLine.graph }, by decide, ?_⟩
  intro h
  obtain ⟨dv, h1, h2⟩ := h "B" (by decide)
  dsimp only at h1 h2
  rcases h2 with ⟨_, h3⟩ | ⟨_, h3⟩
  · exact (overflowLine_no_chain "B" h3).1 rfl
  · simp [SMap.find] at h3

/-! ## Self-distance (C9) -/

/-- C9, as amended. On every network built by the public operations whose half-edge
costs are non-negative and sum to less than `INT_MAX`, and for every source name,
`dijkstra` returns `dist[source] = 0`, and `getPath(source, source, prev)` is
`[source]` whatever the fuel. -/
theorem dijkstra_self_distance (P : PQueue) (hP : P.Lawful) (ops : List Op)
    (source : String) (hnn : NonNegCosts (build ops))
    (hsum : totalCost (build ops) < INT_MAX) :
    ∃ N r, (∀ fuel, N ≤ fuel → dijkstra P fuel (build ops) source = some r) ∧
      SMap.find r.dist source = some 0 ∧
      ∀ fuel, getPath fuel source source r.prev = some [source] := by
  obtain ⟨N, st, hrun, hO, _⟩ :=
    dijkstraLoop_final P hP (build ops) source hnn (build_destsKnown ops) hsum
  refine ⟨N, { dist := st.dist, prev := st.prev, graph := st.graph },
    fun fuel hle => dijkstra_of_loop P fuel _ _ st (hrun fuel hle), ?_, ?_⟩
  · obtain ⟨T, hD, _⟩ := hO
    exact hD.src0
  · intro fuel
    unfold getPath getPathLoop
    simp

/-- C9 as amended, applied to the triangle network and the source `A`. -/
theorem dijkstra_self_distance_witness :
    ∃ N r, (∀ fuel, N ≤ fuel → dijkstra listPQ fuel (build triangle) "A" = some r) ∧
      SMap.find r.dist "A" = some 0 ∧
      ∀ fuel, getPath fuel "A" "A" r.prev = some ["A"] :=
  dijkstra_self_distance listPQ listPQ_lawful triangle "A" (by decide) (by decide)

/-- C9 as stated fails without the bound on the costs: on `overflowLine`, whose
costs are non-negative `int`s, the sum `dist[B] + cost` for the half-edge `B -> A`
is `2 * (INT_MAX - 1)`, which wraps to `-4`, and `dijkstra("A")` returns
`dist[A] = -4`. -/
theorem dijkstra_self_distance_overflow :
    NonNegCosts overflowLine ∧
    ∃ r, dijkstra listPQ 6 overflowLine "A" = some r ∧ SMap.find r.dist "A" = some (-4) := by
  refine ⟨by decide, ?_⟩
  exact ⟨{ dist := [("A", -4), ("B", -2147483646), ("C", -2147483648)],
           prev := [("B", "C"), ("A", "B"), ("C", "B")],
           graph := overflowLine.graph }, by decide, by decide⟩

/-! ## Unreachable destinations (C10) -/

theorem relaxEdge_reach (P : PQueue) (hP : P.Lawful) (s : Network) (source : String)
    (d0 : SMap Int) (u : String) (st : DState P) (e : Edge)
    (hu : ∃ k, UpWalk s source u k) (he : e ∈ s.adj u)
    (h : ReachInv P s source d0 st) : ReachInv P s source d0 (relaxEdge P u st e) := by
  obtain ⟨h1, h2, h3⟩ := h
  unfold relaxEdge
  by_cases hup : e.isUp = false
  · rw [if_pos hup]
    exact ⟨h1, h2, h3⟩
  · rw [if_neg hup]
    have hv : ∃ k, UpWalk s source e.dest k := by
      obtain ⟨k, hk⟩ := hu
      exact ⟨k + e.cost, UpWalk.step e hk he (by simpa using hup)⟩
    have hd : ∀ x, (¬ ∃ k, UpWalk s source x k) →
        SMap.find ((st.dist.touch u 0).touch e.dest 0) x = SMap.find d0 x := by
      intro x hx
      have hxu : u ≠ x := fun hh => hx (hh ▸ hu)
      have hxv : e.dest ≠ x := fun hh => hx (hh ▸ hv)
      rw [SMap.find_touch, if_neg hxv, SMap.find_touch, if_neg hxu]
      exact (h3 x hx).2
    dsimp only
    split
    · refine ⟨h1, ?_, ?_⟩
      · intro n hn
        dsimp only at hn
        rcases List.mem_cons.mp ((hP.contents_push _ _).mem_iff.mp hn) with h4 | h4
        · rw [h4]
          exact hv
        · exact h2 n h4
      · intro x hx
        have hxv : e.dest ≠ x := fun hh => hx (hh ▸ hv)
        dsimp only
        rw [SMap.find_set_ne _ _ _ _ hxv, SMap.find_set_ne _ _ _ _ hxv]
        exact ⟨(h3 x hx).1, hd x hx⟩
    · exact ⟨h1, h2, fun x hx => ⟨(h3 x hx).1, hd x hx⟩⟩

theorem foldl_relaxEdge_reach (P : PQueue) (hP : P.Lawful) (s : Network) (source : String)
    (d0 : SMap Int) (u : String) (hu : ∃ k, UpWalk s source u k) (es : List Edge) :
    ∀ (st : DState P), (∀ e ∈ es, e ∈ s.adj u) → ReachInv P s source d0 st →
      ReachInv P s source d0 (es.foldl (relaxEdge P u) st) := by
  induction es with
  | nil => intro st _ h; exact h
  | cons e es ih =>
    intro st hes h
    exact ih _ (fun e1 he1 => hes e1 (List.mem_cons_of_mem _ he1))
      (relaxEdge_reach P hP s source d0 u st e hu (hes e (List.mem_cons_self _ _)) h)

theorem dijkstraStep_reach (P : PQueue) (hP : P.Lawful) (s : Network) (source : String)
    (d0 : SMap Int) (st : DState P) (curr : Node) (q1 : P.Q)
    (h : ReachInv P s source d0 st) (hpop : P.pop st.pq = some (curr, q1)) :
    ReachInv P s source d0 (dijkstraStep P st curr q1) := by
  obtain ⟨h1, h2, h3⟩ := h
  obtain ⟨hperm, _⟩ := hP.pop_some _ _ _ hpop
  have hu : ∃ k, UpWalk s source curr.id k :=
    h2 curr (hperm.mem_iff.mpr (List.mem_cons_self _ _))
  have hq : ∀ n ∈ P.contents q1, ∃ k, UpWalk s source n.id k :=
    fun n hn => h2 n (hperm.mem_iff.mpr (List.mem_cons_of_mem _ hn))
  have hd : ∀ x, (¬ ∃ k, UpWalk s source x k) →
      SMap.find st.prev x = none ∧ SMap.find (st.dist.touch curr.id 0) x = SMap.find d0 x := by
    intro x hx
    have hxu : curr.id ≠ x := fun hh => hx (hh ▸ hu)
    rw [SMap.find_touch, if_neg hxu]
    exact h3 x hx
  unfold dijkstraStep
  dsimp only
  split
  · exact ⟨h1, hq, hd⟩
  · apply foldl_relaxEdge_reach P hP s source d0 curr.id hu
    · intro e he
      rw [SMap.getD_touch, h1] at he
      exact he
    · refine ⟨?_, hq, hd⟩
      intro x
      dsimp only
      rw [SMap.getD_touch]
      exact h1 x

theorem dijkstraInit_reach (P : PQueue) (hP : P.Lawful) (s : Network) (source : String) :
    ReachInv P s source (dijkstraInit P s source).dist (dijkstraInit P s source) := by
  refine ⟨fun _ => rfl, ?_, fun x _ => ⟨rfl, rfl⟩⟩
  intro n hn
  have := (hP.contents_push ⟨source, 0⟩ P.empty).mem_iff.mp hn
  rw [hP.contents_empty] at this
  simp at this
  rw [this]
  exact ⟨0, UpWalk.start⟩

/-- C10. Unreachable destinations: on every network (whatever its costs), for every
source and every router `d` other than the source that no walk over up half-edges
reaches from the source, `dijkstra` returns `dist[d] = INT_MAX` and no `prev` entry
for `d`, and `getPath(source, d, prev)` is the empty list whatever the fuel. -/
theorem dijkstra_unreachable (P : PQueue) (hP : P.Lawful) (s : Network)
    (source d : String) (hd : d ∈ s.nodes) (hds : d ≠ source)
    (hno : ¬ ∃ k, UpWalk s source d k) :
    ∃ N r, (∀ fuel, N ≤ fuel → dijkstra P fuel s source = some r) ∧
      SMap.find r.dist d = some INT_MAX ∧ SMap.find r.prev d = none ∧
      ∀ fuel, getPath fuel source d r.prev = some [] := by
  obtain ⟨N, st, hrun⟩ := dijkstraLoop_total P hP s source
  obtain ⟨⟨_, _, h3⟩, _⟩ := dijkstraLoop_inv P
    (ReachInv P s source (dijkstraInit P s source).dist)
    (fun st curr q1 h hpop => dijkstraStep_reach P hP s source _ st curr q1 h hpop)
    N _ st (dijkstraInit_reach P hP s source) (hrun N (le_refl _))
  obtain ⟨h4, h5⟩ := h3 d hno
  refine ⟨N, { dist := st.dist, prev := st.prev, graph := st.graph },
    fun fuel hle => dijkstra_of_loop P fuel _ _ st (hrun fuel hle), ?_, h4, ?_⟩
  · dsimp only
    rw [h5]
    unfold dijkstraInit
    dsimp only
    rw [SMap.find_set_ne _ _ _ _ (fun h => hds h.symm), initDist_find, if_pos hd]
  · intro fuel
    unfold getPath
    dsimp only
    rw [if_pos ⟨h4, hds⟩]

theorem triangleAndD_no_walk : ¬ ∃ k, UpWalk triangleAndD "A" "D" k := by
  have key : ∀ v k, UpWalk triangleAndD "A" v k → v ≠ "D" := by
    intro v k h
    induction h with
    | start => decide
    | @step u k e _ he _ _ =>
      intro hD
      have h1 := mem_allDests triangleAndD.graph u e he
      rw [hD] at h1
      revert h1
      decide
  rintro ⟨k, hk⟩
  exact key "D" k hk rfl

/-- C10 applied to the triangle network with the unlinked router `D`. -/
theorem dijkstra_unreachable_witness :
    ∃ N r, (∀ fuel, N ≤ fuel → dijkstra listPQ fuel triangleAndD "A" = some r) ∧
      SMap.find r.dist "D" = some INT_MAX ∧ SMap.find r.prev "D" = none ∧
      ∀ fuel, getPath fuel "A" "D" r.prev = some [] :=
  dijkstra_unreachable listPQ listPQ_lawful triangleAndD "A" "D" (by decide) (by decide)
    triangleAndD_no_walk

/-! ## Down links are invisible (C4) -/

theorem stripGraph_find (g : SMap (List Edge)) (x : String) :
    SMap.find (stripGraph g) x = (SMap.find g x).map fun es => es.filter fun e => e.isUp := by
  induction g with
  | nil => rfl
  | cons kv g ih =>
    obtain ⟨k, es⟩ := kv
    by_cases h : k = x
    · simp [stripGraph, SMap.find, h]
    · have := ih
      simp only [stripGraph] at this
      simp [stripGraph, SMap.find, h, this]

theorem stripGraph_getD (g : SMap (List Edge)) (x : String) :
    SMap.getD (stripGraph g) x [] = (SMap.getD g x []).filter fun e => e.isUp := by
  unfold SMap.getD
  rw [stripGraph_find]
  cases SMap.find g x <;> simp

theorem stripGraph_set (g : SMap (List Edge)) (k : String) (es : List Edge) :
    stripGraph (SMap.set g k es) = SMap.set (stripGraph g) k (es.filter fun e => e.isUp) := by
  induction g with
  | nil => rfl
  | cons kv g ih =>
    obtain ⟨k1, es1⟩ := kv
    have := ih
    simp only [stripGraph] at this
    by_cases h : k1 = k
    · simp [stripGraph, SMap.set, h]
    · simp [stripGraph, SMap.set, h, this]

theorem stripGraph_touch (g : SMap (List Edge)) (k : String) :
    stripGraph (SMap.touch g k []) = SMap.touch (stripGraph g) k [] := by
  unfold SMap.touch
  rw [stripGraph_find]
  cases h : SMap.find g k with
  | none => simp [stripGraph_set]
  | some es => simp

theorem relaxEdge_strip (P : PQueue) (u : String) (st : DState P) (e : Edge) :
    relaxEdge P u st.strip e = (relaxEdge P u st e).strip := by
  unfold relaxEdge DState.strip
  dsimp only
  split
  · rfl
  · split <;> rfl

theorem relaxEdge_down (P : PQueue) (u : String) (st : DState P) (e : Edge)
    (h : e.isUp = false) : relaxEdge P u st e = st := by
  unfold relaxEdge
  rw [if_pos h]

theorem foldl_relaxEdge_strip (P : PQueue) (u : String) (es : List Edge) :
    ∀ st : DState P, (es.filter fun e => e.isUp).foldl (relaxEdge P u) st.strip =
      (es.foldl (relaxEdge P u) st).strip := by
  induction es with
  | nil => intro st; rfl
  | cons e es ih =>
    intro st
    cases h : e.isUp with
    | false =>
      simp only [List.filter, h, List.foldl_cons]
      rw [relaxEdge_down P u st e h]
      exact ih st
    | true =>
      simp only [List.filter, h, List.foldl_cons]
      rw [relaxEdge_strip]
      exact ih _

theorem dijkstraStep_strip (P : PQueue) (st : DState P) (curr : Node) (q1 : P.Q) :
    dijkstraStep P st.strip curr q1 = (dijkstraStep P st curr q1).strip := by
  unfold dijkstraStep
  dsimp only
  have h1 : st.strip.dist = st.dist := rfl
  have h2 : st.strip.prev = st.prev := rfl
  have h3 : st.strip.graph = stripGraph st.graph := rfl
  rw [h1, h2, h3]
  split
  · rfl
  · rw [← stripGraph_touch, stripGraph_getD]
    exact foldl_relaxEdge_strip P curr.id _
      { dist := st.dist.touch curr.id 0, prev := st.prev, pq := q1,
        graph := st.graph.touch curr.id [] }

theorem dijkstraLoop_strip (P : PQueue) (fuel : Nat) : ∀ st : DState P,
    dijkstraLoop P fuel st.strip = (dijkstraLoop P fuel st).map DState.strip := by
  induction fuel with
  | zero => intro st; rfl
  | succ n ih =>
    intro st
    unfold dijkstraLoop
    have h1 : st.strip.pq = st.pq := rfl
    rw [h1]
    cases hp : P.pop st.pq with
    | none => rfl
    | some cq =>
      obtain ⟨curr, q1⟩ := cq
      dsimp only
      rw [dijkstraStep_strip]
      exact ih _

/-- On the network without its down half-edges `dijkstra` returns the same
distance and predecessor maps, with the same fuel. -/
theorem dijkstra_removeDown (P : PQueue) (fuel : Nat) (s : Network) (source : String) :
    (dijkstra P fuel (removeDown s) source).map (fun r => (r.dist, r.prev)) =
      (dijkstra P fuel s source).map (fun r => (r.dist, r.prev)) := by
  have h : dijkstraInit P (removeDown s) source = (dijkstraInit P s source).strip := rfl
  unfold dijkstra
  rw [h, dijkstraLoop_strip]
  cases dijkstraLoop P fuel (dijkstraInit P s source) <;> rfl

/-- C4. Down links are invisible: for every network state and every source,
`dijkstra` returns (with enough fuel) a result on the network and a result on
the network with every down half-edge deleted, with equal distance maps and
equal predecessor maps; the two calls agree for every amount of fuel; and
two networks that differ only in their down half-edges (costs and destinations
included) give the same maps. -/
theorem down_links_invisible (P : PQueue) (hP : P.Lawful) (s : Network) (source : String) :
    (∃ N r1 r2, (∀ fuel, N ≤ fuel → dijkstra P fuel s source = some r1 ∧
        dijkstra P fuel (removeDown s) source = some r2) ∧
      r1.dist = r2.dist ∧ r1.prev = r2.prev) ∧
    (∀ fuel, (dijkstra P fuel (removeDown s) source).map (fun r => (r.dist, r.prev)) =
      (dijkstra P fuel s source).map (fun r => (r.dist, r.prev))) ∧
    (∀ s2 fuel, removeDown s2 = removeDown s →
      (dijkstra P fuel s2 source).map (fun r => (r.dist, r.prev)) =
        (dijkstra P fuel s source).map (fun r => (r.dist, r.prev))) := by
  refine ⟨?_, fun fuel => dijkstra_removeDown P fuel s source, ?_⟩
  · obtain ⟨N, r1, h1⟩ := dijkstra_total P hP s source
    obtain ⟨M, r2, h2⟩ := dijkstra_total P hP (removeDown s) source
    refine ⟨max N M, r1, r2, fun fuel hle => ⟨h1 fuel (le_trans (le_max_left _ _) hle),
      h2 fuel (le_trans (le_max_right _ _) hle)⟩, ?_⟩
    have h3 := dijkstra_removeDown P (max N M) s source
    rw [h1 _ (le_max_left _ _), h2 _ (le_max_right _ _)] at h3
    simp only [Option.map_some', Option.some.injEq, Prod.mk.injEq] at h3
    exact ⟨h3.1.symm, h3.2.symm⟩
  · intro s2 fuel h
    rw [← dijkstra_removeDown P fuel s2 source, ← dijkstra_removeDown P fuel s source, h]

/-- C4 applied to the triangle network after `linkDown("A", "C")`. -/
theorem down_links_invisible_witness :
    (∃ N r1 r2, (∀ fuel, N ≤ fuel → dijkstra listPQ fuel (build triangleDown) "A" = some r1 ∧
        dijkstra listPQ fuel (removeDown (build triangleDown)) "A" = some r2) ∧
      r1.dist = r2.dist ∧ r1.prev = r2.prev) ∧
    (∀ fuel, (dijkstra listPQ fuel (removeDown (build triangleDown)) "A").map
        (fun r => (r.dist, r.prev)) =
      (dijkstra listPQ fuel (build triangleDown) "A").map (fun r => (r.dist, r.prev))) ∧
    (∀ s2 fuel, removeDown s2 = removeDown (build triangleDown) →
      (dijkstra listPQ fuel s2 "A").map (fun r => (r.dist, r.prev)) =
        (dijkstra listPQ fuel (build triangleDown) "A").map (fun r => (r.dist, r.prev))) :=
  down_links_invisible listPQ listPQ_lawful (build triangleDown) "A"

/-! ## The two directions of a link (C5, C8) -/

/-- C5 fails on a self-link: after `addLink("A", "A", 1)` and `linkDown("A", "A")`
the two half-edges that the one `addLink` call created differ in their `isUp`
flag, because both loops of `linkDown` stop at the first of them. -/
theorem linkDown_self_link_diverges :
    (build [Op.addLink "A" "A" 1, Op.linkDown "A" "A"]).adj "A" =
      [⟨"A", 1, false⟩, ⟨"A", 1, true⟩] := by
  decide

/-- Between two distinct routers of a network built by the public operations the
update of a link state is atomic: a half-edge `a -> b` is stored with `a` exactly
when a half-edge `b -> a` is stored with `b`; if there is one, `linkDown(a, b)` and
`linkUp(a, b)` leave the first half-edge `a -> b` in the list of `a` and the first
half-edge `b -> a` in the list of `b`, which are two half-edges in two lists, both
with the flag they set; if there is none, they change no adjacency list (this
also for `a = b`). The self-link, where both loops find the same half-edge, is left
out. -/
theorem setLinkState_both_or_neither (ops : List Op) (a b : String) (up : Bool) :
    ((∃ e ∈ (build ops).adj a, e.dest = b) ↔ (∃ e ∈ (build ops).adj b, e.dest = a)) ∧
    (a ≠ b → (∃ e ∈ (build ops).adj a, e.dest = b) →
      ∃ e1 e2, firstTo b ((setLinkState (build ops) a b up).adj a) = some e1 ∧ e1.isUp = up ∧
        firstTo a ((setLinkState (build ops) a b up).adj b) = some e2 ∧ e2.isUp = up) ∧
    ((¬ ∃ e ∈ (build ops).adj a, e.dest = b) →
      ∀ x, (linkDown (build ops) a b).adj x = (build ops).adj x ∧
        (linkUp (build ops) a b).adj x = (build ops).adj x) := by
  have hiff := build_hasTo_iff ops a b
  refine ⟨hiff, ?_, ?_⟩
  · intro hab hex
    have hex2 := hiff.mp hex
    have hba : ¬ b = a := fun hh => hab hh.symm
    obtain ⟨e1, h1, h2⟩ := firstTo_markFirst b up _ hex
    obtain ⟨e2, h3, h4⟩ := firstTo_markFirst a up _ hex2
    have ha : (setLinkState (build ops) a b up).adj a = markFirst b up ((build ops).adj a) := by
      rw [setLinkState_adj]
      simp [hba]
    have hb : (setLinkState (build ops) a b up).adj b = markFirst a up ((build ops).adj b) := by
      rw [setLinkState_adj]
      simp [hab]
    rw [ha, hb]
    exact ⟨e1, e2, h1, h2, h3, h4⟩
  · intro hno
    have hno2 : ¬ ∃ e ∈ (build ops).adj b, e.dest = a := fun hh => hno (hiff.mpr hh)
    have key : ∀ up x, (setLinkState (build ops) a b up).adj x = (build ops).adj x := by
      intro up x
      rw [setLinkState_adj]
      by_cases h1 : b = x
      · subst h1
        by_cases h2 : a = b
        · subst h2
          simp [markFirst_no_match _ _ _ hno]
        · simp [h2, markFirst_no_match _ _ _ hno2]
      · by_cases h2 : a = x
        · subst h2
          simp [h1, markFirst_no_match _ _ _ hno]
        · simp [h1, h2]
    intro x
    exact ⟨key false x, key true x⟩

/-- C8 fails on a self-link: on the network built by `addLink("A", "A", 1)` the list
of `A` holds the two half-edges of the link, both up, so that `linkDown("A", "A")`
finds a match in either loop; yet both loops stop at the first half-edge, and
the call clears the flag of one half-edge of the link and leaves the other up:
the flag is changed on one direction only. -/
theorem linkDown_self_link_not_atomic :
    selfLink.adj "A" = [⟨"A", 1, true⟩, ⟨"A", 1, true⟩] ∧
    (linkDown selfLink "A" "A").adj "A" = [⟨"A", 1, false⟩, ⟨"A", 1, true⟩] := by
  decide

/-! ## Recovery round trip (C6) -/

/-- C6. Recovery round trip: in every network state in which the first half-edge
`a -> b` of `a` and the first half-edge `b -> a` of `b` both exist and are up,
`linkDown(a, b)` followed by `linkUp(a, b)` gives back the very same state, so that
`dijkstra` returns what it returned before, and `getPath` on its predecessor map
too. -/
theorem linkDown_linkUp_roundtrip (s : Network) (a b : String)
    (ha : ∃ e, firstTo b (s.adj a) = some e ∧ e.isUp = true)
    (hb : ∃ e, firstTo a (s.adj b) = some e ∧ e.isUp = true) :
    linkUp (linkDown s a b) a b = s ∧
    (∀ (P : PQueue) fuel source,
      dijkstra P fuel (linkUp (linkDown s a b) a b) source = dijkstra P fuel s source) ∧
    (∀ (P : PQueue) fuel fuel2 source dest,
      (dijkstra P fuel (linkUp (linkDown s a b) a b) source).map
          (fun r => getPath fuel2 source dest r.prev) =
        (dijkstra P fuel s source).map (fun r => getPath fuel2 source dest r.prev)) := by
  have main : linkUp (linkDown s a b) a b = s := by
    obtain ⟨ea, hea, hupa⟩ := ha
    obtain ⟨eb, heb, hupb⟩ := hb
    have hfa := find_of_adj_ne_nil s a (adj_ne_nil_of_firstTo _ _ _ hea)
    have hfb := find_of_adj_ne_nil s b (adj_ne_nil_of_firstTo _ _ _ heb)
    have hra : markFirst b true (markFirst b false (s.adj a)) = s.adj a := by
      rw [markFirst_markFirst]
      exact markFirst_eq_self b true _ ea hea hupa
    have hrb : markFirst a true (markFirst a false (s.adj b)) = s.adj b := by
      rw [markFirst_markFirst]
      exact markFirst_eq_self a true _ eb heb hupb
    have hg : (linkUp (linkDown s a b) a b).graph = s.graph := by
      unfold linkUp linkDown setLinkState
      dsimp only
      have hadj : ∀ x, SMap.getD s.graph x [] = s.adj x := fun _ => rfl
      by_cases hab : a = b
      · subst hab
        simp only [SMap.getD_set, if_true, SMap.set_set, hadj, markFirst_markFirst]
        rw [markFirst_eq_self a true _ ea hea hupa]
        exact SMap.set_eq_self _ _ _ hfa
      · have hba : ¬ b = a := fun hh => hab hh.symm
        simp only [SMap.getD_set, if_true, hab, hba, if_false, hadj]
        rw [hra, hrb]
        rw [SMap.set_comm _ b a _ _ hba (Or.inr (by rw [SMap.find_set_self]; simp))]
        rw [SMap.set_set, SMap.set_set, SMap.set_eq_self _ _ _ hfa,
          SMap.set_eq_self _ _ _ hfb]
    have hn : (linkUp (linkDown s a b) a b).nodes = s.nodes := rfl
    cases s
    cases hs : linkUp (linkDown _ a b) a b
    rw [hs] at hg hn
    dsimp only at hg hn
    rw [hg, hn]
  refine ⟨main, ?_, ?_⟩
  · intro P fuel source
    rw [main]
  · intro P fuel fuel2 source dest
    rw [main]

/-- C6 applied to the triangle network and the link `A - C`. -/
theorem linkDown_linkUp_roundtrip_witness :
    linkUp (linkDown (build triangle) "A" "C") "A" "C" = build triangle ∧
    (∀ (P : PQueue) fuel source,
      dijkstra P fuel (linkUp (linkDown (build triangle) "A" "C") "A" "C") source =
        dijkstra P fuel (build triangle) source) ∧
    (∀ (P : PQueue) fuel fuel2 source dest,
      (dijkstra P fuel (linkUp (linkDown (build triangle) "A" "C") "A" "C") source).map
          (fun r => getPath fuel2 source dest r.prev) =
        (dijkstra P fuel (build triangle) source).map
          (fun r => getPath fuel2 source dest r.prev)) :=
  linkDown_linkUp_roundtrip (build triangle) "A" "C"
    ⟨⟨"C", 2, true⟩, by decide, rfl⟩ ⟨⟨"A", 2, true⟩, by decide, rfl⟩

/-! ## Negative costs (C7) -/

/-- C7, as amended. `addLink(a, b, cost)` with `cost < 0` is not rejected: it
changes the network, and afterwards the up half-edge to `b` of that cost is in
the adjacency list of `a`, and the up half-edge to `a` of that cost in the list
of `b`. -/
theorem addLink_negative_cost (s : Network) (a b : String) (cost : Int) (_hc : cost < 0) :
    addLink s a b cost ≠ s ∧
    (⟨b, cost, true⟩ : Edge) ∈ (addLink s a b cost).adj a ∧
    (⟨a, cost, true⟩ : Edge) ∈ (addLink s a b cost).adj b := by
  refine ⟨?_, ?_, ?_⟩
  · intro h
    have h1 : ((addLink s a b cost).adj b).length = (s.adj b).length := by rw [h]
    rw [addLink_adj] at h1
    simp at h1
  · rw [addLink_adj]
    simp [Edge.new]
  · rw [addLink_adj]
    simp [Edge.new]

/-- C7 as amended, applied to the empty network and the cost `-1`. -/
theorem addLink_negative_cost_witness :
    addLink Network.empty "A" "B" (-1) ≠ Network.empty ∧
    (⟨"B", -1, true⟩ : Edge) ∈ (addLink Network.empty "A" "B" (-1)).adj "A" ∧
    (⟨"A", -1, true⟩ : Edge) ∈ (addLink Network.empty "A" "B" (-1)).adj "B" :=
  addLink_negative_cost Network.empty "A" "B" (-1) (by decide)

/-- C7 as stated fails: `addLink("A", "B", -1)` on the empty network is not
rejected, and leaves a network with two routers and two half-edges of cost `-1`. -/
theorem addLink_negative_accepted :
    addLink Network.empty "A" "B" (-1) =
      { graph := [("A", [⟨"B", -1, true⟩]), ("B", [⟨"A", -1, true⟩])], nodes := ["A", "B"] } ∧
    addLink Network.empty "A" "B" (-1) ≠ Network.empty := by
  decide

/-! ## Unknown source (C11) -/

theorem addLink_nodes (s : Network) (a b : String) (c : Int) :
    (addLink s a b c).nodes = (addRouter (addRouter s a) b).nodes := rfl

theorem setLinkState_nodes (s : Network) (a b : String) (up : Bool) :
    (setLinkState s a b up).nodes = s.nodes := rfl

theorem apply_onlyRouters (s : Network) (op : Op) (h : OnlyRouters s) :
    OnlyRouters (Op.apply s op) := by
  cases op with
  | addRouter r =>
    intro x hx
    show (addRouter s r).adj x = []
    rw [addRouter_adj]
    exact h x (fun hm => hx (addRouter_nodes_mem s r x hm))
  | addLink a b c =>
    intro x hx
    have hx2 : x ∉ (addRouter (addRouter s a) b).nodes := hx
    have hxa : ¬ a = x := fun hh =>
      hx2 (hh ▸ addRouter_nodes_mem _ _ _ (addRouter_self_mem s a))
    have hxb : ¬ b = x := fun hh => hx2 (hh ▸ addRouter_self_mem _ b)
    have hxs : x ∉ s.nodes :=
      fun hm => hx2 (addRouter_nodes_mem _ _ _ (addRouter_nodes_mem s a x hm))
    show (addLink s a b c).adj x = []
    rw [addLink_adj, if_neg hxa, if_neg hxb, h x hxs]
    rfl
  | linkDown a b =>
    intro x hx
    show (setLinkState s a b false).adj x = []
    rw [setLinkState_adj, h x hx]
    simp [markFirst]
  | linkUp a b =>
    intro x hx
    show (setLinkState s a b true).adj x = []
    rw [setLinkState_adj, h x hx]
    simp [markFirst]

/-- In a network built by the public operations, a name that is not a router has
no half-edge. -/
theorem build_onlyRouters (ops : List Op) : OnlyRouters (build ops) :=
  build_induction OnlyRouters (fun _ _ => rfl) apply_onlyRouters ops

/-- A lawful queue that holds one entry gives it back and is empty afterwards. -/
theorem pop_push_empty (P : PQueue) (hP : P.Lawful) (n : Node) :
    ∃ q1, P.pop (P.push n P.empty) = some (n, q1) ∧ P.pop q1 = none := by
  have hc := hP.contents_push n P.empty
  rw [hP.contents_empty] at hc
  cases hp : P.pop (P.push n P.empty) with
  | none =>
    have := hP.pop_none _ hp
    rw [this] at hc
    simp at hc
  | some mq =>
    obtain ⟨m, q1⟩ := mq
    have h1 := (hP.pop_some _ _ _ hp).1
    have h2 : List.Perm [n] (m :: P.contents q1) := hc.symm.trans h1
    have h3 := h2.length_eq
    simp only [List.length_cons, List.length_nil] at h3
    have h4 : P.contents q1 = [] := List.length_eq_zero.mp (by omega)
    rw [h4] at h2
    have h5 : m = n := by
      have := h2.mem_iff.mpr (List.mem_cons_self _ _)
      simpa using this
    subst h5
    refine ⟨q1, rfl, ?_⟩
    cases hp1 : P.pop q1 with
    | none => rfl
    | some mq1 =>
      obtain ⟨m1, q2⟩ := mq1
      have h6 := (hP.pop_some _ _ _ hp1).1
      rw [h4] at h6
      simp at h6

/-- C11. Unknown source: on every network built by the public operations and for
every source name that is not in the router set, `dijkstra` returns (whatever
the fuel, from two iterations on) an empty predecessor map and a distance map
in which every router has distance `INT_MAX`; the only other entry of the
distance map is that of the source, which is 0. -/
theorem dijkstra_unknown_source (P : PQueue) (hP : P.Lawful) (ops : List Op)
    (source : String) (hsrc : source ∉ (build ops).nodes) :
    ∃ r, (∀ fuel, 2 ≤ fuel → dijkstra P fuel (build ops) source = some r) ∧
      r.prev = [] ∧
      (∀ v ∈ (build ops).nodes, SMap.find r.dist v = some INT_MAX) ∧
      SMap.find r.dist source = some 0 := by
  obtain ⟨q1, hp1, hp2⟩ := pop_push_empty P hP ⟨source, 0⟩
  have hadj : SMap.getD (build ops).graph source [] = [] := build_onlyRouters ops source hsrc
  have hrun : dijkstraLoop P 2 (dijkstraInit P (build ops) source) =
      some { dist := SMap.set (initDist (build ops).nodes) source 0, prev := [], pq := q1,
             graph := SMap.touch (build ops).graph source [] } := by
    have hstep : dijkstraStep P (dijkstraInit P (build ops) source) ⟨source, 0⟩ q1 =
        { dist := SMap.set (initDist (build ops).nodes) source 0, prev := [], pq := q1,
          graph := SMap.touch (build ops).graph source [] } := by
      rw [dijkstraStep_eq P _ _ q1 0 (SMap.find_set_self _ _ _)]
      simp only [gt_iff_lt, lt_self_iff_false, if_false]
      have : SMap.getD (dijkstraInit P (build ops) source).graph source [] = [] := hadj
      rw [this]
      rfl
    unfold dijkstraLoop
    have h0 : (dijkstraInit P (build ops) source).pq = P.push ⟨source, 0⟩ P.empty := rfl
    rw [h0, hp1]
    dsimp only
    rw [hstep]
    unfold dijkstraLoop
    dsimp only
    rw [hp2]
  refine ⟨{ dist := SMap.set (initDist (build ops).nodes) source 0, prev := [],
            graph := SMap.touch (build ops).graph source [] }, ?_, rfl, ?_, ?_⟩
  · intro fuel hle
    exact dijkstra_of_loop P fuel _ _ _ (dijkstraLoop_mono P 2 _ _ hrun fuel hle)
  · intro v hv
    dsimp only
    have hne : source ≠ v := fun hh => hsrc (hh ▸ hv)
    rw [SMap.find_set_ne _ _ _ _ hne, initDist_find, if_pos hv]
  · exact SMap.find_set_self _ _ _

/-- C11 applied to the triangle network and the unknown source `Z`. -/
theorem dijkstra_unknown_source_witness :
    ∃ r, (∀ fuel, 2 ≤ fuel → dijkstra listPQ fuel (build triangle) "Z" = some r) ∧
      r.prev = [] ∧
      (∀ v ∈ (build triangle).nodes, SMap.find r.dist v = some INT_MAX) ∧
      SMap.find r.dist "Z" = some 0 :=
  dijkstra_unknown_source listPQ listPQ_lawful triangle "Z" (by decide)

/-! ## The triangle and failover examples (C12, C13) -/

/-- C12. Triangle example: on the network built by `addLink(A, B, 4)`,
`addLink(A, C, 2)`, `addLink(B, C, 1)`, `dijkstra(A)` returns, with any lawful queue
and from five iterations on, maps with `dist[B] = 3` and `dist[C] = 2`, and
`getPath(A, B, prev)` is `[A, C, B]`. -/
theorem triangle_example (P : PQueue) (hP : P.Lawful) :
    ∃ r, (∀ fuel, 5 ≤ fuel → dijkstra P fuel (build triangle) "A" = some r) ∧
      SMap.find r.dist "B" = some 3 ∧ SMap.find r.dist "C" = some 2 ∧
      ∀ fuel, 2 ≤ fuel → getPath fuel "A" "B" r.prev = some ["A", "C", "B"] :=
  ⟨{ dist := [("A", 0), ("B", 3), ("C", 2)], prev := [("B", "C"), ("C", "A")],
     graph := (build triangle).graph },
   dijkstra_sameRun P hP 5 (build triangle) "A" _ (by decide) (by decide),
   by decide, by decide,
   fun fuel hle => getPath_mono 2 "A" "B" _ _ (by decide) fuel hle⟩

/-- C12 applied to the list queue. -/
theorem triangle_example_witness :
    ∃ r, (∀ fuel, 5 ≤ fuel → dijkstra listPQ fuel (build triangle) "A" = some r) ∧
      SMap.find r.dist "B" = some 3 ∧ SMap.find r.dist "C" = some 2 ∧
      ∀ fuel, 2 ≤ fuel → getPath fuel "A" "B" r.prev = some ["A", "C", "B"] :=
  triangle_example listPQ listPQ_lawful

/-- C13. Failover example: on the triangle network after `linkDown(A, C)`,
`dijkstra(A)` returns, with any lawful queue and from four iterations on, maps
with `dist[B] = 4` and `dist[C] = 5`, and `getPath(A, C, prev)` is `[A, B, C]`. -/
theorem failover_example (P : PQueue) (hP : P.Lawful) :
    ∃ r, (∀ fuel, 4 ≤ fuel → dijkstra P fuel (build triangleDown) "A" = some r) ∧
      SMap.find r.dist "B" = some 4 ∧ SMap.find r.dist "C" = some 5 ∧
      ∀ fuel, 2 ≤ fuel → getPath fuel "A" "C" r.prev = some ["A", "B", "C"] :=
  ⟨{ dist := [("A", 0), ("B", 4), ("C", 5)], prev := [("B", "A"), ("C", "B")],
     graph := (build triangleDown).graph },
   dijkstra_sameRun P hP 4 (build triangleDown) "A" _ (by decide) (by decide),
   by decide, by decide,
   fun fuel hle => getPath_mono 2 "A" "C" _ _ (by decide) fuel hle⟩

/-- C13 applied to the list queue. -/
theorem failover_example_witness :
    ∃ r, (∀ fuel, 4 ≤ fuel → dijkstra listPQ fuel (build triangleDown) "A" = some r) ∧
      SMap.find r.dist "B" = some 4 ∧ SMap.find r.dist "C" = some 5 ∧
      ∀ fuel, 2 ≤ fuel → getPath fuel "A" "C" r.prev = some ["A", "B", "C"] :=
  failover_example listPQ listPQ_lawful

/-! ## What `dijkstra` does to the graph (C14) -/

theorem SMap.find_set_ne_none {α : Type} (m : SMap α) (k x : String) (a : α)
    (h : SMap.find m x ≠ none) : SMap.find (SMap.set m k a) x ≠ none := by
  rw [SMap.find_set]
  split
  · simp
  · exact h

theorem addRouter_find_ne_none (s : Network) (r x : String)
    (h : SMap.find s.graph x ≠ none) : SMap.find (addRouter s r).graph x ≠ none := by
  unfold addRouter
  dsimp only
  split
  · exact SMap.find_set_ne_none _ _ _ _ h
  · exact h

theorem addRouter_find_self (s : Network) (r : String) :
    SMap.find (addRouter s r).graph r ≠ none := by
  unfold addRouter
  dsimp only
  split
  · rw [SMap.find_set_self]
    simp
  · rename_i es hf
    rw [hf]
    simp

theorem addRouter_nodes_cases (s : Network) (r x : String) (h : x ∈ (addRouter s r).nodes) :
    x ∈ s.nodes ∨ x = r := by
  unfold addRouter at h
  dsimp only at h
  split at h
  · exact Or.inl h
  · rcases List.mem_append.mp h with h1 | h1
    · exact Or.inl h1
    · exact Or.inr (by simpa using h1)

theorem addRouter_nodesKeyed (s : Network) (r : String) (h : NodesKeyed s) :
    NodesKeyed (addRouter s r) := by
  intro v hv
  rcases addRouter_nodes_cases s r v hv with h1 | h1
  · exact addRouter_find_ne_none s r v (h v h1)
  · rw [h1]
    exact addRouter_find_self s r

theorem apply_nodesKeyed (s : Network) (op : Op) (h : NodesKeyed s) :
    NodesKeyed (Op.apply s op) := by
  cases op with
  | addRouter r => exact addRouter_nodesKeyed s r h
  | addLink a b c =>
    intro v hv
    have h2 := addRouter_nodesKeyed _ b (addRouter_nodesKeyed s a h) v hv
    exact SMap.find_set_ne_none _ _ _ _ (SMap.find_set_ne_none _ _ _ _ h2)
  | linkDown a b =>
    intro v hv
    exact SMap.find_set_ne_none _ _ _ _ (SMap.find_set_ne_none _ _ _ _ (h v hv))
  | linkUp a b =>
    intro v hv
    exact SMap.find_set_ne_none _ _ _ _ (SMap.find_set_ne_none _ _ _ _ (h v hv))

/-- In a network built by the public operations every router has an entry in the
adjacency map. -/
theorem build_nodesKeyed (ops : List Op) : NodesKeyed (build ops) :=
  build_induction NodesKeyed (by intro v hv; simp [Network.empty] at hv) apply_nodesKeyed ops

theorem relaxEdge_graph (P : PQueue) (u : String) (st : DState P) (e : Edge) :
    (relaxEdge P u st e).graph = st.graph := by
  unfold relaxEdge
  split
  · rfl
  · dsimp only
    split <;> rfl

theorem relaxEdge_contents (P : PQueue) (hP : P.Lawful) (u : String) (st : DState P)
    (e : Edge) (n : Node) (hn : n ∈ P.contents (relaxEdge P u st e).pq) :
    n ∈ P.contents st.pq ∨ n.id = e.dest := by
  unfold relaxEdge at hn
  split at hn
  · exact Or.inl hn
  · dsimp only at hn
    split at hn
    · rcases List.mem_cons.mp ((hP.contents_push _ _).mem_iff.mp hn) with h | h
      · right
        rw [h]
      · exact Or.inl h
    · exact Or.inl hn

theorem foldl_relaxEdge_keyed (P : PQueue) (hP : P.Lawful) (g : SMap (List Edge))
    (u : String) (es : List Edge) : ∀ st : DState P,
      (∀ e ∈ es, SMap.find g e.dest ≠ none) →
      (∀ n ∈ P.contents st.pq, SMap.find g n.id ≠ none) →
      (es.foldl (relaxEdge P u) st).graph = st.graph ∧
      ∀ n ∈ P.contents (es.foldl (relaxEdge P u) st).pq, SMap.find g n.id ≠ none := by
  induction es with
  | nil => intro st _ h; exact ⟨rfl, h⟩
  | cons e es ih =>
    intro st hes h
    obtain ⟨h1, h2⟩ := ih (relaxEdge P u st e)
      (fun e1 he1 => hes e1 (List.mem_cons_of_mem _ he1)) (by
        intro n hn
        rcases relaxEdge_contents P hP u st e n hn with h3 | h3
        · exact h n h3
        · rw [h3]
          exact hes e (List.mem_cons_self _ _))
    exact ⟨h1.trans (relaxEdge_graph P u st e), h2⟩

/-- The frame of `dijkstra` on the graph: on a network built by the public
operations, a call whose source already has an entry in the adjacency map
returns the adjacency map exactly as it was. -/
theorem dijkstra_graph_unchanged (P : PQueue) (hP : P.Lawful) (ops : List Op)
    (source : String) (hkey : SMap.find (build ops).graph source ≠ none)
    (fuel : Nat) (r : DResult) (h : dijkstra P fuel (build ops) source = some r) :
    r.graph = (build ops).graph := by
  have hdest : ∀ u, ∀ e ∈ SMap.getD (build ops).graph u [],
      SMap.find (build ops).graph e.dest ≠ none := fun u e he =>
    build_nodesKeyed ops e.dest (getD_destsKnown _ (build_destsKnown ops) u e he)
  unfold dijkstra at h
  cases hl : dijkstraLoop P fuel (dijkstraInit P (build ops) source) with
  | none => rw [hl] at h; simp at h
  | some st =>
    rw [hl] at h
    simp only [Option.map_some', Option.some.injEq] at h
    rw [← h]
    dsimp only
    have hinv := dijkstraLoop_inv P
      (fun st => st.graph = (build ops).graph ∧
        ∀ n ∈ P.contents st.pq, SMap.find (build ops).graph n.id ≠ none)
      (by
        intro st curr q1 ⟨h1, h2⟩ hpop
        obtain ⟨hperm, _⟩ := hP.pop_some _ _ _ hpop
        have hq1 : ∀ n ∈ P.contents q1, SMap.find (build ops).graph n.id ≠ none :=
          fun n hn => h2 n (hperm.mem_iff.mpr (List.mem_cons_of_mem _ hn))
        have hc : SMap.find st.graph curr.id ≠ none := by
          rw [h1]
          exact h2 curr (hperm.mem_iff.mpr (List.mem_cons_self _ _))
        obtain ⟨es, hes⟩ := Option.ne_none_iff_exists'.mp hc
        unfold dijkstraStep
        dsimp only
        split
        · exact ⟨h1, hq1⟩
        · rw [SMap.touch_of_find _ _ _ _ hes]
          obtain ⟨h3, h4⟩ := foldl_relaxEdge_keyed P hP (build ops).graph curr.id
            (SMap.getD st.graph curr.id [])
            { dist := st.dist.touch curr.id 0, prev := st.prev, pq := q1, graph := st.graph }
            (by rw [h1]; exact hdest curr.id) hq1
          exact ⟨h3.trans h1, h4⟩)
      fuel _ st ⟨rfl, by
        intro n hn
        have := (hP.contents_push ⟨source, 0⟩ P.empty).mem_iff.mp hn
        rw [hP.contents_empty] at this
        simp at this
        rw [this]
        exact hkey⟩ hl
    exact hinv.1.1

/-- Adjacency lists are never changed by `dijkstra`: whatever the network and
the source, every adjacency list reads after the call as it did before. -/
theorem dijkstra_adj_unchanged (P : PQueue) (hP : P.Lawful) (s : Network) (source : String)
    (fuel : Nat) (r : DResult) (h : dijkstra P fuel s source = some r) :
    ∀ u, SMap.getD r.graph u [] = s.adj u := by
  unfold dijkstra at h
  cases hl : dijkstraLoop P fuel (dijkstraInit P s source) with
  | none => rw [hl] at h; simp at h
  | some st =>
    rw [hl] at h
    simp only [Option.map_some', Option.some.injEq] at h
    rw [← h]
    dsimp only
    have hinv := dijkstraLoop_inv P
      (fun st => InRange st.dist ∧ ∀ u, SMap.getD st.graph u [] = SMap.getD s.graph u [])
      (by
        intro st curr q1 ⟨h1, h2⟩ hpop
        obtain ⟨h3, h4, _⟩ := dijkstraStep_measure P hP s.graph st curr q1 h1 h2 hpop
        exact ⟨h3, h4⟩)
      fuel _ st ⟨(initDist_inRange s.nodes).set source 0 (by omega), fun _ => rfl⟩ hl
    exact hinv.1.2

/-- C14 fails for a source without an adjacency entry: on the network with the
one link `A - B`, `graph` has no key `X` before `dijkstra("X")` and has the key `X`,
bound to an empty adjacency list, after it, because `graph[curr.id]` inserts the
key it does not find. -/
theorem dijkstra_inserts_source_key :
    SMap.find oneLink.graph "X" = none ∧
    ∃ r, dijkstra listPQ 2 oneLink "X" = some r ∧
      SMap.find r.graph "X" = some [] ∧ r.graph ≠ oneLink.graph := by
  refine ⟨by decide, ?_⟩
  exact ⟨{ dist := [("A", 2147483647), ("B", 2147483647), ("X", 0)], prev := [],
           graph := oneLink.graph ++ [("X", [])] }, by decide, by decide, by decide⟩

/-! ## `addLink` appends (C15) -/

/-- C15. `addLink` appends a parallel link without deduplication: for every network
state, every `a`, `b` and every cost, after `addLink(a, b, cost)` the router set is
the previous one with `a` and `b`; the adjacency list of every `x` is its previous
list, followed by the up half-edge to `b` if `x` is `a`, followed by the up half-edge
to `a` if `x` is `b` (so for `a = b` both are appended to the one list, in this
order); every earlier half-edge keeps its position, cost and state; and the
lists of all other routers are unchanged. -/
theorem addLink_appends (s : Network) (a b : String) (cost : Int) :
    (∀ x, x ∈ (addLink s a b cost).nodes ↔ x ∈ s.nodes ∨ x = a ∨ x = b) ∧
    (∀ x, (addLink s a b cost).adj x =
      s.adj x ++ (if a = x then [⟨b, cost, true⟩] else []) ++
        (if b = x then [⟨a, cost, true⟩] else [])) ∧
    (a ≠ b → (addLink s a b cost).adj a = s.adj a ++ [⟨b, cost, true⟩] ∧
      (addLink s a b cost).adj b = s.adj b ++ [⟨a, cost, true⟩]) ∧
    (a = b → (addLink s a b cost).adj a = s.adj a ++ [⟨b, cost, true⟩, ⟨a, cost, true⟩]) ∧
    (∀ x (i : Nat) e, (s.adj x)[i]? = some e → ((addLink s a b cost).adj x)[i]? = some e) ∧
    (∀ x, x ≠ a → x ≠ b → (addLink s a b cost).adj x = s.adj x) := by
  have hadj := addLink_adj s a b cost
  refine ⟨?_, hadj, ?_, ?_, ?_, ?_⟩
  · intro x
    rw [addLink_nodes]
    constructor
    · intro h
      rcases addRouter_nodes_cases _ b x h with h1 | h1
      · rcases addRouter_nodes_cases s a x h1 with h2 | h2
        · exact Or.inl h2
        · exact Or.inr (Or.inl h2)
      · exact Or.inr (Or.inr h1)
    · rintro (h | h | h)
      · exact addRouter_nodes_mem _ _ _ (addRouter_nodes_mem s a x h)
      · rw [h]
        exact addRouter_nodes_mem _ _ _ (addRouter_self_mem s a)
      · rw [h]
        exact addRouter_self_mem _ b
  · intro hab
    have hba : ¬ b = a := fun hh => hab hh.symm
    rw [hadj, hadj]
    simp [hab, hba, Edge.new]
  · intro hab
    subst hab
    rw [hadj]
    simp [Edge.new]
  · intro x i e he
    rw [hadj, List.append_assoc]
    exact List.getElem?_append_left (List.getElem?_eq_some.mp he).1 ▸ he
  · intro x hxa hxb
    have h1 : ¬ a = x := fun hh => hxa hh.symm
    have h2 : ¬ b = x := fun hh => hxb hh.symm
    rw [hadj]
    simp [h1, h2]

/-! ## `addRouter` is idempotent (C16) -/

theorem addRouter_nodes_nodup (s : Network) (r : String) (h : s.nodes.Nodup) :
    (addRouter s r).nodes.Nodup := by
  unfold addRouter
  dsimp only
  split
  · exact h
  · rename_i hr
    exact List.Nodup.append h (List.nodup_singleton r) (by
      intro x hx hx2
      rw [List.mem_singleton] at hx2
      exact hr (hx2 ▸ hx))

/-- The router set of a network built by the public operations has no duplicate,
as an `unordered_set` has none. -/
theorem build_nodes_nodup (ops : List Op) : (build ops).nodes.Nodup := by
  apply build_induction (fun s => s.nodes.Nodup)
  · exact List.nodup_nil
  · intro s op h
    cases op with
    | addRouter r => exact addRouter_nodes_nodup s r h
    | addLink a b c => exact addRouter_nodes_nodup _ b (addRouter_nodes_nodup s a h)
    | linkDown a b => exact h
    | linkUp a b => exact h

theorem addRouter_twice (s : Network) (id : String) :
    addRouter (addRouter s id) id = addRouter s id := by
  have h1 : id ∈ (addRouter s id).nodes := addRouter_self_mem s id
  obtain ⟨es, h2⟩ := Option.ne_none_iff_exists'.mp (addRouter_find_self s id)
  generalize addRouter s id = t at h1 h2
  unfold addRouter
  rw [if_pos h1, h2]

/-- C16. `addRouter` is idempotent: applied to a state in which `id` is already a
router (of a duplicate-free router set, as every `unordered_set` is), `addRouter(id)`
leaves the router set and every adjacency list unchanged, and the whole state when
`id` has an adjacency entry; `addRouter(id)` twice is the same as once; and `id`
occurs once in the router set. -/
theorem addRouter_idempotent (s : Network) (id : String) (h : id ∈ s.nodes)
    (hnd : s.nodes.Nodup) :
    (addRouter s id).nodes = s.nodes ∧
    (∀ x, (addRouter s id).adj x = s.adj x) ∧
    (SMap.find s.graph id ≠ none → addRouter s id = s) ∧
    addRouter (addRouter s id) id = addRouter s id ∧
    (addRouter s id).nodes.count id = 1 := by
  have hn : (addRouter s id).nodes = s.nodes := by
    unfold addRouter
    dsimp only
    rw [if_pos h]
  refine ⟨hn, addRouter_adj s id, ?_, addRouter_twice s id, ?_⟩
  · intro hk
    obtain ⟨es, hes⟩ := Option.ne_none_iff_exists'.mp hk
    unfold addRouter
    rw [if_pos h, hes]
  · rw [hn]
    exact List.count_eq_one_of_mem hnd h

/-- C16 applied to the triangle network and the router `A`. -/
theorem addRouter_idempotent_witness :
    (addRouter (build triangle) "A").nodes = (build triangle).nodes ∧
    (∀ x, (addRouter (build triangle) "A").adj x = (build triangle).adj x) ∧
    (SMap.find (build triangle).graph "A" ≠ none →
      addRouter (build triangle) "A" = build triangle) ∧
    addRouter (addRouter (build triangle) "A") "A" = addRouter (build triangle) "A" ∧
    (addRouter (build triangle) "A").nodes.count "A" = 1 :=
  addRouter_idempotent (build triangle) "A" (by decide) (build_nodes_nodup triangle)

/-! ## The frame of `linkDown` and `linkUp` (C17) -/

theorem markFirst_length (t : String) (up : Bool) (es : List Edge) :
    (markFirst t up es).length = es.length := by
  induction es with
  | nil => rfl
  | cons e es ih =>
    unfold markFirst
    split
    · rfl
    · simp [ih]

theorem markFirst_getElem? (t : String) (up : Bool) (es : List Edge) :
    ∀ i, (markFirst t up es)[i]? = (es[i]?).map fun e =>
      if firstIdx t es = some i then { e with isUp := up } else e := by
  induction es with
  | nil => intro i; simp [markFirst]
  | cons e es ih =>
    intro i
    unfold markFirst firstIdx
    by_cases h : e.dest = t
    · rw [if_pos h, if_pos h]
      cases i with
      | zero => simp
      | succ j =>
        simp only [List.getElem?_cons_succ]
        cases es[j]? <;> simp
    · rw [if_neg h, if_neg h]
      cases i with
      | zero =>
        simp only [List.getElem?_cons_zero, Option.map_some']
        cases firstIdx t es <;> simp
      | succ j =>
        simp only [List.getElem?_cons_succ, ih j]
        cases firstIdx t es <;> simp

theorem setLinkState_frame (s : Network) (a b : String) (up : Bool) :
    FirstMatchFrame s a b up (setLinkState s a b up) := by
  refine ⟨rfl, fun x => ?_⟩
  rw [setLinkState_adj]
  by_cases h1 : b = x
  · by_cases h2 : a = x
    · subst h1
      subst h2
      simp only [if_true, markFirst_markFirst, markFirst_length, markFirst_getElem?,
        true_and, or_self]
      exact fun _ => trivial
    · simp only [h1, h2, if_true, if_false, markFirst_length, markFirst_getElem?,
        true_and, false_and, false_or]
      exact fun _ => trivial
  · by_cases h2 : a = x
    · simp only [h1, h2, if_true, if_false, markFirst_length, markFirst_getElem?,
        true_and, false_and, or_false]
      exact fun _ => trivial
    · simp only [h1, h2, if_false, false_and, or_self]
      refine ⟨trivial, fun i => ?_⟩
      cases (s.adj x)[i]? <;> rfl

/-- C17. First-match frame of link-state changes: for every network state and
every `a`, `b`, `linkDown(a, b)` writes false, and `linkUp(a, b)` true, to the `isUp`
flag of the first half-edge with `dest = b` in the list of `a` and of the first
half-edge with `dest = a` in the list of `b`, and changes nothing else: the router
set, the length and order of every adjacency list, every `dest` and `cost`, and the
flag of every other half-edge are as before. -/
theorem linkDown_linkUp_frame (s : Network) (a b : String) :
    FirstMatchFrame s a b false (linkDown s a b) ∧
    FirstMatchFrame s a b true (linkUp s a b) :=
  ⟨setLinkState_frame s a b false, setLinkState_frame s a b true⟩

/-! ## Broken predecessor chains (C18) -/

theorem getPathLoop_broken (prev : SMap String) (src : String) (v x : String)
    (l : List String) (h : BrokenWalk prev src v l x) :
    ∀ acc fuel, l.length ≤ fuel → getPathLoop src prev fuel v acc = some (acc ++ l) := by
  induction h with
  | @stop x hx hn =>
    intro acc fuel hle
    obtain ⟨f, rfl⟩ : ∃ f, fuel = f + 1 := ⟨fuel - 1, by simp at hle; omega⟩
    unfold getPathLoop
    rw [if_neg hx]
    simp only [hn]
  | @step v p x l hv hp _ ih =>
    intro acc fuel hle
    obtain ⟨f, rfl⟩ : ∃ f, fuel = f + 1 := ⟨fuel - 1, by simp at hle; omega⟩
    unfold getPathLoop
    rw [if_neg hv]
    simp only [hp]
    rw [ih (acc ++ [v]) f (by simp at hle; omega)]
    simp

theorem BrokenWalk.ends {prev : SMap String} {src v x : String} {l : List String}
    (h : BrokenWalk prev src v l x) : l.head? = some v ∧ l.getLast? = some x := by
  induction h with
  | stop _ _ => simp
  | @step v p x l _ _ hw ih =>
    refine ⟨rfl, ?_⟩
    cases l with
    | nil => simp at ih
    | cons a l => simpa using ih.2

/-- C18, as amended. For every `src`, every `dest` and every predecessor map in which
`dest` has an entry but the backward walk from `dest` reaches a router `x` other than
`src` that has no entry, `getPath(src, dest, prev)` returns `src` followed by the
routers collected by that walk in forward order: the list `[src, x, ..., dest]`. -/
theorem getPath_broken_chain (prev : SMap String) (src dest x : String) (l : List String)
    (hd : SMap.find prev dest ≠ none) (hw : BrokenWalk prev src dest l x) :
    (∀ fuel, l.length ≤ fuel → getPath fuel src dest prev = some (src :: l.reverse)) ∧
    l.reverse.head? = some x ∧ l.reverse.getLast? = some dest := by
  refine ⟨?_, ?_, ?_⟩
  · intro fuel hle
    unfold getPath
    rw [if_neg (fun hh => hd hh.1), getPathLoop_broken prev src dest x l hw [] fuel hle]
    simp
  · rw [List.head?_reverse]
    exact hw.ends.2
  · rw [List.getLast?_reverse]
    exact hw.ends.1

/-- C18 as amended, applied to `prev = {C -> B}` with `src = A` and `dest = C`. -/
theorem getPath_broken_chain_witness :
    (∀ fuel, ["C", "B"].length ≤ fuel →
      getPath fuel "A" "C" [("C", "B")] = some ("A" :: ["C", "B"].reverse)) ∧
    ["C", "B"].reverse.head? = some "B" ∧ ["C", "B"].reverse.getLast? = some "C" :=
  getPath_broken_chain [("C", "B")] "A" "C" "B" ["C", "B"] (by decide)
    (BrokenWalk.step (by decide) (by decide) (BrokenWalk.stop (by decide) (by decide)))

/-- C18 as stated fails: with `prev = {C -> B}`, `src = A` and `dest = C`, the walk from
`C` stops at `B`, which has no entry and is not `A`, and `getPath` returns `[A, B, C]`:
the list starts with `src`, which the walk never visited, not with `x = B`. -/
theorem getPath_broken_chain_starts_with_src :
    SMap.find [("C", "B")] "C" ≠ none ∧
    BrokenWalk [("C", "B")] "A" "C" ["C", "B"] "B" ∧
    getPath 2 "A" "C" [("C", "B")] = some ["A", "B", "C"] ∧
    (["A", "B", "C"] : List String).head? ≠ some "B" :=
  ⟨by decide,
   BrokenWalk.step (by decide) (by decide) (BrokenWalk.stop (by decide) (by decide)),
   by decide, by decide⟩

/-! ## No overflow under the cost bound (C19) -/

theorem foldl_relaxEdgeLog_fst (P : PQueue) (u : String) (es : List Edge) :
    ∀ p : DState P × List Int,
      (es.foldl (relaxEdgeLog P u) p).1 = es.foldl (relaxEdge P u) p.1 := by
  induction es with
  | nil => intro p; rfl
  | cons e es ih => intro p; exact ih _

theorem dijkstraStepLog_fst (P : PQueue) (p : DState P × List Int) (curr : Node) (q1 : P.Q) :
    (dijkstraStepLog P p curr q1).1 = dijkstraStep P p.1 curr q1 := by
  unfold dijkstraStepLog dijkstraStep
  dsimp only
  split
  · rfl
  · exact foldl_relaxEdgeLog_fst P curr.id _ _

/-- The loop with the log is the loop of `dijkstra`: it returns after the same
number of iterations, with the same state. -/
theorem dijkstraLoopLog_fst (P : PQueue) (fuel : Nat) : ∀ p : DState P × List Int,
    (dijkstraLoopLog P fuel p).map Prod.fst = dijkstraLoop P fuel p.1 := by
  induction fuel with
  | zero => intro p; rfl
  | succ n ih =>
    intro p
    unfold dijkstraLoopLog dijkstraLoop
    cases hp : P.pop p.1.pq with
    | none => rfl
    | some cq =>
      obtain ⟨curr, q1⟩ := cq
      dsimp only
      rw [ih, dijkstraStepLog_fst]

theorem dijkstraLoopLog_mono (P : PQueue) (fuel : Nat) :
    ∀ (p r : DState P × List Int), dijkstraLoopLog P fuel p = some r →
      ∀ fuel2, fuel ≤ fuel2 → dijkstraLoopLog P fuel2 p = some r := by
  induction fuel with
  | zero => intro p r h; simp [dijkstraLoopLog] at h
  | succ n ih =>
    intro p r h fuel2 hle
    obtain ⟨m, rfl⟩ : ∃ m, fuel2 = m + 1 := ⟨fuel2 - 1, by omega⟩
    unfold dijkstraLoopLog at h ⊢
    cases hp : P.pop p.1.pq with
    | none => simpa [hp] using h
    | some cq =>
      obtain ⟨curr, q1⟩ := cq
      simp only [hp] at h ⊢
      exact ih _ _ h m (by omega)

/-- Under the invariant, the sum computed for an up half-edge of the router
being processed is non-negative and below `INT_MAX`. -/
theorem inner_sum_bound (P : PQueue) (s : Network) (source : String)
    (hnn : NonNegCosts s) (hsum : totalCost s < INT_MAX)
    (u : String) (T : List String) (done : List Edge) (st : DState P) (e : Edge)
    (hI : Inner P s source u T done st) (he : e ∈ s.adj u) :
    0 ≤ relaxSum u st e ∧ relaxSum u st e < INT_MAX := by
  obtain ⟨du, hdu, _⟩ := hI.top
  have hc0 := adj_cost_nonneg s hnn u e he
  have hcle := cost_le_outCost (s.adj u) (fun e he => adj_cost_nonneg s hnn u e he) e he
  obtain ⟨du1, hdu1, hduINF, hsb⟩ := hI.inv.sbound u (List.mem_cons_self _ _)
  rw [hdu] at hdu1
  injection hdu1 with hdu1
  subst hdu1
  have hb := hI.inv.bound u du hdu hduINF
  have hSC := settledCost_le_total s hnn (u :: T) hI.inv.nodupT
  have hval : relaxSum u st e = du + e.cost := by
    unfold relaxSum
    rw [SMap.getD_touch]
    simp [SMap.getD, hdu]
  rw [hval]
  exact ⟨by omega, by omega⟩

theorem foldl_relaxEdgeLog_inner (P : PQueue) (hP : P.Lawful) (s : Network) (source : String)
    (hnn : NonNegCosts s) (hdk : DestsKnown s) (hsum : totalCost s < INT_MAX)
    (u : String) (T : List String) (es : List Edge) :
    ∀ (done : List Edge) (p : DState P × List Int), (∀ e ∈ es, e ∈ s.adj u) →
      Inner P s source u T done p.1 → (∀ x ∈ p.2, 0 ≤ x ∧ x < INT_MAX) →
      ∀ x ∈ (es.foldl (relaxEdgeLog P u) p).2, 0 ≤ x ∧ x < INT_MAX := by
  induction es with
  | nil => intro done p _ _ h; exact h
  | cons e es ih =>
    intro done p hes hI hlog
    have he := hes e (List.mem_cons_self _ _)
    have h1 := relaxEdge_inner P hP s source hnn hdk hsum u T done p.1 e hI he
    refine ih (done ++ [e]) (relaxEdgeLog P u p e)
      (fun e1 he1 => hes e1 (List.mem_cons_of_mem _ he1)) h1 ?_
    intro x hx
    unfold relaxEdgeLog at hx
    dsimp only at hx
    split at hx
    · exact hlog x hx
    · rcases List.mem_append.mp hx with h2 | h2
      · exact hlog x h2
      · rw [List.mem_singleton] at h2
        rw [h2]
        exact inner_sum_bound P s source hnn hsum u T done p.1 e hI he

theorem dijkstraStepLog_bound (P : PQueue) (hP : P.Lawful) (s : Network) (source : String)
    (hnn : NonNegCosts s) (hdk : DestsKnown s) (hsum : totalCost s < INT_MAX)
    (p : DState P × List Int) (curr : Node) (q1 : P.Q)
    (hO : Outer P s source p.1) (hlog : ∀ x ∈ p.2, 0 ≤ x ∧ x < INT_MAX)
    (hpop : P.pop p.1.pq = some (curr, q1)) :
    ∀ x ∈ (dijkstraStepLog P p curr q1).2, 0 ≤ x ∧ x < INT_MAX := by
  obtain ⟨T, hD, hC⟩ := hO
  obtain ⟨hperm, _⟩ := hP.pop_some _ _ _ hpop
  obtain ⟨du, hdu, _, _⟩ := hD.queue curr (hperm.mem_iff.mpr (List.mem_cons_self _ _))
  unfold dijkstraStepLog
  rw [SMap.touch_of_find _ _ _ _ hdu]
  have h1 : SMap.getD p.1.dist curr.id 0 = du := by simp [SMap.getD, hdu]
  dsimp only
  rw [h1]
  by_cases hst : curr.dist > du
  · rw [if_pos hst]
    exact hlog
  · rw [if_neg hst]
    have hI0 := (pop_inner P hP s source hnn p.1 curr q1 T hD hC hpop du hdu hst).2
    refine foldl_relaxEdgeLog_inner P hP s source hnn hdk hsum curr.id T _ []
      ({ dist := p.1.dist, prev := p.1.prev, pq := q1,
         graph := SMap.touch p.1.graph curr.id [] }, p.2) ?_ hI0 hlog
    intro e he
    rw [SMap.getD_touch, hD.graph_eq] at he
    exact he

theorem dijkstraLoopLog_bound (P : PQueue) (hP : P.Lawful) (s : Network) (source : String)
    (hnn : NonNegCosts s) (hdk : DestsKnown s) (hsum : totalCost s < INT_MAX) (fuel : Nat) :
    ∀ (p r : DState P × List Int), Outer P s source p.1 →
      (∀ x ∈ p.2, 0 ≤ x ∧ x < INT_MAX) → dijkstraLoopLog P fuel p = some r →
      ∀ x ∈ r.2, 0 ≤ x ∧ x < INT_MAX := by
  induction fuel with
  | zero => intro p r _ _ h; simp [dijkstraLoopLog] at h
  | succ n ih =>
    intro p r hO hlog h
    unfold dijkstraLoopLog at h
    cases hp : P.pop p.1.pq with
    | none =>
      simp only [hp, Option.some.injEq] at h
      subst h
      exact hlog
    | some cq =>
      obtain ⟨curr, q1⟩ := cq
      simp only [hp] at h
      refine ih _ r ?_ (dijkstraStepLog_bound P hP s source hnn hdk hsum p curr q1 hO hlog hp) h
      rw [dijkstraStepLog_fst]
      exact dijkstraStep_outer P hP s source hnn hdk hsum p.1 curr q1 hO hp

/-- C19. No integer overflow under a cost bound: on every network built by the public
operations whose half-edge costs are non-negative and sum to at most `2^31 - 2`, and
for every source, `dijkstra` returns; every sum `dist[curr.id] + edge.cost` that it
computes is, taken exactly, within the range of a 32-bit signed `int` (it is
non-negative and below `INT_MAX`, so the `int` addition gives the exact value);
every value in the returned distance map is `INT_MAX` or a non-negative number
below `INT_MAX`; and every router that a walk over up half-edges reaches has a
distance other than `INT_MAX`. -/
theorem no_overflow_under_cost_bound (P : PQueue) (hP : P.Lawful) (ops : List Op)
    (source : String) (hnn : NonNegCosts (build ops))
    (hsum : totalCost (build ops) ≤ 2147483646) :
    ∃ N r sums, (∀ fuel, N ≤ fuel → dijkstra P fuel (build ops) source = some r ∧
        dijkstraSums P fuel (build ops) source = some sums) ∧
      (∀ x ∈ sums, -2147483648 ≤ x ∧ x ≤ 2147483647 ∧ 0 ≤ x ∧ x < INT_MAX ∧ wrapInt x = x) ∧
      (∀ v dv, SMap.find r.dist v = some dv → dv = INT_MAX ∨ (0 ≤ dv ∧ dv < INT_MAX)) ∧
      (∀ v ∈ (build ops).nodes, (∃ k, UpWalk (build ops) source v k) →
        ∃ dv, SMap.find r.dist v = some dv ∧ dv ≠ INT_MAX) := by
  have hsum2 : totalCost (build ops) < INT_MAX := by unfold INT_MAX; omega
  have hdk := build_destsKnown ops
  obtain ⟨N, st, hrun, hO, hq⟩ := dijkstraLoop_final P hP (build ops) source hnn hdk hsum2
  have hfst := dijkstraLoopLog_fst P N (dijkstraInit P (build ops) source, [])
  rw [hrun N (le_refl _)] at hfst
  cases hl : dijkstraLoopLog P N (dijkstraInit P (build ops) source, []) with
  | none => rw [hl] at hfst; simp at hfst
  | some r =>
    obtain ⟨st2, sums⟩ := r
    have hgood := dijkstraLoopLog_bound P hP (build ops) source hnn hdk hsum2 N _ _
      (dijkstraInit_outer P hP (build ops) source) (by intro x hx; simp at hx) hl
    refine ⟨N, { dist := st.dist, prev := st.prev, graph := st.graph }, sums, ?_, ?_, ?_, ?_⟩
    · intro fuel hle
      refine ⟨dijkstra_of_loop P fuel _ _ st (hrun fuel hle), ?_⟩
      unfold dijkstraSums
      rw [dijkstraLoopLog_mono P N _ _ hl fuel hle]
      rfl
    · intro x hx
      obtain ⟨h1, h2⟩ := hgood x hx
      have h3 : x < 2147483647 := h2
      exact ⟨by omega, by omega, h1, h2, wrapInt_exact x (by omega) (by omega)⟩
    · obtain ⟨T, hD, _⟩ := hO
      intro v dv hv
      by_cases hne : dv = INT_MAX
      · exact Or.inl hne
      · right
        have h1 := hD.bound v dv hv hne
        have h2 := settledCost_le_total (build ops) hnn T hD.nodupT
        exact ⟨h1.1, by omega⟩
    · rintro v _ ⟨k, hk⟩
      obtain ⟨dv, h1, h2, _⟩ := outer_le_walk P (build ops) source st hnn hsum2 hO hq v k hk
      exact ⟨dv, h1, h2⟩

/-- C19 applied to the triangle network and the source `A`. -/
theorem no_overflow_under_cost_bound_witness :
    ∃ N r sums, (∀ fuel, N ≤ fuel → dijkstra listPQ fuel (build triangle) "A" = some r ∧
        dijkstraSums listPQ fuel (build triangle) "A" = some sums) ∧
      (∀ x ∈ sums, -2147483648 ≤ x ∧ x ≤ 2147483647 ∧ 0 ≤ x ∧ x < INT_MAX ∧ wrapInt x = x) ∧
      (∀ v dv, SMap.find r.dist v = some dv → dv = INT_MAX ∨ (0 ≤ dv ∧ dv < INT_MAX)) ∧
      (∀ v ∈ (build triangle).nodes, (∃ k, UpWalk (build triangle) "A" v k) →
        ∃ dv, SMap.find r.dist v = some dv ∧ dv ≠ INT_MAX) :=
  no_overflow_under_cost_bound listPQ listPQ_lawful triangle "A" (by decide) (by decide)

/-! ## Distances are symmetric (C20) -/

/-- What `dijkstra` returns under the cost bound, on a network whose half-edges
lead to routers: every router has a distance; a router that a walk over up
half-edges reaches has a distance other than `INT_MAX` and no larger than the cost
of the walk; and a distance other than `INT_MAX` is the cost of such a walk and
lies in `[0, INT_MAX)`. -/
theorem dijkstra_dist_spec (P : PQueue) (hP : P.Lawful) (s : Network) (source : String)
    (hnn : NonNegCosts s) (hdk : DestsKnown s) (hsum : totalCost s < INT_MAX) :
    ∃ N r, (∀ fuel, N ≤ fuel → dijkstra P fuel s source = some r) ∧
      (∀ v ∈ s.nodes, ∃ dv, SMap.find r.dist v = some dv) ∧
      (∀ v k, UpWalk s source v k →
        ∃ dv, SMap.find r.dist v = some dv ∧ dv ≠ INT_MAX ∧ dv ≤ k) ∧
      (∀ v dv, SMap.find r.dist v = some dv → dv ≠ INT_MAX →
        UpWalk s source v dv ∧ 0 ≤ dv ∧ dv < INT_MAX) := by
  obtain ⟨N, st, hrun, hO, hq⟩ := dijkstraLoop_final P hP s source hnn hdk hsum
  refine ⟨N, { dist := st.dist, prev := st.prev, graph := st.graph },
    fun fuel hle => dijkstra_of_loop P fuel _ _ st (hrun fuel hle), ?_, ?_, ?_⟩
  · obtain ⟨T, hD, _⟩ := hO
    exact hD.keys
  · exact outer_le_walk P s source st hnn hsum hO hq
  · obtain ⟨T, hD, _⟩ := hO
    intro v dv hv hne
    have h1 := hD.bound v dv hv hne
    have h2 := settledCost_le_total s hnn T hD.nodupT
    exact ⟨hD.walk v dv hv hne, h1.1, by omega⟩

/-- In a network built by the public operations, every up half-edge `a -> b` has an
up half-edge `b -> a` of the same cost. -/
theorem build_up_edge_symm (ops : List Op) (a : String) (e : Edge)
    (he : e ∈ (build ops).adj a) (hup : e.isUp = true) :
    ∃ e2 ∈ (build ops).adj e.dest, e2.dest = a ∧ e2.isUp = true ∧ e2.cost = e.cost := by
  by_cases hab : a = e.dest
  · exact ⟨e, hab ▸ he, hab.symm, hup, rfl⟩
  · have hm := build_mirrored ops a e.dest hab
    have h1 : (e.cost, true) ∈ linkView e.dest ((build ops).adj a) := by
      unfold linkView
      rw [List.mem_map]
      exact ⟨e, List.mem_filter.mpr ⟨he, by simp⟩, by rw [hup]⟩
    rw [hm] at h1
    unfold linkView at h1
    rw [List.mem_map] at h1
    obtain ⟨e2, h2, h3⟩ := h1
    rw [List.mem_filter] at h2
    simp only [Prod.mk.injEq] at h3
    exact ⟨e2, h2.1, by simpa using h2.2, h3.2, h3.1⟩

/-- A walk over up half-edges can be extended at its start. -/
theorem UpWalk.prepend {s : Network} {a w : String} {k : Int} (e : Edge)
    (he : e ∈ s.adj a) (hup : e.isUp = true) (h : UpWalk s e.dest w k) :
    UpWalk s a w (e.cost + k) := by
  induction h with
  | start =>
    have := UpWalk.step e (@UpWalk.start s a) he hup
    simpa using this
  | @step u k e2 _ he2 hup2 ih =>
    have := UpWalk.step e2 ih he2 hup2
    rw [add_assoc] at this
    exact this

/-- In a network built by the public operations, a walk over up half-edges can be
walked backwards, at the same cost. -/
theorem UpWalk.reverse (ops : List Op) {u v : String} {k : Int}
    (h : UpWalk (build ops) u v k) : UpWalk (build ops) v u k := by
  induction h with
  | start => exact UpWalk.start
  | @step x k e _ he hup ih =>
    obtain ⟨e2, h1, h2, h3, h4⟩ := build_up_edge_symm ops x e he hup
    have h5 : UpWalk (build ops) e2.dest u k := by rw [h2]; exact ih
    have := UpWalk.prepend e2 h1 h3 h5
    rw [h4, add_comm] at this
    exact this

/-- C20. Distances are symmetric: on every network built by the public operations
whose half-edge costs are non-negative and sum to less than `INT_MAX`, and for any
two routers `u` and `v`, the distance of `v` returned by `dijkstra(u)` is the distance
of `u` returned by `dijkstra(v)`, and it is `INT_MAX` exactly when no walk over up
half-edges joins them. -/
theorem distances_symmetric (P : PQueue) (hP : P.Lawful) (ops : List Op) (u v : String)
    (hu : u ∈ (build ops).nodes) (hv : v ∈ (build ops).nodes)
    (hnn : NonNegCosts (build ops)) (hsum : totalCost (build ops) < INT_MAX) :
    ∃ N ru rv d, (∀ fuel, N ≤ fuel → dijkstra P fuel (build ops) u = some ru ∧
        dijkstra P fuel (build ops) v = some rv) ∧
      SMap.find ru.dist v = some d ∧ SMap.find rv.dist u = some d ∧
      (d = INT_MAX ↔ ¬ ∃ k, UpWalk (build ops) u v k) := by
  obtain ⟨N1, ru, hru, hku, hwu, hfu⟩ :=
    dijkstra_dist_spec P hP (build ops) u hnn (build_destsKnown ops) hsum
  obtain ⟨N2, rv, hrv, hkv, hwv, hfv⟩ :=
    dijkstra_dist_spec P hP (build ops) v hnn (build_destsKnown ops) hsum
  obtain ⟨d1, hd1⟩ := hku v hv
  obtain ⟨d2, hd2⟩ := hkv u hu
  have hrun : ∀ fuel, max N1 N2 ≤ fuel → dijkstra P fuel (build ops) u = some ru ∧
      dijkstra P fuel (build ops) v = some rv := fun fuel hle =>
    ⟨hru fuel (le_trans (le_max_left _ _) hle), hrv fuel (le_trans (le_max_right _ _) hle)⟩
  have h12 : d1 ≠ INT_MAX → d2 ≠ INT_MAX ∧ d2 ≤ d1 := by
    intro hne
    obtain ⟨d, h1, h2, h3⟩ := hwv u d1 (UpWalk.reverse ops (hfu v d1 hd1 hne).1)
    rw [hd2] at h1
    injection h1 with h1
    subst h1
    exact ⟨h2, h3⟩
  have h21 : d2 ≠ INT_MAX → d1 ≠ INT_MAX ∧ d1 ≤ d2 := by
    intro hne
    obtain ⟨d, h1, h2, h3⟩ := hwu v d2 (UpWalk.reverse ops (hfv u d2 hd2 hne).1)
    rw [hd1] at h1
    injection h1 with h1
    subst h1
    exact ⟨h2, h3⟩
  have heq : d1 = d2 := by
    by_cases h1 : d1 = INT_MAX
    · by_cases h2 : d2 = INT_MAX
      · rw [h1, h2]
      · exact absurd h1 (h21 h2).1
    · have h3 := h12 h1
      have h4 := h21 h3.1
      omega
  refine ⟨max N1 N2, ru, rv, d1, hrun, hd1, heq ▸ hd2, ?_⟩
  constructor
  · rintro h ⟨k, hk⟩
    obtain ⟨d, h1, h2, _⟩ := hwu v k hk
    rw [hd1] at h1
    injection h1 with h1
    subst h1
    exact h2 h
  · intro hno
    by_contra hne
    exact hno ⟨d1, (hfu v d1 hd1 hne).1⟩

/-- C20 applied to the triangle network after `linkDown("A", "C")` and the routers
`A` and `C`. -/
theorem distances_symmetric_witness :
    ∃ N ru rv d, (∀ fuel, N ≤ fuel → dijkstra listPQ fuel (build triangleDown) "A" = some ru ∧
        dijkstra listPQ fuel (build triangleDown) "C" = some rv) ∧
      SMap.find ru.dist "C" = some d ∧ SMap.find rv.dist "A" = some d ∧
      (d = INT_MAX ↔ ¬ ∃ k, UpWalk (build triangleDown) "A" "C" k) :=
  distances_symmetric listPQ listPQ_lawful triangleDown "A" "C" (by decide) (by decide)
    (by decide) (by decide)

end RouteFlow
